import Mathlib

/-!
Verification of the `dsa-utils` repository.

* `DsaUtils.RB` embeds `src/python/lib/red_black_tree.py`: a CLRS-style
  red-black tree with a shared BLACK sentinel.  The pointer structure with
  parent back-references is embedded as an inductive tree together with a
  zipper context (`Ctx`): a context layer records exactly the information the
  source reads through a node's parent pointer (the parent's colour, key,
  value and the sibling subtree), and the parent-climbing loops of the source
  become structural recursion over the context.
* `DsaUtils.PQ` embeds `src/python/lib/priority_queue.py`: an array-backed
  binary heap plus an item-to-index map.
-/

namespace DsaUtils
namespace RB

/-- Node colours as in the source: `RED = True`, `BLACK = False`. -/
def RED : Bool := true

/-- Node colours as in the source: `RED = True`, `BLACK = False`. -/
def BLACK : Bool := false

/-- The node graph of `red_black_tree.py`.  `nil` is the shared sentinel
(always BLACK, never holds a key/value); `node` is `_Node` with its colour,
children, key and value.  Parent pointers are recovered via `Ctx` below. -/
inductive Tree (K V : Type) where
  | nil : Tree K V
  | node (color : Bool) (l : Tree K V) (key : K) (value : V) (r : Tree K V) : Tree K V
deriving DecidableEq, Repr

/-- A zipper context: the path from a focused subtree up to the root.  A
`left` layer means the focus is the LEFT child of a node with colour `c`,
key `k`, value `v` whose other (right) child is `sib`; `right` mirrors it.
This is the functional rendering of the source's parent pointers. -/
inductive Ctx (K V : Type) where
  | root : Ctx K V
  | left (c : Bool) (k : K) (v : V) (sib : Tree K V) (up : Ctx K V) : Ctx K V
  | right (c : Bool) (k : K) (v : V) (sib : Tree K V) (up : Ctx K V) : Ctx K V
deriving DecidableEq, Repr

variable {K V : Type}

/-- Plug a subtree back into its context, rebuilding the whole tree. -/
def Ctx.rebuild : Ctx K V → Tree K V → Tree K V
  | .root, t => t
  | .left c k v sib up, t => up.rebuild (.node c t k v sib)
  | .right c k v sib up, t => up.rebuild (.node c sib k v t)

/-- Colour of a tree's root; the sentinel is BLACK (`self._nil.color = BLACK`). -/
def colorOf : Tree K V → Bool
  | .nil => BLACK
  | .node c _ _ _ _ => c

/-- Overwrite the colour of a root node (`x.color = ...` in the source).
Painting the sentinel is a no-op here; the source never usefully recolours
the sentinel on the paths our theorems exercise (see the comments at the
use sites). -/
def paint (c : Bool) : Tree K V → Tree K V
  | .nil => .nil
  | .node _ l k v r => .node c l k v r

/-- Payload of a Python `KeyError` raised by the tree: either the bare key
(`raise KeyError(key)`) or one of the two formatted boundary messages
(`KeyError(f"No successor for {key}")`, `KeyError(f"No predecessor for {key}")`). -/
inductive KeyErrArg (K : Type) where
  | key (k : K)
  | noSuccessor (k : K)
  | noPredecessor (k : K)
deriving DecidableEq, Repr

/-- A Python exception raised by `red_black_tree.py`, by class. -/
inductive RBErr (K : Type) where
  | keyError (a : KeyErrArg K)
  | valueError (s : String)
  | runtimeError (s : String)
deriving DecidableEq, Repr

/-- The Python exception class name — the "kind" of the error. -/
def RBErr.kind : RBErr K → String
  | .keyError _ => "KeyError"
  | .valueError _ => "ValueError"
  | .runtimeError _ => "RuntimeError"

/-- The tree object: `RedBlackTree.__slots__ = ("_root", "_nil", "_size")`
(the shared sentinel `_nil` is represented by `Tree.nil`). -/
structure RBTree (K V : Type) where
  root : Tree K V
  size : Nat
deriving DecidableEq, Repr

/-- A freshly constructed `RedBlackTree()`. -/
def emptyTree : RBTree K V := ⟨.nil, 0⟩

variable [LinearOrder K]

/-- `_search_node` (red_black_tree.py:141-151): descend from the root,
comparing the key at each node; returns the found node's value, `none`
standing for the sentinel. -/
def searchT : Tree K V → K → Option V
  | .nil, _ => none
  | .node _ l k2 v2 r, k =>
      if k = k2 then some v2
      else if k < k2 then searchT l k
      else searchT r k

/-- `__contains__` (line 156). -/
def containsT (t : RBTree K V) (k : K) : Bool := (searchT t.root k).isSome

/-- `__getitem__` (lines 162-166): `KeyError(key)` when absent. -/
def getitem (t : RBTree K V) (k : K) : Except (RBErr K) V :=
  match searchT t.root k with
  | none => .error (.keyError (.key k))
  | some v => .ok v

/-- `_fix_insert` (red_black_tree.py:314-351).  The focus `z` is always a
real RED-to-be node, passed as components `(c, l, k, v, r)`; the `while`
loop becomes structural recursion on the context.  The local rotations and
recolourings of Cases 2/3 are written as the restructured subtrees they
produce (`_rotate_left`/`_rotate_right` relink the same three nodes).

When the loop exits (`z.parent.color != RED`, i.e. the context is `root` or
its first layer is BLACK) the source finally forces `self._root.color =
BLACK`, hence the outer `paint BLACK` on the fully rebuilt tree.

The `.error` branches correspond to a RED parent sitting at the root: the
source then rotates at the sentinel grandparent and `_rotate_left`/
`_rotate_right` raise `RuntimeError` ("rotate called on a node with nil
child").  This state is unreachable from any valid tree (proved below). -/
def fixInsert : Ctx K V → Bool → Tree K V → K → V → Tree K V → Except (RBErr K) (Tree K V)
  | .root, c, l, k, v, r =>
      -- z is the root: its parent is the sentinel (BLACK); loop exits.
      .ok (paint BLACK (.node c l k v r))
  | .left pc pk pv ps up, c, l, k, v, r =>
      if pc = RED then
        match up with
        | .root => .error (.runtimeError "rotate_left called on a node with nil right child")
        | .left _ gk gv y up2 =>
            -- parent is the grandparent's LEFT child, uncle y on the right;
            -- z is the parent's LEFT child (outer grandchild).
            if colorOf y = RED then
              -- Case 1: parent and uncle become BLACK, grandparent RED,
              -- continue the loop with z = grandparent.
              fixInsert up2 RED (.node BLACK (.node c l k v r) pk pv ps) gk gv (paint BLACK y)
            else
              -- Case 3: parent BLACK, grandparent RED, right-rotate grandparent.
              .ok (paint BLACK (up2.rebuild
                (.node BLACK (.node c l k v r) pk pv (.node RED ps gk gv y))))
        | .right _ gk gv y up2 =>
            -- parent is the grandparent's RIGHT child, uncle y on the left;
            -- z is the parent's LEFT child (inner grandchild, mirror Case 2).
            if colorOf y = RED then
              fixInsert up2 RED (paint BLACK y) gk gv (.node BLACK (.node c l k v r) pk pv ps)
            else
              -- mirror Case 2 (right-rotate parent) then mirror Case 3
              -- (left-rotate grandparent): z's own node ends up on top, BLACK.
              .ok (paint BLACK (up2.rebuild
                (.node BLACK (.node RED y gk gv l) k v (.node RED r pk pv ps))))
      else
        -- loop exit: parent is BLACK; rebuild and blacken the root.
        .ok (paint BLACK (up.rebuild (.node pc (.node c l k v r) pk pv ps)))
  | .right pc pk pv ps up, c, l, k, v, r =>
      if pc = RED then
        match up with
        | .root => .error (.runtimeError "rotate_right called on a node with nil left child")
        | .left _ gk gv y up2 =>
            -- parent on the left of grandparent, z its RIGHT child (inner,
            -- Case 2 left-rotates the parent, Case 3 right-rotates grandparent).
            if colorOf y = RED then
              fixInsert up2 RED (.node BLACK ps pk pv (.node c l k v r)) gk gv (paint BLACK y)
            else
              .ok (paint BLACK (up2.rebuild
                (.node BLACK (.node RED ps pk pv l) k v (.node RED r gk gv y))))
        | .right _ gk gv y up2 =>
            -- parent on the right of grandparent, z its RIGHT child (outer,
            -- mirror Case 3: left-rotate grandparent).
            if colorOf y = RED then
              fixInsert up2 RED (paint BLACK y) gk gv (.node BLACK ps pk pv (.node c l k v r))
            else
              .ok (paint BLACK (up2.rebuild
                (.node BLACK (.node RED y gk gv ps) pk pv (.node c l k v r))))
      else
        .ok (paint BLACK (up.rebuild (.node pc ps pk pv (.node c l k v r))))

/-- `_bst_insert` (red_black_tree.py:275-309): descend recording the path;
an equal key overwrites the value in place (no fixup, no size change),
otherwise a new RED leaf is attached at the reached sentinel position and
`_fix_insert` runs.  The returned Bool reports whether a node was added. -/
def bstInsertLoop : Tree K V → Ctx K V → K → V → Except (RBErr K) (Tree K V × Bool)
  | .nil, ctx, k, v => (fixInsert ctx RED .nil k v .nil).map (fun t => (t, true))
  | .node c l k2 v2 r, ctx, k, v =>
      if k = k2 then .ok (ctx.rebuild (.node c l k2 v r), false)
      else if k < k2 then bstInsertLoop l (.left c k2 v2 r ctx) k v
      else bstInsertLoop r (.right c k2 v2 l ctx) k v

/-- `__setitem__` (lines 168-170): insert or replace; `_size` increments
exactly when a new node was created. -/
def setitem (t : RBTree K V) (k : K) (v : V) : Except (RBErr K) (RBTree K V) :=
  (bstInsertLoop t.root .root k v).map
    (fun p => ⟨p.1, t.size + (if p.2 then 1 else 0)⟩)

/-- In-order list of key/value pairs stored in a tree. -/
def inorder : Tree K V → List (K × V)
  | .nil => []
  | .node _ l k v r => inorder l ++ (k, v) :: inorder r

/-- Number of real nodes. -/
def sizeT : Tree K V → Nat
  | .nil => 0
  | .node _ l _ _ r => sizeT l + sizeT r + 1

/-- `_minimum_node` walk (red_black_tree.py:208-215) returning the reached
node's key: follow left children while they are real; `ValueError` on the
sentinel. -/
def minimumNodeKey : Tree K V → Except (RBErr K) K
  | .nil => .error (.valueError "Tree is empty")
  | .node _ l k _ _ =>
      match l with
      | .nil => .ok k
      | .node c2 l2 k2 v2 r2 => minimumNodeKey (.node c2 l2 k2 v2 r2)

/-- `_maximum_node` walk (red_black_tree.py:217-224), mirror image. -/
def maximumNodeKey : Tree K V → Except (RBErr K) K
  | .nil => .error (.valueError "Tree is empty")
  | .node _ _ k _ r =>
      match r with
      | .nil => .ok k
      | .node c2 l2 k2 v2 r2 => maximumNodeKey (.node c2 l2 k2 v2 r2)

/-- `min_key` (lines 226-228). -/
def minKey (t : RBTree K V) : Except (RBErr K) K := minimumNodeKey t.root

/-- `max_key` (lines 230-232). -/
def maxKey (t : RBTree K V) : Except (RBErr K) K := maximumNodeKey t.root

/-- `_search_node`, additionally keeping the descent path as a context (the
source instead reaches the path through parent pointers).  Returns the
focused node decomposed into its components. -/
def searchZ : Tree K V → Ctx K V → K → Option (Ctx K V × Bool × Tree K V × K × V × Tree K V)
  | .nil, _, _ => none
  | .node c l k2 v2 r, ctx, k =>
      if k = k2 then some (ctx, c, l, k2, v2, r)
      else if k < k2 then searchZ l (.left c k2 v2 r ctx) k
      else searchZ r (.right c k2 v2 l ctx) k

/-- The parent-climbing loop of `successor` (lines 247-252): while the focus
is a right child move up; the answer is the first ancestor of which the
focus is a left child, `none` when the sentinel is reached. -/
def climbSucc : Ctx K V → Option K
  | .root => none
  | .left _ k _ _ _ => some k
  | .right _ _ _ _ up => climbSucc up

/-- The parent-climbing loop of `predecessor` (lines 264-269), mirror. -/
def climbPred : Ctx K V → Option K
  | .root => none
  | .right _ k _ _ _ => some k
  | .left _ _ _ _ up => climbPred up

/-- `successor` (red_black_tree.py:237-253): `KeyError(key)` when the key is
absent; the minimum of the right subtree when it is real; otherwise climb,
`KeyError(f"No successor for {key}")` past the maximum. -/
def successor (t : RBTree K V) (k : K) : Except (RBErr K) K :=
  match searchZ t.root .root k with
  | none => .error (.keyError (.key k))
  | some (ctx, _, _, _, _, r) =>
      match r with
      | .node c2 l2 k2 v2 r2 => minimumNodeKey (.node c2 l2 k2 v2 r2)
      | .nil =>
          match climbSucc ctx with
          | some ky => .ok ky
          | none => .error (.keyError (.noSuccessor k))

/-- `predecessor` (red_black_tree.py:255-270), mirror image. -/
def predecessor (t : RBTree K V) (k : K) : Except (RBErr K) K :=
  match searchZ t.root .root k with
  | none => .error (.keyError (.key k))
  | some (ctx, _, l, _, _, _) =>
      match l with
      | .node c2 l2 k2 v2 r2 => maximumNodeKey (.node c2 l2 k2 v2 r2)
      | .nil =>
          match climbPred ctx with
          | some ky => .ok ky
          | none => .error (.keyError (.noPredecessor k))

/-- Concatenate two contexts: replace the `root` end of the first by the
second (used to place the path produced by `minSplit` below an outer path). -/
def ctxAppend : Ctx K V → Ctx K V → Ctx K V
  | .root, c2 => c2
  | .left c k v s up, c2 => .left c k v s (ctxAppend up c2)
  | .right c k v s up, c2 => .right c k v s (ctxAppend up c2)

/-- The `_minimum_node(z.right)` walk inside `_delete_node` (line 423),
additionally recording the path: returns the leftmost node's colour, key,
value and right child, and the context of its position relative to the
given subtree root. -/
def minSplit : Tree K V → Ctx K V → Option (Bool × K × V × Tree K V × Ctx K V)
  | .nil, _ => none
  | .node c l k v r, acc =>
      match l with
      | .nil => some (c, k, v, r, acc)
      | .node c2 l2 k2 v2 r2 => minSplit (.node c2 l2 k2 v2 r2) (.left c k v r acc)

/-- Cases 2-4 of `_fix_delete` (red_black_tree.py:460-476), left orientation:
the focus `x` is a left child of a node `(pc, k, v)` with sibling `w` and
context `up` above that parent.  `.inl x2` means Case 2 recoloured `w` RED
and moved the focus up to the parent (`x2` is the parent's subtree, to be
refocused under `up`); `.inr t` means Cases 3/4 ran, `x` was set to the root
and `t` is the fully rebuilt tree (the final `x.color = BLACK` of the loop
exit, which then blackens the root, is applied by the caller). -/
def delCases234L (up : Ctx K V) (pc : Bool) (k : K) (v : V) (w x : Tree K V) :
    Sum (Tree K V) (Tree K V) :=
  match w with
  | .nil =>
      -- both children of the sentinel sibling are "BLACK": Case 2.  (The
      -- source recolours the shared sentinel RED here; `paint` makes this a
      -- no-op, and the state is unreachable when the invariants hold.)
      .inl (.node pc x k v (paint RED .nil))
  | .node _ wl kw vw wr =>
      if colorOf wl = BLACK ∧ colorOf wr = BLACK then
        -- Case 2: recolour w RED, x moves to its parent.
        .inl (.node pc x k v (.node RED wl kw vw wr))
      else
        if colorOf wr = BLACK then
          -- Case 3: w.left is RED; blacken it, redden w, right-rotate w,
          -- then fall into Case 4 with the new sibling.
          match wl with
          | .node _ a ka va b =>
              .inr (Ctx.rebuild up
                (.node pc (.node BLACK x k v a) ka va (.node BLACK b kw vw wr)))
          | .nil =>
              -- impossible: `wl` BLACK and `wr` BLACK contradicts the guard
              -- (the source would right-rotate a node with a nil left child)
              .inr (Ctx.rebuild up (.node pc x k v (.node RED wl kw vw wr)))
        else
          -- Case 4: w.right is RED; w takes the parent's colour, parent and
          -- w.right become BLACK, left-rotate the parent; x := root.
          .inr (Ctx.rebuild up
            (.node pc (.node BLACK x k v wl) kw vw (paint BLACK wr)))

/-- Cases 2-4 of `_fix_delete` (red_black_tree.py:485-498), right
orientation (mirror of `delCases234L`: the focus is a right child, the
sibling `w` is on the left). -/
def delCases234R (up : Ctx K V) (pc : Bool) (k : K) (v : V) (w x : Tree K V) :
    Sum (Tree K V) (Tree K V) :=
  match w with
  | .nil => .inl (.node pc (paint RED .nil) k v x)
  | .node _ wl kw vw wr =>
      if colorOf wr = BLACK ∧ colorOf wl = BLACK then
        .inl (.node pc (.node RED wl kw vw wr) k v x)
      else
        if colorOf wl = BLACK then
          -- mirror Case 3: w.right is RED; left-rotate w, fall into Case 4.
          match wr with
          | .node _ a ka va b =>
              .inr (Ctx.rebuild up
                (.node pc (.node BLACK wl kw vw a) ka va (.node BLACK b k v x)))
          | .nil =>
              .inr (Ctx.rebuild up (.node pc (.node RED wl kw vw wr) k v x))
        else
          -- mirror Case 4: w.left is RED; right-rotate the parent.
          .inr (Ctx.rebuild up
            (.node pc (paint BLACK wl) kw vw (.node BLACK wr k v x)))

/-- `_fix_delete` (red_black_tree.py:446-499).  The focus `x` may be the
sentinel; the source then reads the side and the parent through the
sentinel's scratch parent pointer, which the context records here.  (With a
shared sentinel the source resolves `x is x.parent.left` by object identity;
when both children of the parent are the sentinel this says "left" whichever
side was spliced — a state that cannot arise while the black-height
invariant holds, which is the only regime our theorems use.)

Loop structure: a RED focus or a root focus exits the loop and is painted
BLACK in place; Case 1 rotates the RED sibling over the parent and falls
through to Cases 2-4 under the rewritten context — after Case 1 the parent
is RED, so a Case 2 outcome exits the loop on re-entry (focus RED) and only
a plain Case 2 continues the recursion, one context layer up. -/
def fixDelete : Ctx K V → Tree K V → Tree K V
  | .root, x => paint BLACK x
  | .left c k v w up, x =>
      if colorOf x = RED then Ctx.rebuild up (.node c (paint BLACK x) k v w)
      else
        match w with
        | .node true wl kw vw wr =>
            -- Case 1 (sibling RED): w BLACK, parent RED, left-rotate parent;
            -- the new sibling is wl, under context layers
            -- [x left of (RED,k,v), that left of (BLACK,kw,vw) with sib wr].
            match delCases234L (.left BLACK kw vw wr up) RED k v wl x with
            | .inl x2 =>
                -- Case 2 after Case 1: the loop re-tests with the RED parent
                -- as focus and exits, blackening it.
                Ctx.rebuild (.left BLACK kw vw wr up) (paint BLACK x2)
            | .inr t => paint BLACK t
        | .node false wl kw vw wr =>
            match delCases234L up c k v (.node false wl kw vw wr) x with
            | .inl x2 => fixDelete up x2
            | .inr t => paint BLACK t
        | .nil =>
            match delCases234L up c k v .nil x with
            | .inl x2 => fixDelete up x2
            | .inr t => paint BLACK t
  | .right c k v w up, x =>
      if colorOf x = RED then Ctx.rebuild up (.node c w k v (paint BLACK x))
      else
        match w with
        | .node true wl kw vw wr =>
            -- mirror Case 1: right-rotate the parent; new sibling is wr.
            match delCases234R (.right BLACK kw vw wl up) RED k v wr x with
            | .inl x2 => Ctx.rebuild (.right BLACK kw vw wl up) (paint BLACK x2)
            | .inr t => paint BLACK t
        | .node false wl kw vw wr =>
            match delCases234R up c k v (.node false wl kw vw wr) x with
            | .inl x2 => fixDelete up x2
            | .inr t => paint BLACK t
        | .nil =>
            match delCases234R up c k v .nil x with
            | .inl x2 => fixDelete up x2
            | .inr t => paint BLACK t

/-- `_delete_node` (red_black_tree.py:411-441) acting on the focused node
`z = (c, l, k, v, r)` located by `searchZ`.  Returns the new root tree.
When `z` has two children its in-order successor `y` (leftmost of `r`) is
relocated into `z`'s slot keeping `z`'s colour, and the fixup (when `y` was
BLACK) starts from `y`'s old right child `x` in `y`'s old position. -/
def deleteNode (ctx : Ctx K V) (c : Bool) (l : Tree K V) (k : K) (v : V) (r : Tree K V) :
    Tree K V :=
  match l with
  | .nil =>
      -- transplant(z, z.right); x = z.right
      if c = BLACK then fixDelete ctx r else Ctx.rebuild ctx r
  | .node cl ll kl vl rl =>
      match r with
      | .nil => if c = BLACK then fixDelete ctx l else Ctx.rebuild ctx l
      | .node cr rl2 kr vr rr =>
          match minSplit (.node cr rl2 kr vr rr) .root with
          | none => .nil   -- unreachable: the right subtree is non-empty
          | some (cy, ky, vy, yr, rel) =>
              let ctx2 := ctxAppend rel (.right c ky vy (.node cl ll kl vl rl) ctx)
              if cy = BLACK then fixDelete ctx2 yr else Ctx.rebuild ctx2 yr

/-- `__delitem__` (red_black_tree.py:172-176): `KeyError(key)` when absent,
otherwise delete the found node and decrement `_size`. -/
def delitem (t : RBTree K V) (k : K) : Except (RBErr K) (RBTree K V) :=
  match searchZ t.root .root k with
  | none => .error (.keyError (.key k))
  | some (ctx, c, l, k2, v2, r) => .ok ⟨deleteNode ctx c l k2 v2 r, t.size - 1⟩

/-- Local BST check of `validate` against the left child (line 530-533). -/
def bstLeftBad (k : K) : Tree K V → Bool
  | .nil => false
  | .node _ _ kl _ _ => if kl < k then false else true

/-- Local BST check of `validate` against the right child (line 534-537). -/
def bstRightBad (k : K) : Tree K V → Bool
  | .nil => false
  | .node _ _ kr _ _ => if k < kr then false else true

/-- The recursive `dfs` of `validate` (red_black_tree.py:510-547): returns
the black height, or the message of the first failed assertion.  `isRoot`
replaces the source's `node is self._root` identity test. -/
def validateDfs : Bool → Tree K V → Except String Nat
  | _, .nil => .ok 1
  | isRoot, .node c l k _ r =>
      if isRoot ∧ c = RED then .error "Root is not black"
      else if c = RED ∧ colorOf l = RED then .error "Red node has red left child"
      else if c = RED ∧ colorOf r = RED then .error "Red node has red right child"
      else if bstLeftBad k l then .error "BST property violated (left child larger)"
      else if bstRightBad k r then .error "BST property violated (right child smaller)"
      else
        match validateDfs false l, validateDfs false r with
        | .error e, _ => .error e
        | .ok _, .error e => .error e
        | .ok lb, .ok rb =>
            if lb = rb then .ok (lb + (if c = BLACK then 1 else 0))
            else .error "Black-height mismatch"

/-- `validate` (red_black_tree.py:504-551): run `dfs` from the root when the
tree is non-empty; raises (returns `.error`) on the first violation. -/
def validate (t : RBTree K V) : Except String Unit :=
  match t.root with
  | .nil => .ok ()
  | .node c l k v r => (validateDfs true (.node c l k v r)).map (fun _ => ())

/-- `__iter__` (red_black_tree.py:178-188): iterative in-order traversal
with an explicit stack; stack entries hold the components of the pushed
(real) nodes. -/
def iterLoop : List (Bool × Tree K V × K × V × Tree K V) → Tree K V → List K
  | stack, .node c l k v r => iterLoop ((c, l, k, v, r) :: stack) l
  | [], .nil => []
  | (_, _, k, _, r) :: stack, .nil => k :: iterLoop stack r
termination_by stack t => 2 * sizeT t + (stack.map (fun e => 2 * sizeT e.2.2.2.2 + 1)).sum
decreasing_by
  all_goals simp [sizeT]
  all_goals omega

/-- `for key in tree` — the key sequence yielded by `__iter__`. -/
def iterT (t : RBTree K V) : List K := iterLoop [] t.root

/-! ### Red-black invariant predicates -/

/-- Black height of a tree along its left spine (the sentinel counts 1, as
in `validate`). -/
def blackH : Tree K V → Nat
  | .nil => 1
  | .node c l _ _ _ => blackH l + (if c = BLACK then 1 else 0)

/-- All root-to-sentinel paths of every subtree have equal black height. -/
def BhOk : Tree K V → Prop
  | .nil => True
  | .node _ l _ _ r => BhOk l ∧ BhOk r ∧ blackH l = blackH r

/-- No RED node has a RED child. -/
def Nrr : Tree K V → Prop
  | .nil => True
  | .node c l _ _ r =>
      (c = RED → colorOf l = BLACK ∧ colorOf r = BLACK) ∧ Nrr l ∧ Nrr r

/-- Colour of the node a context layer belongs to (BLACK for the sentinel
above the root). -/
def ctxColor : Ctx K V → Bool
  | .root => BLACK
  | .left c _ _ _ _ => c
  | .right c _ _ _ _ => c

/-- Red-black consistency of a context whose hole expects black height `m`:
sibling subtrees are internally valid with the right black heights, the
outermost layer is BLACK (the tree root), and a RED layer has a BLACK
sibling root and a BLACK parent layer. -/
def CtxRB : Ctx K V → Nat → Prop
  | .root, _ => True
  | .left c _ _ sib up, m =>
      blackH sib = m ∧ BhOk sib ∧ Nrr sib ∧
      CtxRB up (m + (if c = BLACK then 1 else 0)) ∧
      (up = .root → c = BLACK) ∧
      (c = RED → colorOf sib = BLACK ∧ ctxColor up = BLACK)
  | .right c _ _ sib up, m =>
      blackH sib = m ∧ BhOk sib ∧ Nrr sib ∧
      CtxRB up (m + (if c = BLACK then 1 else 0)) ∧
      (up = .root → c = BLACK) ∧
      (c = RED → colorOf sib = BLACK ∧ ctxColor up = BLACK)

theorem blackH_pos (t : Tree K V) : 1 ≤ blackH t := by
  induction t with
  | nil => simp [blackH]
  | node c l k v r ihl ihr => simp [blackH]; omega

theorem BhOk_paint (c : Bool) (t : Tree K V) : BhOk (paint c t) ↔ BhOk t := by
  cases t <;> simp [paint, BhOk]

theorem Nrr_node_BLACK {l r : Tree K V} {k : K} {v : V} (hl : Nrr l) (hr : Nrr r) :
    Nrr (.node BLACK l k v r) := by
  refine ⟨fun h => ?_, hl, hr⟩
  simp [BLACK, RED] at h

theorem Nrr_paint_BLACK {t : Tree K V} (h : Nrr t) : Nrr (paint BLACK t) := by
  cases t with
  | nil => exact h
  | node c l k v r => exact Nrr_node_BLACK h.2.1 h.2.2

theorem colorOf_paint_BLACK (t : Tree K V) : colorOf (paint BLACK t) = BLACK := by
  cases t <;> simp [paint, colorOf]

theorem not_RED_eq_BLACK {c : Bool} (h : ¬ c = RED) : c = BLACK := by
  cases c <;> simp_all [RED, BLACK]

theorem RED_of_ne_BLACK {c : Bool} (h : ¬ c = BLACK) : c = RED := by
  cases c <;> simp_all [RED, BLACK]

/-- Rebuilding a valid hole filler through a red-black consistent context
yields a tree with consistent black heights and no red-red violations; when
the context is non-trivial the rebuilt root is BLACK (the outermost layer
of a valid context is the tree root). -/
theorem rebuild_RB :
    ∀ (ctx : Ctx K V) (m : Nat) (t : Tree K V), CtxRB ctx m → blackH t = m →
      BhOk t → Nrr t → (ctxColor ctx = RED → colorOf t = BLACK) →
      BhOk (ctx.rebuild t) ∧ Nrr (ctx.rebuild t) ∧
        (ctx ≠ .root → colorOf (ctx.rebuild t) = BLACK)
  | .root, m, t, _, _, hok, hn, _ => ⟨hok, hn, fun h => absurd rfl h⟩
  | .left c k v sib up, m, t, hc, hbh, hok, hn, hred => by
      obtain ⟨hsb, hsok, hsn, hup, htop, hrc⟩ := hc
      have hcol : ctxColor up = RED → colorOf (Tree.node c t k v sib) = BLACK := by
        intro h
        simp only [colorOf]
        by_contra hne
        exact absurd ((hrc (RED_of_ne_BLACK hne)).2) (by simp [h, RED, BLACK])
      have ih := rebuild_RB up (m + (if c = BLACK then 1 else 0))
        (.node c t k v sib) hup (by simp [blackH, hbh]) ⟨hok, hsok, hbh.trans hsb.symm⟩
        ⟨fun hcr => ⟨hred (by simp [ctxColor, hcr]), (hrc hcr).1⟩, hn, hsn⟩ hcol
      refine ⟨ih.1, ih.2.1, fun _ => ?_⟩
      by_cases hu : up = Ctx.root
      · subst hu
        simpa [Ctx.rebuild, colorOf] using htop rfl
      · exact ih.2.2 hu
  | .right c k v sib up, m, t, hc, hbh, hok, hn, hred => by
      obtain ⟨hsb, hsok, hsn, hup, htop, hrc⟩ := hc
      have hcol : ctxColor up = RED → colorOf (Tree.node c sib k v t) = BLACK := by
        intro h
        simp only [colorOf]
        by_contra hne
        exact absurd ((hrc (RED_of_ne_BLACK hne)).2) (by simp [h, RED, BLACK])
      have ih := rebuild_RB up (m + (if c = BLACK then 1 else 0))
        (.node c sib k v t) hup (by simp [blackH, hsb]) ⟨hsok, hok, hsb.trans hbh.symm⟩
        ⟨fun hcr => ⟨(hrc hcr).1, hred (by simp [ctxColor, hcr])⟩, hsn, hn⟩ hcol
      refine ⟨ih.1, ih.2.1, fun _ => ?_⟩
      by_cases hu : up = Ctx.root
      · subst hu
        simpa [Ctx.rebuild, colorOf] using htop rfl
      · exact ih.2.2 hu

theorem Nrr_node_RED {l r : Tree K V} {k : K} {v : V} (hcl : colorOf l = BLACK)
    (hcr : colorOf r = BLACK) (hl : Nrr l) (hr : Nrr r) : Nrr (.node RED l k v r) :=
  ⟨fun _ => ⟨hcl, hcr⟩, hl, hr⟩

/-- `_fix_insert` restores the red-black invariants: starting from a RED
focus with BLACK-rooted, internally valid children of equal black height
`m`, inside a red-black consistent context expecting black height `m` at
the hole, the fixup succeeds and yields a tree with no red-red violations,
consistent black heights, and a BLACK root. -/
theorem fixInsert_RB :
    ∀ (ctx : Ctx K V) (m : Nat) (l : Tree K V) (k : K) (v : V) (r : Tree K V),
      CtxRB ctx m → blackH l = m → blackH r = m → BhOk l → BhOk r → Nrr l → Nrr r →
      colorOf l = BLACK → colorOf r = BLACK →
      ∃ t, fixInsert ctx RED l k v r = .ok t ∧ BhOk t ∧ Nrr t ∧ colorOf t = BLACK
  | .root, m, l, k, v, r, _, hbl, hbr, hokl, hokr, hnl, hnr, _, _ => by
      refine ⟨.node BLACK l k v r, by simp [fixInsert, paint], ?_, Nrr_node_BLACK hnl hnr, rfl⟩
      exact ⟨hokl, hokr, hbl.trans hbr.symm⟩
  | .left pc pk pv ps up, m, l, k, v, r, hc, hbl, hbr, hokl, hokr, hnl, hnr, hcl, hcr => by
      obtain ⟨hsb, hsok, hsn, hup, htop, hrc⟩ := hc
      by_cases hpc : pc = RED
      · subst hpc
        simp [RED, BLACK] at hup
        cases up with
        | root => exact absurd (htop rfl) (by simp [RED, BLACK])
        | left gc gk gv y up2 =>
            obtain ⟨hyb, hyok, hyn, hup2, htop2, hrc2⟩ := hup
            have hgc : gc = BLACK := (hrc rfl).2
            subst hgc
            simp [BLACK] at hup2
            by_cases hy : colorOf y = RED
            · -- Case 1: recolour and continue from the grandparent
              cases y with
              | nil => simp [colorOf, RED, BLACK] at hy
              | node yc ya yk yv yb =>
                have hyc : yc = RED := hy
                subst hyc
                simp [blackH, RED, BLACK] at hyb
                obtain ⟨t, ht, hok, hn, hcol⟩ := fixInsert_RB up2 (m + 1)
                  (.node BLACK (.node RED l k v r) pk pv ps) gk gv
                  (paint BLACK (.node RED ya yk yv yb))
                  hup2
                  (by simp [blackH, hbl, RED, BLACK])
                  (by simp [paint, blackH, hyb, RED, BLACK])
                  (by exact ⟨⟨hokl, hokr, hbl.trans hbr.symm⟩, hsok, by simp [blackH, hbl, hsb, RED, BLACK]⟩)
                  (by simpa [paint] using hyok)
                  (Nrr_node_BLACK (Nrr_node_RED hcl hcr hnl hnr) hsn)
                  (Nrr_paint_BLACK hyn) rfl (by simp [paint, colorOf])
                exact ⟨t, by simpa [fixInsert, RED, colorOf] using ht, hok, hn, hcol⟩
            · -- Case 3: z outer-left; restructure around the grandparent
              have hyB : colorOf y = BLACK := not_RED_eq_BLACK hy
              have hps : colorOf ps = BLACK := (hrc rfl).1
              have hsub := rebuild_RB up2 (m + 1)
                (.node BLACK (.node RED l k v r) pk pv (.node RED ps gk gv y))
                hup2 (by simp [blackH, hbl, RED, BLACK])
                ⟨⟨hokl, hokr, hbl.trans hbr.symm⟩, ⟨hsok, hyok, hsb.trans hyb.symm⟩,
                  by simp [blackH, hbl, hsb, RED, BLACK]⟩
                (Nrr_node_BLACK (Nrr_node_RED hcl hcr hnl hnr)
                  (Nrr_node_RED hps hyB hsn hyn))
                (fun _ => rfl)
              have heq : fixInsert (.left RED pk pv ps (.left BLACK gk gv y up2) : Ctx K V) RED l k v r
                  = .ok (paint BLACK (up2.rebuild (.node BLACK (.node RED l k v r) pk pv (.node RED ps gk gv y)))) := by
                simp [fixInsert, RED, BLACK, hyB]
              exact ⟨_, heq, (BhOk_paint _ _).2 hsub.1, Nrr_paint_BLACK hsub.2.1,
                colorOf_paint_BLACK _⟩
        | right gc gk gv y up2 =>
            obtain ⟨hyb, hyok, hyn, hup2, htop2, hrc2⟩ := hup
            have hgc : gc = BLACK := (hrc rfl).2
            subst hgc
            simp [BLACK] at hup2
            by_cases hy : colorOf y = RED
            · -- Case 1 (mirror): recolour and continue from the grandparent
              cases y with
              | nil => simp [colorOf, RED, BLACK] at hy
              | node yc ya yk yv yb =>
                have hyc : yc = RED := hy
                subst hyc
                simp [blackH, RED, BLACK] at hyb
                obtain ⟨t, ht, hok, hn, hcol⟩ := fixInsert_RB up2 (m + 1)
                  (paint BLACK (.node RED ya yk yv yb)) gk gv
                  (.node BLACK (.node RED l k v r) pk pv ps)
                  hup2
                  (by simp [paint, blackH, hyb, RED, BLACK])
                  (by simp [blackH, hbl, RED, BLACK])
                  (by simpa [paint] using hyok)
                  (by exact ⟨⟨hokl, hokr, hbl.trans hbr.symm⟩, hsok, by simp [blackH, hbl, hsb, RED, BLACK]⟩)
                  (Nrr_paint_BLACK hyn)
                  (Nrr_node_BLACK (Nrr_node_RED hcl hcr hnl hnr) hsn)
                  (by simp [paint, colorOf]) rfl
                exact ⟨t, by simpa [fixInsert, RED, colorOf] using ht, hok, hn, hcol⟩
            · -- Cases 2+3 (z inner: parent right child, z left child)
              have hyB : colorOf y = BLACK := not_RED_eq_BLACK hy
              have hps : colorOf ps = BLACK := (hrc rfl).1
              have hsub := rebuild_RB up2 (m + 1)
                (.node BLACK (.node RED y gk gv l) k v (.node RED r pk pv ps))
                hup2 (by simp [blackH, hyb, RED, BLACK])
                ⟨⟨hyok, hokl, hyb.trans hbl.symm⟩, ⟨hokr, hsok, hbr.trans hsb.symm⟩,
                  by simp [blackH, hyb, hbr, RED, BLACK]⟩
                (Nrr_node_BLACK (Nrr_node_RED hyB hcl hyn hnl)
                  (Nrr_node_RED hcr hps hnr hsn))
                (fun _ => rfl)
              have heq : fixInsert (.left RED pk pv ps (.right BLACK gk gv y up2) : Ctx K V) RED l k v r
                  = .ok (paint BLACK (up2.rebuild (.node BLACK (.node RED y gk gv l) k v (.node RED r pk pv ps)))) := by
                simp [fixInsert, RED, BLACK, hyB]
              exact ⟨_, heq, (BhOk_paint _ _).2 hsub.1, Nrr_paint_BLACK hsub.2.1,
                colorOf_paint_BLACK _⟩
      · -- loop exit: the parent is BLACK
        have hpcB : pc = BLACK := not_RED_eq_BLACK hpc
        subst hpcB
        have hsub := rebuild_RB up (m + 1) (.node BLACK (.node RED l k v r) pk pv ps)
          (by simpa [BLACK] using hup) (by simp [blackH, hbl, RED, BLACK])
          ⟨⟨hokl, hokr, hbl.trans hbr.symm⟩, hsok, by simp [blackH, hbl, hsb, RED, BLACK]⟩
          (Nrr_node_BLACK (Nrr_node_RED hcl hcr hnl hnr) hsn)
          (fun _ => rfl)
        have heq : fixInsert (.left BLACK pk pv ps up : Ctx K V) RED l k v r
            = .ok (paint BLACK (up.rebuild
              (.node BLACK (.node RED l k v r) pk pv ps))) := by
          rw [fixInsert.eq_def]
          simp [RED, BLACK]
        exact ⟨_, heq, (BhOk_paint _ _).2 hsub.1, Nrr_paint_BLACK hsub.2.1,
          colorOf_paint_BLACK _⟩
  | .right pc pk pv ps up, m, l, k, v, r, hc, hbl, hbr, hokl, hokr, hnl, hnr, hcl, hcr => by
      obtain ⟨hsb, hsok, hsn, hup, htop, hrc⟩ := hc
      by_cases hpc : pc = RED
      · subst hpc
        simp [RED, BLACK] at hup
        cases up with
        | root => exact absurd (htop rfl) (by simp [RED, BLACK])
        | left gc gk gv y up2 =>
            obtain ⟨hyb, hyok, hyn, hup2, htop2, hrc2⟩ := hup
            have hgc : gc = BLACK := (hrc rfl).2
            subst hgc
            simp [BLACK] at hup2
            by_cases hy : colorOf y = RED
            · -- Case 1 (parent left of grandparent, z right of parent)
              cases y with
              | nil => simp [colorOf, RED, BLACK] at hy
              | node yc ya yk yv yb =>
                have hyc : yc = RED := hy
                subst hyc
                simp [blackH, RED, BLACK] at hyb
                obtain ⟨t, ht, hok, hn, hcol⟩ := fixInsert_RB up2 (m + 1)
                  (.node BLACK ps pk pv (.node RED l k v r)) gk gv
                  (paint BLACK (.node RED ya yk yv yb))
                  hup2
                  (by simp [blackH, hsb, RED, BLACK])
                  (by simp [paint, blackH, hyb, RED, BLACK])
                  (by exact ⟨hsok, ⟨hokl, hokr, hbl.trans hbr.symm⟩, by simp [blackH, hbl, hsb, RED, BLACK]⟩)
                  (by simpa [paint] using hyok)
                  (Nrr_node_BLACK hsn (Nrr_node_RED hcl hcr hnl hnr))
                  (Nrr_paint_BLACK hyn) rfl (by simp [paint, colorOf])
                exact ⟨t, by simpa [fixInsert, RED, colorOf] using ht, hok, hn, hcol⟩
            · -- Cases 2+3 (z inner: parent left child, z right child)
              have hyB : colorOf y = BLACK := not_RED_eq_BLACK hy
              have hps : colorOf ps = BLACK := (hrc rfl).1
              have hsub := rebuild_RB up2 (m + 1)
                (.node BLACK (.node RED ps pk pv l) k v (.node RED r gk gv y))
                hup2 (by simp [blackH, hsb, RED, BLACK])
                ⟨⟨hsok, hokl, hsb.trans hbl.symm⟩, ⟨hokr, hyok, hbr.trans hyb.symm⟩,
                  by simp [blackH, hsb, hbr, RED, BLACK]⟩
                (Nrr_node_BLACK (Nrr_node_RED hps hcl hsn hnl)
                  (Nrr_node_RED hcr hyB hnr hyn))
                (fun _ => rfl)
              have heq : fixInsert (.right RED pk pv ps (.left BLACK gk gv y up2) : Ctx K V) RED l k v r
                  = .ok (paint BLACK (up2.rebuild (.node BLACK (.node RED ps pk pv l) k v (.node RED r gk gv y)))) := by
                simp [fixInsert, RED, BLACK, hyB]
              exact ⟨_, heq, (BhOk_paint _ _).2 hsub.1, Nrr_paint_BLACK hsub.2.1,
                colorOf_paint_BLACK _⟩
        | right gc gk gv y up2 =>
            obtain ⟨hyb, hyok, hyn, hup2, htop2, hrc2⟩ := hup
            have hgc : gc = BLACK := (hrc rfl).2
            subst hgc
            simp [BLACK] at hup2
            by_cases hy : colorOf y = RED
            · -- Case 1 (mirror outer)
              cases y with
              | nil => simp [colorOf, RED, BLACK] at hy
              | node yc ya yk yv yb =>
                have hyc : yc = RED := hy
                subst hyc
                simp [blackH, RED, BLACK] at hyb
                obtain ⟨t, ht, hok, hn, hcol⟩ := fixInsert_RB up2 (m + 1)
                  (paint BLACK (.node RED ya yk yv yb)) gk gv
                  (.node BLACK ps pk pv (.node RED l k v r))
                  hup2
                  (by simp [paint, blackH, hyb, RED, BLACK])
                  (by simp [blackH, hsb, RED, BLACK])
                  (by simpa [paint] using hyok)
                  (by exact ⟨hsok, ⟨hokl, hokr, hbl.trans hbr.symm⟩, by simp [blackH, hbl, hsb, RED, BLACK]⟩)
                  (Nrr_paint_BLACK hyn)
                  (Nrr_node_BLACK hsn (Nrr_node_RED hcl hcr hnl hnr))
                  (by simp [paint, colorOf]) rfl
                exact ⟨t, by simpa [fixInsert, RED, colorOf] using ht, hok, hn, hcol⟩
            · -- Case 3 (mirror outer): restructure around the grandparent
              have hyB : colorOf y = BLACK := not_RED_eq_BLACK hy
              have hps : colorOf ps = BLACK := (hrc rfl).1
              have hsub := rebuild_RB up2 (m + 1)
                (.node BLACK (.node RED y gk gv ps) pk pv (.node RED l k v r))
                hup2 (by simp [blackH, hyb, RED, BLACK])
                ⟨⟨hyok, hsok, hyb.trans hsb.symm⟩, ⟨hokl, hokr, hbl.trans hbr.symm⟩,
                  by simp [blackH, hyb, hbl, RED, BLACK]⟩
                (Nrr_node_BLACK (Nrr_node_RED hyB hps hyn hsn)
                  (Nrr_node_RED hcl hcr hnl hnr))
                (fun _ => rfl)
              have heq : fixInsert (.right RED pk pv ps (.right BLACK gk gv y up2) : Ctx K V) RED l k v r
                  = .ok (paint BLACK (up2.rebuild (.node BLACK (.node RED y gk gv ps) pk pv (.node RED l k v r)))) := by
                simp [fixInsert, RED, BLACK, hyB]
              exact ⟨_, heq, (BhOk_paint _ _).2 hsub.1, Nrr_paint_BLACK hsub.2.1,
                colorOf_paint_BLACK _⟩
      · -- loop exit: the parent is BLACK
        have hpcB : pc = BLACK := not_RED_eq_BLACK hpc
        subst hpcB
        have hsub := rebuild_RB up (m + 1) (.node BLACK ps pk pv (.node RED l k v r))
          (by simpa [BLACK] using hup) (by simp [blackH, hsb, RED, BLACK])
          ⟨hsok, ⟨hokl, hokr, hbl.trans hbr.symm⟩, by simp [blackH, hbl, hsb, RED, BLACK]⟩
          (Nrr_node_BLACK hsn (Nrr_node_RED hcl hcr hnl hnr))
          (fun _ => rfl)
        have heq : fixInsert (.right BLACK pk pv ps up : Ctx K V) RED l k v r
            = .ok (paint BLACK (up.rebuild
              (.node BLACK ps pk pv (.node RED l k v r)))) := by
          rw [fixInsert.eq_def]
          simp [RED, BLACK]
        exact ⟨_, heq, (BhOk_paint _ _).2 hsub.1, Nrr_paint_BLACK hsub.2.1,
          colorOf_paint_BLACK _⟩

/-- `_bst_insert` preserves the red-black invariants: descending a valid
subtree inside a red-black consistent context, insertion succeeds and the
resulting whole tree is valid with a BLACK root. -/
theorem bstInsertLoop_RB :
    ∀ (t : Tree K V) (ctx : Ctx K V) (k : K) (v : V) (m : Nat),
      CtxRB ctx m → blackH t = m → BhOk t → Nrr t →
      (ctxColor ctx = RED → colorOf t = BLACK) →
      (ctx = .root → colorOf t = BLACK) →
      ∃ t2 b, bstInsertLoop t ctx k v = .ok (t2, b) ∧
        BhOk t2 ∧ Nrr t2 ∧ colorOf t2 = BLACK
  | .nil, ctx, k, v, m, hc, hbh, _, _, _, _ => by
      have hm : m = 1 := by simpa [blackH] using hbh.symm
      subst hm
      obtain ⟨t2, ht, h1, h2, h3⟩ := fixInsert_RB ctx 1 .nil k v .nil hc rfl rfl
        trivial trivial trivial trivial rfl rfl
      exact ⟨t2, true, by simp [bstInsertLoop, ht, Except.map], h1, h2, h3⟩
  | .node c l k2 v2 r, ctx, k, v, m, hc, hbh, hok, hn, hred, hroot => by
      by_cases he : k = k2
      · -- equal key: overwrite the value in place, no structural change
        have hsub := rebuild_RB ctx m (.node c l k2 v r) hc (by simpa [blackH] using hbh)
          ⟨hok.1, hok.2.1, hok.2.2⟩ ⟨hn.1, hn.2.1, hn.2.2⟩ hred
        refine ⟨Ctx.rebuild ctx (.node c l k2 v r), false,
          by simp [bstInsertLoop, he], hsub.1, hsub.2.1, ?_⟩
        by_cases hr : ctx = Ctx.root
        · subst hr; simpa [Ctx.rebuild] using hroot rfl
        · exact hsub.2.2 hr
      · have hcup : c = RED → ctxColor ctx = BLACK := by
          intro hcr
          by_contra hne
          have := hred (RED_of_ne_BLACK (by simpa using hne))
          simp [colorOf, hcr, RED, BLACK] at this
        by_cases hlt : k < k2
        · -- descend left
          obtain ⟨t2, b, ht, h1, h2, h3⟩ := bstInsertLoop_RB l (.left c k2 v2 r ctx) k v
            (blackH l)
            (by
              refine ⟨hok.2.2.symm, hok.2.1, hn.2.2, ?_, fun h => (hroot h : _), fun hcr => ⟨(hn.1 hcr).2, hcup hcr⟩⟩
              have : blackH l + (if c = BLACK then 1 else 0) = m := by simpa [blackH] using hbh
              rwa [this])
            rfl hok.1 hn.2.1
            (fun hcr => (hn.1 hcr).1)
            (fun h => by simp at h)
          exact ⟨t2, b, by simp [bstInsertLoop, he, hlt, ht], h1, h2, h3⟩
        · -- descend right
          obtain ⟨t2, b, ht, h1, h2, h3⟩ := bstInsertLoop_RB r (.right c k2 v2 l ctx) k v
            (blackH r)
            (by
              refine ⟨hok.2.2 ▸ rfl, hok.1, hn.2.1, ?_, fun h => (hroot h : _), fun hcr => ⟨(hn.1 hcr).1, hcup hcr⟩⟩
              have : blackH r + (if c = BLACK then 1 else 0) = m := by
                have hlr : blackH l = blackH r := hok.2.2
                simpa [blackH, hlr] using hbh
              rwa [this])
            rfl hok.2.1 hn.2.2
            (fun hcr => (hn.1 hcr).2)
            (fun h => by simp at h)
          exact ⟨t2, b, by simp [bstInsertLoop, he, hlt, ht], h1, h2, h3⟩

/-- `__setitem__` always succeeds on a red-black valid tree and preserves
the colour invariants. -/
theorem setitem_RB {t : RBTree K V} (k : K) (v : V)
    (h1 : colorOf t.root = BLACK) (h2 : BhOk t.root) (h3 : Nrr t.root) :
    ∃ t2, setitem t k v = .ok t2 ∧
      colorOf t2.root = BLACK ∧ BhOk t2.root ∧ Nrr t2.root := by
  obtain ⟨t2, b, ht, hh1, hh2, hh3⟩ := bstInsertLoop_RB t.root .root k v (blackH t.root)
    trivial rfl h2 h3 (by intro h; simp [ctxColor, RED, BLACK] at h) (fun _ => h1)
  exact ⟨⟨t2, t.size + if b then 1 else 0⟩, by simp [setitem, ht, Except.map], hh3, hh1, hh2⟩

/-! ### In-order contents -/

/-- Pairs stored strictly to the left of a context's hole. -/
def Ctx.before : Ctx K V → List (K × V)
  | .root => []
  | .left _ _ _ _ up => up.before
  | .right _ k v sib up => up.before ++ inorder sib ++ [(k, v)]

/-- Pairs stored strictly to the right of a context's hole. -/
def Ctx.after : Ctx K V → List (K × V)
  | .root => []
  | .left _ k v sib up => ((k, v) :: inorder sib) ++ up.after
  | .right _ _ _ _ up => up.after

theorem inorder_paint (c : Bool) (t : Tree K V) : inorder (paint c t) = inorder t := by
  cases t <;> simp [paint, inorder]

theorem rebuild_inorder :
    ∀ (ctx : Ctx K V) (t : Tree K V),
      inorder (ctx.rebuild t) = ctx.before ++ inorder t ++ ctx.after
  | .root, t => by simp [Ctx.rebuild, Ctx.before, Ctx.after]
  | .left c k v sib up, t => by
      simp [Ctx.rebuild, Ctx.before, Ctx.after, rebuild_inorder up, inorder]
  | .right c k v sib up, t => by
      simp [Ctx.rebuild, Ctx.before, Ctx.after, rebuild_inorder up, inorder]

/-- `_fix_insert` only recolours and rotates: the in-order contents of the
whole tree are those of the context with the focus in its hole. -/
theorem fixInsert_inorder :
    ∀ (ctx : Ctx K V) (c : Bool) (l : Tree K V) (k : K) (v : V) (r : Tree K V)
      (t : Tree K V), fixInsert ctx c l k v r = .ok t →
      inorder t = ctx.before ++ (inorder l ++ (k, v) :: inorder r) ++ ctx.after
  | .root, c, l, k, v, r, t, h => by
      simp [fixInsert] at h
      subst h
      simp [inorder_paint, inorder, Ctx.before, Ctx.after]
  | .left pc pk pv ps up, c, l, k, v, r, t, h => by
      by_cases hpc : pc = RED
      · subst hpc
        cases up with
        | root => simp [fixInsert, RED] at h
        | left gc gk gv y up2 =>
            by_cases hy : colorOf y = RED
            · rw [fixInsert.eq_def] at h
              simp only [RED] at hy
              simp [RED, hy] at h
              have := fixInsert_inorder up2 RED
                (.node BLACK (.node c l k v r) pk pv ps) gk gv (paint BLACK y) t h
              simp [this, inorder, inorder_paint, Ctx.before, Ctx.after]
            · rw [fixInsert.eq_def] at h
              simp only [RED] at hy
              simp [RED, hy] at h
              subst h
              simp [inorder_paint, rebuild_inorder, inorder, Ctx.before, Ctx.after]
        | right gc gk gv y up2 =>
            by_cases hy : colorOf y = RED
            · rw [fixInsert.eq_def] at h
              simp only [RED] at hy
              simp [RED, hy] at h
              have := fixInsert_inorder up2 RED
                (paint BLACK y) gk gv (.node BLACK (.node c l k v r) pk pv ps) t h
              simp [this, inorder, inorder_paint, Ctx.before, Ctx.after]
            · rw [fixInsert.eq_def] at h
              simp only [RED] at hy
              simp [RED, hy] at h
              subst h
              simp [inorder_paint, rebuild_inorder, inorder, Ctx.before, Ctx.after]
      · rw [fixInsert.eq_def] at h
        simp only [RED] at hpc
        simp [RED, hpc] at h
        subst h
        simp [inorder_paint, rebuild_inorder, inorder, Ctx.before, Ctx.after]
  | .right pc pk pv ps up, c, l, k, v, r, t, h => by
      by_cases hpc : pc = RED
      · subst hpc
        cases up with
        | root => simp [fixInsert, RED] at h
        | left gc gk gv y up2 =>
            by_cases hy : colorOf y = RED
            · rw [fixInsert.eq_def] at h
              simp only [RED] at hy
              simp [RED, hy] at h
              have := fixInsert_inorder up2 RED
                (.node BLACK ps pk pv (.node c l k v r)) gk gv (paint BLACK y) t h
              simp [this, inorder, inorder_paint, Ctx.before, Ctx.after]
            · rw [fixInsert.eq_def] at h
              simp only [RED] at hy
              simp [RED, hy] at h
              subst h
              simp [inorder_paint, rebuild_inorder, inorder, Ctx.before, Ctx.after]
        | right gc gk gv y up2 =>
            by_cases hy : colorOf y = RED
            · rw [fixInsert.eq_def] at h
              simp only [RED] at hy
              simp [RED, hy] at h
              have := fixInsert_inorder up2 RED
                (paint BLACK y) gk gv (.node BLACK ps pk pv (.node c l k v r)) t h
              simp [this, inorder, inorder_paint, Ctx.before, Ctx.after]
            · rw [fixInsert.eq_def] at h
              simp only [RED] at hy
              simp [RED, hy] at h
              subst h
              simp [inorder_paint, rebuild_inorder, inorder, Ctx.before, Ctx.after]
      · rw [fixInsert.eq_def] at h
        simp only [RED] at hpc
        simp [RED, hpc] at h
        subst h
        simp [inorder_paint, rebuild_inorder, inorder, Ctx.before, Ctx.after]

/-- Proof-side description of the contents after `_bst_insert`: replace in
place at an equal key, otherwise insert at the reached sentinel position. -/
def insInorder : Tree K V → K → V → List (K × V)
  | .nil, k, v => [(k, v)]
  | .node _ l k2 v2 r, k, v =>
      if k = k2 then inorder l ++ (k, v) :: inorder r
      else if k < k2 then insInorder l k v ++ (k2, v2) :: inorder r
      else inorder l ++ (k2, v2) :: insInorder r k v

theorem bstInsertLoop_inorder :
    ∀ (t : Tree K V) (ctx : Ctx K V) (k : K) (v : V) (t2 : Tree K V) (b : Bool),
      bstInsertLoop t ctx k v = .ok (t2, b) →
      inorder t2 = ctx.before ++ insInorder t k v ++ ctx.after ∧
        b = (searchT t k).isNone
  | .nil, ctx, k, v, t2, b, h => by
      simp only [bstInsertLoop] at h
      cases hfi : fixInsert ctx RED (Tree.nil : Tree K V) k v .nil with
      | error e => simp [hfi, Except.map] at h
      | ok t3 =>
          simp [hfi, Except.map] at h
          obtain ⟨h1, h2⟩ := h
          subst h1
          refine ⟨?_, by simp [h2, searchT]⟩
          have := fixInsert_inorder ctx RED .nil k v .nil t3 hfi
          simpa [inorder, insInorder] using this
  | .node c l k2 v2 r, ctx, k, v, t2, b, h => by
      by_cases he : k = k2
      · simp [bstInsertLoop, he] at h
        obtain ⟨h1, h2⟩ := h
        subst h1
        refine ⟨?_, by simp [h2, searchT, he]⟩
        simp [rebuild_inorder, inorder, insInorder, he]
      · by_cases hlt : k < k2
        · simp only [bstInsertLoop, if_neg he, if_pos hlt] at h
          obtain ⟨h1, h2⟩ := bstInsertLoop_inorder l (.left c k2 v2 r ctx) k v t2 b h
          refine ⟨?_, by simp [h2, searchT, he, hlt]⟩
          simp [h1, Ctx.before, Ctx.after, insInorder, he, hlt]
        · simp only [bstInsertLoop, if_neg he, if_neg hlt] at h
          obtain ⟨h1, h2⟩ := bstInsertLoop_inorder r (.right c k2 v2 l ctx) k v t2 b h
          refine ⟨?_, by simp [h2, searchT, he, hlt]⟩
          simp [h1, Ctx.before, Ctx.after, insInorder, he, hlt]

/-- Contents and size bookkeeping of `__setitem__`. -/
theorem setitem_inorder {t : RBTree K V} {k : K} {v : V} {t2 : RBTree K V}
    (h : setitem t k v = .ok t2) :
    inorder t2.root = insInorder t.root k v ∧
      t2.size = t.size + (if (searchT t.root k).isNone then 1 else 0) := by
  simp only [setitem] at h
  cases hb : bstInsertLoop t.root .root k v with
  | error e => simp [hb, Except.map] at h
  | ok p =>
      obtain ⟨t3, b⟩ := p
      simp [hb, Except.map] at h
      obtain ⟨h1, h2⟩ := bstInsertLoop_inorder t.root .root k v t3 b hb
      subst h
      simp only [Ctx.before, Ctx.after] at h1
      refine ⟨by simpa using h1, by rw [h2]⟩

theorem insInorder_length (t : Tree K V) (k : K) (v : V) :
    (insInorder t k v).length
      = (inorder t).length + (if (searchT t k).isNone then 1 else 0) := by
  induction t with
  | nil => simp [insInorder, inorder, searchT]
  | node c l k2 v2 r ihl ihr =>
      by_cases he : k = k2
      · simp [insInorder, inorder, searchT, he]
      · by_cases hlt : k < k2
        · rw [insInorder, inorder, searchT]
          simp only [if_neg he, if_pos hlt]
          simp [ihl]
          omega
        · rw [insInorder, inorder, searchT]
          simp only [if_neg he, if_neg hlt]
          simp [ihr]
          omega

/-! ### The reference associative map (sorted association list) -/

/-- Reference map `set`: insert or replace in a list sorted by key. -/
def refSet : List (K × V) → K → V → List (K × V)
  | [], k, v => [(k, v)]
  | (k2, v2) :: rest, k, v =>
      if k = k2 then (k, v) :: rest
      else if k < k2 then (k, v) :: (k2, v2) :: rest
      else (k2, v2) :: refSet rest k v

/-- Reference map `delete`: remove the first pair with the given key. -/
def refDel : List (K × V) → K → List (K × V)
  | [], _ => []
  | (k2, v2) :: rest, k => if k = k2 then rest else (k2, v2) :: refDel rest k

/-- Reference map lookup: first pair with the given key. -/
def refGet : List (K × V) → K → Option V
  | [], _ => none
  | (k2, v2) :: rest, k => if k = k2 then some v2 else refGet rest k

/-- Strictly sorted by key. -/
def SortedKV (l : List (K × V)) : Prop := List.Pairwise (fun a b => a.1 < b.1) l

theorem refSet_append_low {A B : List (K × V)} {k : K} (v : V)
    (hA : ∀ a ∈ A, a.1 < k) : refSet (A ++ B) k v = A ++ refSet B k v := by
  induction A with
  | nil => simp
  | cons a A ih =>
      obtain ⟨k3, v3⟩ := a
      have h3 : k3 < k := hA (k3, v3) (by simp)
      rw [List.cons_append, refSet, if_neg (ne_of_gt h3),
        if_neg (lt_asymm h3), ih (fun a ha => hA a (by simp [ha])), List.cons_append]

theorem refSet_append_high {A B : List (K × V)} {k : K} (v : V)
    (hB : ∀ b ∈ B, k < b.1) : refSet (A ++ B) k v = refSet A k v ++ B := by
  induction A with
  | nil =>
      cases B with
      | nil => simp [refSet]
      | cons b B =>
          obtain ⟨k2, v2⟩ := b
          have h2 : k < k2 := hB (k2, v2) (by simp)
          simp [refSet, ne_of_lt h2, h2]
  | cons a A ih =>
      obtain ⟨k3, v3⟩ := a
      by_cases he : k = k3
      · simp [refSet, he]
      · by_cases hlt : k < k3
        · simp [refSet, he, hlt]
        · simp [refSet, he, hlt, ih]

/-- On a sorted list the structural insert position and the reference
insert position coincide. -/
theorem insInorder_eq_refSet (t : Tree K V) (k : K) (v : V)
    (hs : SortedKV (inorder t)) : insInorder t k v = refSet (inorder t) k v := by
  induction t with
  | nil => simp [insInorder, inorder, refSet]
  | node c l k2 v2 r ihl ihr =>
      simp only [SortedKV, inorder, List.pairwise_append, List.pairwise_cons] at hs
      obtain ⟨hsl, ⟨hrgt, hsr⟩, hcross⟩ := hs
      have hllt : ∀ a ∈ inorder l, a.1 < k2 := fun a ha => hcross a ha (k2, v2) (by simp)
      by_cases he : k = k2
      · subst he
        rw [inorder, refSet_append_low v hllt]
        simp [insInorder, refSet]
      · by_cases hlt : k < k2
        · have hB : ∀ b ∈ (k2, v2) :: inorder r, k < b.1 := by
            intro b hb
            rcases List.mem_cons.1 hb with hb | hb
            · subst hb; exact hlt
            · exact hlt.trans (hrgt b hb)
          rw [inorder, refSet_append_high v hB]
          simp [insInorder, he, hlt, ihl hsl]
        · have hgt : k2 < k := lt_of_le_of_ne (not_lt.1 hlt) (Ne.symm he)
          have hA : ∀ a ∈ inorder l ++ [(k2, v2)], a.1 < k := by
            intro a ha
            rcases List.mem_append.1 ha with ha | ha
            · exact (hllt a ha).trans hgt
            · simp at ha; subst ha; exact hgt
          have : inorder l ++ (k2, v2) :: inorder r
              = (inorder l ++ [(k2, v2)]) ++ inorder r := by simp
          rw [inorder, this, refSet_append_low v hA]
          simp [insInorder, he, hlt, ihr hsr, refSet]

theorem mem_refSet : ∀ {m : List (K × V)} {k : K} {v : V} {a : K × V},
    a ∈ refSet m k v → a = (k, v) ∨ a ∈ m
  | [], k, v, a, h => by simpa [refSet] using h
  | (k2, v2) :: rest, k, v, a, h => by
      by_cases he : k = k2
      · rw [refSet, if_pos he] at h
        rcases List.mem_cons.1 h with h | h
        · exact .inl h
        · exact .inr (List.mem_cons.2 (.inr h))
      · by_cases hlt : k < k2
        · rw [refSet, if_neg he, if_pos hlt] at h
          rcases List.mem_cons.1 h with h | h
          · exact .inl h
          · exact .inr h
        · rw [refSet, if_neg he, if_neg hlt] at h
          rcases List.mem_cons.1 h with h | h
          · exact .inr (List.mem_cons.2 (.inl h))
          · rcases mem_refSet h with h | h
            · exact .inl h
            · exact .inr (List.mem_cons.2 (.inr h))

theorem SortedKV_refSet {m : List (K × V)} (k : K) (v : V) (hs : SortedKV m) :
    SortedKV (refSet m k v) := by
  induction m with
  | nil => simp [refSet, SortedKV]
  | cons b rest ih =>
      obtain ⟨k2, v2⟩ := b
      rw [SortedKV, List.pairwise_cons] at hs
      obtain ⟨hall, hrest⟩ := hs
      by_cases he : k = k2
      · rw [refSet, if_pos he]
        exact List.Pairwise.cons (fun a ha => he ▸ hall a ha) hrest
      · by_cases hlt : k < k2
        · rw [refSet, if_neg he, if_pos hlt]
          refine List.Pairwise.cons ?_ (List.Pairwise.cons hall hrest)
          intro a ha
          rcases List.mem_cons.1 ha with ha | ha
          · subst ha; exact hlt
          · exact hlt.trans (hall a ha)
        · rw [refSet, if_neg he, if_neg hlt]
          have hgt : k2 < k := lt_of_le_of_ne (not_lt.1 hlt) (Ne.symm he)
          refine List.Pairwise.cons ?_ (ih hrest)
          intro a ha
          rcases mem_refSet ha with ha | ha
          · rw [ha]; exact hgt
          · exact hall a ha

theorem refGet_eq_none {C : List (K × V)} {k : K} (hC : ∀ c ∈ C, ¬ c.1 = k) :
    refGet C k = none := by
  induction C with
  | nil => rfl
  | cons c rest ih =>
      obtain ⟨k2, v2⟩ := c
      rw [refGet, if_neg (fun h => hC (k2, v2) (by simp) h.symm)]
      exact ih (fun c hc => hC c (by simp [hc]))

theorem refGet_append_skip {A C : List (K × V)} {k : K}
    (hC : ∀ c ∈ C, ¬ c.1 = k) : refGet (A ++ C) k = refGet A k := by
  induction A with
  | nil => simpa [refGet] using refGet_eq_none hC
  | cons a A ih =>
      obtain ⟨k2, v2⟩ := a
      by_cases he : k = k2
      · simp [refGet, he]
      · simp [refGet, he, ih]

theorem refGet_append_low {A B : List (K × V)} {k : K}
    (hA : ∀ a ∈ A, a.1 < k) : refGet (A ++ B) k = refGet B k := by
  induction A with
  | nil => simp
  | cons a A ih =>
      obtain ⟨k2, v2⟩ := a
      have h2 : k2 < k := hA (k2, v2) (by simp)
      rw [List.cons_append, refGet, if_neg (ne_of_gt h2)]
      exact ih (fun a ha => hA a (by simp [ha]))

/-- On a sorted contents list, `_search_node` computes the reference map
lookup. -/
theorem searchT_eq_refGet (t : Tree K V) (k : K) (hs : SortedKV (inorder t)) :
    searchT t k = refGet (inorder t) k := by
  induction t with
  | nil => rfl
  | node c l k2 v2 r ihl ihr =>
      rw [SortedKV, inorder, List.pairwise_append] at hs
      obtain ⟨hsl, hscons, hcross⟩ := hs
      rw [List.pairwise_cons] at hscons
      obtain ⟨hrgt, hsr⟩ := hscons
      have hllt : ∀ a ∈ inorder l, a.1 < k2 := fun a ha => hcross a ha (k2, v2) (by simp)
      rw [inorder]
      by_cases he : k = k2
      · rw [searchT, if_pos he, refGet_append_low (fun a ha => he ▸ hllt a ha),
          refGet, if_pos he]
      · by_cases hlt : k < k2
        · have hC : ∀ cc ∈ (k2, v2) :: inorder r, ¬ cc.1 = k := by
            intro cc hcc
            rcases List.mem_cons.1 hcc with hcc | hcc
            · rw [hcc]; exact fun h => he (h.symm)
            · exact fun h => absurd (h ▸ hlt.trans (hrgt cc hcc)) (lt_irrefl k)
          rw [searchT, if_neg he, if_pos hlt, refGet_append_skip hC, ihl hsl]
        · have hgt : k2 < k := lt_of_le_of_ne (not_lt.1 hlt) (Ne.symm he)
          have hA : ∀ a ∈ inorder l ++ [(k2, v2)], a.1 < k := by
            intro a ha
            rcases List.mem_append.1 ha with ha | ha
            · exact (hllt a ha).trans hgt
            · simp at ha; rw [ha]; exact hgt
          have hre : inorder l ++ (k2, v2) :: inorder r
              = (inorder l ++ [(k2, v2)]) ++ inorder r := by simp
          rw [searchT, if_neg he, if_neg hlt, hre, refGet_append_low hA, ihr hsr]

theorem mem_refDel : ∀ {m : List (K × V)} {k : K} {a : K × V},
    a ∈ refDel m k → a ∈ m
  | [], k, a, h => by simpa [refDel] using h
  | (k2, v2) :: rest, k, a, h => by
      by_cases he : k = k2
      · rw [refDel, if_pos he] at h
        exact List.mem_cons.2 (.inr h)
      · rw [refDel, if_neg he] at h
        rcases List.mem_cons.1 h with h | h
        · exact List.mem_cons.2 (.inl h)
        · exact List.mem_cons.2 (.inr (mem_refDel h))

theorem SortedKV_refDel {m : List (K × V)} (k : K) (hs : SortedKV m) :
    SortedKV (refDel m k) := by
  induction m with
  | nil => simpa [refDel] using hs
  | cons b rest ih =>
      obtain ⟨k2, v2⟩ := b
      rw [SortedKV, List.pairwise_cons] at hs
      obtain ⟨hall, hrest⟩ := hs
      by_cases he : k = k2
      · rw [refDel, if_pos he]; exact hrest
      · rw [refDel, if_neg he]
        exact List.Pairwise.cons (fun a ha => hall a (mem_refDel ha)) (ih hrest)

theorem refDel_append_low {A B : List (K × V)} {k : K}
    (hA : ∀ a ∈ A, a.1 < k) : refDel (A ++ B) k = A ++ refDel B k := by
  induction A with
  | nil => simp
  | cons a A ih =>
      obtain ⟨k2, v2⟩ := a
      have h2 : k2 < k := hA (k2, v2) (by simp)
      rw [List.cons_append, refDel, if_neg (ne_of_gt h2),
        ih (fun a ha => hA a (by simp [ha])), List.cons_append]

/-! ### Facts about `searchZ` and helpers for the delete fixup -/

/-- The key found by `searchZ` is the searched key, and the focused
decomposition occupies the hole of the returned context. -/
theorem searchZ_spec :
    ∀ (t : Tree K V) (ctx0 : Ctx K V) (k : K) (ctx : Ctx K V) (c : Bool)
      (l : Tree K V) (k2 : K) (v2 : V) (r : Tree K V),
      searchZ t ctx0 k = some (ctx, c, l, k2, v2, r) →
      k2 = k ∧
      ctx.before ++ (inorder l ++ (k2, v2) :: inorder r) ++ ctx.after
        = ctx0.before ++ inorder t ++ ctx0.after
  | .nil, ctx0, k, ctx, c, l, k2, v2, r, h => by simp [searchZ] at h
  | .node c0 l0 k0 v0 r0, ctx0, k, ctx, c, l, k2, v2, r, h => by
      by_cases he : k = k0
      · rw [searchZ, if_pos he] at h
        simp only [Option.some.injEq, Prod.mk.injEq] at h
        obtain ⟨h1, h2, h3, h4, h5, h6⟩ := h
        subst h1; subst h2; subst h3; subst h4; subst h5; subst h6
        exact ⟨he.symm, by simp [inorder]⟩
      · by_cases hlt : k < k0
        · rw [searchZ, if_neg he, if_pos hlt] at h
          obtain ⟨h1, h2⟩ := searchZ_spec l0 (.left c0 k0 v0 r0 ctx0) k ctx c l k2 v2 r h
          refine ⟨h1, ?_⟩
          rw [h2]
          simp [Ctx.before, Ctx.after, inorder]
        · rw [searchZ, if_neg he, if_neg hlt] at h
          obtain ⟨h1, h2⟩ := searchZ_spec r0 (.right c0 k0 v0 l0 ctx0) k ctx c l k2 v2 r h
          refine ⟨h1, ?_⟩
          rw [h2]
          simp [Ctx.before, Ctx.after, inorder]

/-- Red-black facts carried down the `searchZ` descent. -/
theorem searchZ_RB :
    ∀ (t : Tree K V) (ctx0 : Ctx K V) (k : K) (m : Nat) (ctx : Ctx K V) (c : Bool)
      (l : Tree K V) (k2 : K) (v2 : V) (r : Tree K V),
      searchZ t ctx0 k = some (ctx, c, l, k2, v2, r) →
      CtxRB ctx0 m → blackH t = m → BhOk t → Nrr t →
      (ctxColor ctx0 = RED → colorOf t = BLACK) →
      (ctx0 = .root → colorOf t = BLACK) →
      CtxRB ctx (blackH l + (if c = BLACK then 1 else 0)) ∧
      blackH l = blackH r ∧ BhOk l ∧ BhOk r ∧ Nrr l ∧ Nrr r ∧
      (c = RED → colorOf l = BLACK ∧ colorOf r = BLACK) ∧
      (ctxColor ctx = RED → c = BLACK) ∧ (ctx = .root → c = BLACK)
  | .nil, ctx0, k, m, ctx, c, l, k2, v2, r, h => by simp [searchZ] at h
  | .node c0 l0 k0 v0 r0, ctx0, k, m, ctx, c, l, k2, v2, r, h => by
      intro hc hbh hok hn hred hroot
      have hcup : c0 = RED → ctxColor ctx0 = BLACK := by
        intro hcr
        by_contra hne
        have := hred (RED_of_ne_BLACK (by simpa using hne))
        simp [colorOf, hcr, RED, BLACK] at this
      by_cases he : k = k0
      · rw [searchZ, if_pos he] at h
        simp only [Option.some.injEq, Prod.mk.injEq] at h
        obtain ⟨h1, h2, h3, h4, h5, h6⟩ := h
        subst h1; subst h2; subst h3; subst h5; subst h6
        have hm : blackH l0 + (if c0 = BLACK then 1 else 0) = m := by
          simpa [blackH] using hbh
        refine ⟨hm ▸ hc, hok.2.2, hok.1, hok.2.1, hn.2.1, hn.2.2, hn.1, ?_, ?_⟩
        · intro hcr
          by_contra hne
          have := hred hcr
          simp [colorOf, RED_of_ne_BLACK hne, RED, BLACK] at this
        · intro hr
          exact hroot hr
      · by_cases hlt : k < k0
        · rw [searchZ, if_neg he, if_pos hlt] at h
          refine searchZ_RB l0 (.left c0 k0 v0 r0 ctx0) k (blackH l0) ctx c l k2 v2 r h
            ⟨hok.2.2.symm, hok.2.1, hn.2.2, ?_, fun hr => hroot hr,
              fun hcr => ⟨(hn.1 hcr).2, hcup hcr⟩⟩
            rfl hok.1 hn.2.1 (fun hcr => (hn.1 hcr).1) (fun hr => by simp at hr)
          have : blackH l0 + (if c0 = BLACK then 1 else 0) = m := by
            simpa [blackH] using hbh
          rwa [this]
        · rw [searchZ, if_neg he, if_neg hlt] at h
          refine searchZ_RB r0 (.right c0 k0 v0 l0 ctx0) k (blackH r0) ctx c l k2 v2 r h
            ⟨hok.2.2 ▸ rfl, hok.1, hn.2.1, ?_, fun hr => hroot hr,
              fun hcr => ⟨(hn.1 hcr).1, hcup hcr⟩⟩
            rfl hok.2.1 hn.2.2 (fun hcr => (hn.1 hcr).2) (fun hr => by simp at hr)
          have : blackH r0 + (if c0 = BLACK then 1 else 0) = m := by
            have hlr : blackH l0 = blackH r0 := hok.2.2
            simpa [blackH, hlr] using hbh
          rwa [this]

/-- "No red-red below the root", the focus invariant of `_fix_delete` (the
focus root itself may be RED with RED children transiently after Case 2
moves up from below a Case-1 rotation; the loop exit repaints it BLACK). -/
def NrrK : Tree K V → Prop
  | .nil => True
  | .node _ l _ _ r => Nrr l ∧ Nrr r

theorem NrrK_of_Nrr {x : Tree K V} (h : Nrr x) : NrrK x := by
  cases x with
  | nil => trivial
  | node c l k v r => exact ⟨h.2.1, h.2.2⟩

theorem Nrr_of_NrrK_black {x : Tree K V} (h : NrrK x) (hb : colorOf x = BLACK) :
    Nrr x := by
  cases x with
  | nil => trivial
  | node c l k v r =>
      refine ⟨fun hcr => ?_, h.1, h.2⟩
      rw [colorOf] at hb
      rw [hb] at hcr
      simp [RED, BLACK] at hcr

theorem NrrK_paint_BLACK {x : Tree K V} (h : NrrK x) : Nrr (paint BLACK x) := by
  cases x with
  | nil => trivial
  | node c l k v r => exact Nrr_node_BLACK h.1 h.2

/-- Rebuild through a valid context and resolve the root colour, for the
loop exits of `_fix_delete` that do not repaint the root. -/
theorem finish_rebuild {up : Ctx K V} {m : Nat} {sub : Tree K V}
    (hc : CtxRB up m) (hbh : blackH sub = m) (hok : BhOk sub) (hn : Nrr sub)
    (hred : ctxColor up = RED → colorOf sub = BLACK)
    (hrootcol : up = .root → colorOf sub = BLACK) :
    BhOk (up.rebuild sub) ∧ Nrr (up.rebuild sub) ∧
      colorOf (up.rebuild sub) = BLACK := by
  have h := rebuild_RB up m sub hc hbh hok hn hred
  refine ⟨h.1, h.2.1, ?_⟩
  by_cases hu : up = Ctx.root
  · subst hu
    simpa [Ctx.rebuild] using hrootcol rfl
  · exact h.2.2 hu

/-- Rebuild-and-blacken, for the Case 3/4 exits of `_fix_delete`. -/
theorem finish_paint_rebuild {up : Ctx K V} {m : Nat} {sub : Tree K V}
    (hc : CtxRB up m) (hbh : blackH sub = m) (hok : BhOk sub) (hn : Nrr sub)
    (hred : ctxColor up = RED → colorOf sub = BLACK) :
    BhOk (paint BLACK (up.rebuild sub)) ∧ Nrr (paint BLACK (up.rebuild sub)) ∧
      colorOf (paint BLACK (up.rebuild sub)) = BLACK := by
  have h := rebuild_RB up m sub hc hbh hok hn hred
  exact ⟨(BhOk_paint _ _).2 h.1, Nrr_paint_BLACK h.2.1, colorOf_paint_BLACK _⟩

theorem hrc_flip {c u : Bool} (hrc : c = RED → u = BLACK) :
    u = RED → c = BLACK := by
  intro h
  by_contra hne
  have := hrc (RED_of_ne_BLACK hne)
  rw [this] at h
  simp [RED, BLACK] at h

/-- `_fix_delete` restores the red-black invariants: the focus `x` is one
black short (`blackH x = n` against a hole expecting `n + 1`); the fixup
returns a tree with consistent black heights, no red-red violations, and a
BLACK root. -/
theorem colorOf_node (c : Bool) (l : Tree K V) (k : K) (v : V) (r : Tree K V) :
    colorOf (.node c l k v r) = c := rfl

theorem colorOf_nil : colorOf (.nil : Tree K V) = BLACK := rfl

theorem paint_node (c c2 : Bool) (l : Tree K V) (k : K) (v : V) (r : Tree K V) :
    paint c (.node c2 l k v r) = .node c l k v r := rfl

theorem paint_nil (c : Bool) : paint c (.nil : Tree K V) = .nil := rfl

theorem fixDelete_RB :
    ∀ (ctx : Ctx K V) (x : Tree K V) (n : Nat),
      CtxRB ctx (n + 1) → blackH x = n → BhOk x → NrrK x →
      BhOk (fixDelete ctx x) ∧ Nrr (fixDelete ctx x) ∧
        colorOf (fixDelete ctx x) = BLACK
  | .root, x, n, hc, hbh, hok, hn => by
      rw [fixDelete]
      exact ⟨(BhOk_paint _ _).2 hok, NrrK_paint_BLACK hn, colorOf_paint_BLACK _⟩
  | .left c k v w up, x, n, hc, hbh, hok, hn => by
      obtain ⟨hwb, hwok, hwn, hup, htop, hrc⟩ := hc
      have hnpos : 1 ≤ n := hbh ▸ blackH_pos x
      by_cases hx : colorOf x = RED
      · -- RED focus: the loop exits and repaints x BLACK in place
        cases x with
        | nil => simp [colorOf, RED, BLACK] at hx
        | node xc xl xk xv xr =>
            have hxc : xc = RED := hx
            subst hxc
            have hbx : blackH xl = n := by simpa [blackH, RED, BLACK] using hbh
            have hcomp : fixDelete (.left c k v w up) (.node RED xl xk xv xr)
                = Ctx.rebuild up (.node c (.node BLACK xl xk xv xr) k v w) := by
              rw [fixDelete.eq_def]
              simp [hx, colorOf, RED, paint]
            rw [hcomp]
            exact finish_rebuild hup
              (by simp [blackH, hbx, RED, BLACK])
              ⟨⟨hok.1, hok.2.1, hok.2.2⟩, hwok, by simp [blackH, hbx, BLACK, hwb]⟩
              ⟨fun hcr => ⟨rfl, (hrc hcr).1⟩, Nrr_node_BLACK hn.1 hn.2, hwn⟩
              (fun hu => hrc_flip (fun hcr => (hrc hcr).2) hu)
              (fun hr => by simpa [colorOf] using htop hr)
      · have hxB : colorOf x = BLACK := not_RED_eq_BLACK hx
        have hnx : Nrr x := Nrr_of_NrrK_black hn hxB
        cases w with
        | nil =>
            -- sibling is the sentinel: impossible, its black height is 1
            -- while the hole demands n + 1 ≥ 2
            exfalso
            rw [blackH] at hwb
            omega
        | node wc wl kw vw wr =>
            cases wc with
            | true =>
                -- Case 1: RED sibling; the parent must be BLACK, the new
                -- sibling wl is BLACK-rooted with the parent repainted RED
                have hcB : c = BLACK := hrc_flip (fun hcr => (hrc hcr).1) rfl
                subst hcB
                obtain ⟨hwlc, hwrc⟩ : colorOf wl = BLACK ∧ colorOf wr = BLACK :=
                  hwn.1 rfl
                have hwlb : blackH wl = n + 1 := by
                  simpa [blackH, RED, BLACK] using hwb
                have hwrb : blackH wr = n + 1 := by
                  have h2 := hwok.2.2
                  omega
                cases wl with
                | nil => rw [blackH] at hwlb; omega
                | node wlc u ku vu u2 =>
                    have hwlcB : wlc = BLACK := hwlc
                    subst hwlcB
                    have hub : blackH u = n := by
                      simpa [blackH, BLACK] using hwlb
                    have hu2b : blackH u2 = n := by
                      have h2 := hwok.1.2.2
                      omega
                    by_cases hboth : colorOf u = BLACK ∧ colorOf u2 = BLACK
                    · -- Case 2 after Case 1: the loop re-enters with the RED
                      -- parent as focus and exits, blackening it
                      have hcomp : fixDelete (.left BLACK k v
                            (.node true (.node BLACK u ku vu u2) kw vw wr) up) x
                          = Ctx.rebuild up (.node BLACK
                              (.node BLACK x k v (.node RED u ku vu u2)) kw vw wr) := by
                        rw [fixDelete.eq_def]
                        simp only [RED, BLACK]
                        split
                        next h9 => exact absurd h9 hx
                        next h9 => simp [delCases234L, RED, BLACK, paint_node, paint_nil, colorOf_node, colorOf_nil, Ctx.rebuild, hboth.1, hboth.2, paint]
                      rw [hcomp]
                      exact finish_rebuild hup
                        (by simp [blackH, hbh, BLACK, RED])
                        ⟨⟨hok, ⟨hwok.1.1, hwok.1.2.1, hwok.1.2.2⟩,
                            by simp [blackH, hbh, RED, BLACK, hub]⟩,
                          hwok.2.1, by simp [blackH, hbh, BLACK, hwrb]⟩
                        ⟨fun hcr => by simp [RED, BLACK] at hcr,
                          Nrr_node_BLACK hnx
                            (Nrr_node_RED hboth.1 hboth.2 hwn.2.1.2.1 hwn.2.1.2.2),
                          hwn.2.2⟩
                        (fun hu => rfl)
                        (fun hr => rfl)
                    · -- Cases 3/4 after Case 1, under the rewritten context
                      have hup2 : CtxRB up (n + 1 + 1) := by simpa [BLACK] using hup
                      have hctx2 : CtxRB (.left BLACK kw vw wr up : Ctx K V) (n + 1) :=
                        ⟨hwrb, hwok.2.1, hwn.2.2, by simpa [BLACK] using hup2,
                          fun _ => rfl, fun h2 => by simp [RED, BLACK] at h2⟩
                      by_cases hu2B : colorOf u2 = BLACK
                      · -- Case 3 then Case 4: u is RED
                        have huR : colorOf u = RED := by
                          rcases Bool.eq_false_or_eq_true (colorOf u) with h2 | h2
                          · exact h2
                          · exact absurd ⟨h2, hu2B⟩ hboth
                        cases u with
                        | nil => simp [colorOf, RED, BLACK] at huR
                        | node uc a ka va b =>
                            have hucR : uc = RED := huR
                            subst hucR
                            have hab : blackH a = n := by
                              simpa [blackH, RED, BLACK] using hub
                            have hbb : blackH b = n := by
                              have h2 := hwok.1.1.2.2
                              omega
                            obtain ⟨haB, hbB⟩ : colorOf a = BLACK ∧ colorOf b = BLACK :=
                              hwn.2.1.2.1.1 rfl
                            have hcomp : fixDelete (.left BLACK k v
                                  (.node true (.node BLACK (.node RED a ka va b) ku vu u2) kw vw wr) up) x
                                = paint BLACK (Ctx.rebuild (.left BLACK kw vw wr up : Ctx K V)
                                    (.node RED (.node BLACK x k v a) ka va
                                      (.node BLACK b ku vu u2))) := by
                              rw [fixDelete.eq_def]
                              simp only [RED, BLACK]
                              split
                              next h9 => exact absurd h9 hx
                              next h9 => simp [delCases234L, RED, BLACK, paint_node, paint_nil, colorOf_node, colorOf_nil, Ctx.rebuild, hboth, hu2B]
                            rw [hcomp]
                            exact finish_paint_rebuild hctx2
                              (by simp [blackH, hbh, RED, BLACK])
                              ⟨⟨hok, hwok.1.1.1, by omega⟩,
                                ⟨hwok.1.1.2.1, hwok.1.2.1, by omega⟩,
                                by simp [blackH, hbh, hbb, BLACK, RED]⟩
                              ⟨fun _ => ⟨rfl, rfl⟩,
                                Nrr_node_BLACK hnx hwn.2.1.2.1.2.1,
                                Nrr_node_BLACK hwn.2.1.2.1.2.2 hwn.2.1.2.2⟩
                              (fun h2 => by simp [ctxColor, RED, BLACK] at h2)
                      · -- Case 4 directly: u2 is RED
                        have hu2R : colorOf u2 = RED := RED_of_ne_BLACK hu2B
                        cases u2 with
                        | nil => simp [colorOf, RED, BLACK] at hu2R
                        | node u2c e ke ve f =>
                            have hu2cR : u2c = RED := hu2R
                            subst hu2cR
                            have heb : blackH e = n := by
                              simpa [blackH, RED, BLACK] using hu2b
                            have hfb : blackH f = n := by
                              have h2 := hwok.1.2.1.2.2
                              omega
                            obtain ⟨heB, hfB⟩ : colorOf e = BLACK ∧ colorOf f = BLACK :=
                              hwn.2.1.2.2.1 rfl
                            have hcomp : fixDelete (.left BLACK k v
                                  (.node true (.node BLACK u ku vu (.node RED e ke ve f)) kw vw wr) up) x
                                = paint BLACK (Ctx.rebuild (.left BLACK kw vw wr up : Ctx K V)
                                    (.node RED (.node BLACK x k v u) ku vu
                                      (.node BLACK e ke ve f))) := by
                              rw [fixDelete.eq_def]
                              simp only [RED, BLACK]
                              split
                              next h9 => exact absurd h9 hx
                              next h9 => simp [delCases234L, RED, BLACK, paint_node, paint_nil, colorOf_node, colorOf_nil, Ctx.rebuild, hboth, hu2B, paint]
                            rw [hcomp]
                            exact finish_paint_rebuild hctx2
                              (by simp [blackH, hbh, RED, BLACK])
                              ⟨⟨hok, hwok.1.1, by omega⟩,
                                ⟨hwok.1.2.1.1, hwok.1.2.1.2.1, by omega⟩,
                                by simp [blackH, hbh, heb, BLACK, RED]⟩
                              ⟨fun _ => ⟨rfl, rfl⟩,
                                Nrr_node_BLACK hnx hwn.2.1.2.1,
                                Nrr_node_BLACK hwn.2.1.2.2.2.1 hwn.2.1.2.2.2.2⟩
                              (fun h2 => by simp [ctxColor, RED, BLACK] at h2)
            | false =>
                -- BLACK sibling: Cases 2-4 directly
                have hwlb : blackH wl = n := by
                  simpa [blackH, BLACK] using hwb
                have hwrb : blackH wr = n := by
                  have h2 := hwok.2.2
                  omega
                by_cases hboth : colorOf wl = BLACK ∧ colorOf wr = BLACK
                · -- Case 2: recolour w RED, move the focus to the parent
                  have hcomp : fixDelete (.left c k v (.node false wl kw vw wr) up) x
                      = fixDelete up (.node c x k v (.node RED wl kw vw wr)) := by
                    rw [fixDelete.eq_def]
                    simp only [RED, BLACK]
                    split
                    next h9 => exact absurd h9 hx
                    next h9 => simp [delCases234L, RED, BLACK, paint_node, paint_nil, colorOf_node, colorOf_nil, Ctx.rebuild, hboth.1, hboth.2]
                  rw [hcomp]
                  exact fixDelete_RB up (.node c x k v (.node RED wl kw vw wr))
                    (n + (if c = BLACK then 1 else 0))
                    (by rw [Nat.add_right_comm]; exact hup)
                    (by simp [blackH, hbh, RED, BLACK, hwlb])
                    ⟨hok, ⟨hwok.1, hwok.2.1, hwok.2.2⟩,
                      by simp [blackH, hbh, RED, BLACK, hwlb]⟩
                    ⟨hnx, Nrr_node_RED hboth.1 hboth.2 hwn.2.1 hwn.2.2⟩
                · by_cases hwrB : colorOf wr = BLACK
                  · -- Case 3 then Case 4: wl is RED
                    have hwlR : colorOf wl = RED := by
                      rcases Bool.eq_false_or_eq_true (colorOf wl) with h2 | h2
                      · exact h2
                      · exact absurd ⟨h2, hwrB⟩ hboth
                    cases wl with
                    | nil => simp [colorOf, RED, BLACK] at hwlR
                    | node wlc a ka va b =>
                        have hwlcR : wlc = RED := hwlR
                        subst hwlcR
                        have hab : blackH a = n := by
                          simpa [blackH, RED, BLACK] using hwlb
                        have hbb : blackH b = n := by
                          have h2 := hwok.1.2.2
                          omega
                        obtain ⟨haB, hbB⟩ : colorOf a = BLACK ∧ colorOf b = BLACK :=
                          hwn.2.1.1 rfl
                        have hcomp : fixDelete (.left c k v
                              (.node false (.node RED a ka va b) kw vw wr) up) x
                            = paint BLACK (Ctx.rebuild up (.node c
                                (.node BLACK x k v a) ka va (.node BLACK b kw vw wr))) := by
                          rw [fixDelete.eq_def]
                          simp only [RED, BLACK]
                          split
                          next h9 => exact absurd h9 hx
                          next h9 => simp [delCases234L, RED, BLACK, paint_node, paint_nil, colorOf_node, colorOf_nil, Ctx.rebuild, hboth, hwrB]
                        rw [hcomp]
                        exact finish_paint_rebuild hup
                          (by simp [blackH, hbh, BLACK, RED])
                          ⟨⟨hok, hwok.1.1, by omega⟩, ⟨hwok.1.2.1, hwok.2.1, by omega⟩,
                            by simp [blackH, hbh, hbb, BLACK]⟩
                          ⟨fun _ => ⟨rfl, rfl⟩,
                            Nrr_node_BLACK hnx hwn.2.1.2.1,
                            Nrr_node_BLACK hwn.2.1.2.2 hwn.2.2⟩
                          (fun hu => hrc_flip (fun hcr => (hrc hcr).2) hu)
                  · -- Case 4 directly: wr is RED
                    have hwrR : colorOf wr = RED := RED_of_ne_BLACK hwrB
                    cases wr with
                    | nil => simp [colorOf, RED, BLACK] at hwrR
                    | node wrc e ke ve f =>
                        have hwrcR : wrc = RED := hwrR
                        subst hwrcR
                        have heb : blackH e = n := by
                          simpa [blackH, RED, BLACK] using hwrb
                        have hfb : blackH f = n := by
                          have h2 := hwok.2.1.2.2
                          omega
                        obtain ⟨heB, hfB⟩ : colorOf e = BLACK ∧ colorOf f = BLACK :=
                          hwn.2.2.1 rfl
                        have hcomp : fixDelete (.left c k v
                              (.node false wl kw vw (.node RED e ke ve f)) up) x
                            = paint BLACK (Ctx.rebuild up (.node c
                                (.node BLACK x k v wl) kw vw (.node BLACK e ke ve f))) := by
                          rw [fixDelete.eq_def]
                          simp only [RED, BLACK]
                          split
                          next h9 => exact absurd h9 hx
                          next h9 => simp [delCases234L, RED, BLACK, paint_node, paint_nil, colorOf_node, colorOf_nil, Ctx.rebuild, hboth, hwrB, paint]
                        rw [hcomp]
                        exact finish_paint_rebuild hup
                          (by simp [blackH, hbh, BLACK])
                          ⟨⟨hok, hwok.1, by omega⟩, ⟨hwok.2.1.1, hwok.2.1.2.1, by omega⟩,
                            by simp [blackH, hbh, heb, BLACK]⟩
                          ⟨fun _ => ⟨rfl, rfl⟩,
                            Nrr_node_BLACK hnx hwn.2.1,
                            Nrr_node_BLACK hwn.2.2.2.1 hwn.2.2.2.2⟩
                          (fun hu => hrc_flip (fun hcr => (hrc hcr).2) hu)
  | .right c k v w up, x, n, hc, hbh, hok, hn => by
      obtain ⟨hwb, hwok, hwn, hup, htop, hrc⟩ := hc
      have hnpos : 1 ≤ n := hbh ▸ blackH_pos x
      by_cases hx : colorOf x = RED
      · cases x with
        | nil => simp [colorOf, RED, BLACK] at hx
        | node xc xl xk xv xr =>
            have hxc : xc = RED := hx
            subst hxc
            have hbx : blackH xl = n := by simpa [blackH, RED, BLACK] using hbh
            have hcomp : fixDelete (.right c k v w up) (.node RED xl xk xv xr)
                = Ctx.rebuild up (.node c w k v (.node BLACK xl xk xv xr)) := by
              rw [fixDelete.eq_def]
              simp [hx, colorOf, RED, paint]
            rw [hcomp]
            exact finish_rebuild hup
              (by simp [blackH, hwb, RED, BLACK])
              ⟨hwok, ⟨hok.1, hok.2.1, hok.2.2⟩, by simp [blackH, hbx, BLACK, hwb]⟩
              ⟨fun hcr => ⟨(hrc hcr).1, rfl⟩, hwn, Nrr_node_BLACK hn.1 hn.2⟩
              (fun hu => hrc_flip (fun hcr => (hrc hcr).2) hu)
              (fun hr => by simpa [colorOf] using htop hr)
      · have hxB : colorOf x = BLACK := not_RED_eq_BLACK hx
        have hnx : Nrr x := Nrr_of_NrrK_black hn hxB
        cases w with
        | nil =>
            exfalso
            rw [blackH] at hwb
            omega
        | node wc wl kw vw wr =>
            cases wc with
            | true =>
                -- mirror Case 1: RED sibling on the left
                have hcB : c = BLACK := hrc_flip (fun hcr => (hrc hcr).1) rfl
                subst hcB
                obtain ⟨hwlc, hwrc⟩ : colorOf wl = BLACK ∧ colorOf wr = BLACK :=
                  hwn.1 rfl
                have hwlb : blackH wl = n + 1 := by
                  simpa [blackH, RED, BLACK] using hwb
                have hwrb : blackH wr = n + 1 := by
                  have h2 := hwok.2.2
                  omega
                cases wr with
                | nil => rw [blackH] at hwrb; omega
                | node wrc u ku vu u2 =>
                    have hwrcB : wrc = BLACK := hwrc
                    subst hwrcB
                    have hub : blackH u = n := by
                      simpa [blackH, BLACK] using hwrb
                    have hu2b : blackH u2 = n := by
                      have h2 := hwok.2.1.2.2
                      omega
                    by_cases hboth : colorOf u2 = BLACK ∧ colorOf u = BLACK
                    · -- mirror Case 2 after Case 1
                      have hcomp : fixDelete (.right BLACK k v
                            (.node true wl kw vw (.node BLACK u ku vu u2)) up) x
                          = Ctx.rebuild up (.node BLACK wl kw vw
                              (.node BLACK (.node RED u ku vu u2) k v x)) := by
                        rw [fixDelete.eq_def]
                        simp only [RED, BLACK]
                        split
                        next h9 => exact absurd h9 hx
                        next h9 => simp [delCases234R, RED, BLACK, paint_node, paint_nil, colorOf_node, colorOf_nil, Ctx.rebuild, hboth.1, hboth.2, paint]
                      rw [hcomp]
                      exact finish_rebuild hup
                        (by simp [blackH, hwlb, BLACK, RED])
                        ⟨hwok.1, ⟨⟨hwok.2.1.1, hwok.2.1.2.1, hwok.2.1.2.2⟩, hok,
                            by simp [blackH, hbh, RED, BLACK, hub]⟩,
                          by simp [blackH, hwlb, hub, BLACK, RED]⟩
                        ⟨fun hcr => by simp [RED, BLACK] at hcr,
                          hwn.2.1,
                          Nrr_node_BLACK
                            (Nrr_node_RED hboth.2 hboth.1 hwn.2.2.2.1 hwn.2.2.2.2) hnx⟩
                        (fun hu => rfl)
                        (fun hr => rfl)
                    · -- mirror Cases 3/4 after Case 1
                      have hup2 : CtxRB up (n + 1 + 1) := by simpa [BLACK] using hup
                      have hctx2 : CtxRB (.right BLACK kw vw wl up : Ctx K V) (n + 1) :=
                        ⟨hwlb, hwok.1, hwn.2.1, by simpa [BLACK] using hup2,
                          fun _ => rfl, fun h2 => by simp [RED, BLACK] at h2⟩
                      by_cases huB : colorOf u = BLACK
                      · -- mirror Case 3 then Case 4: u2 is RED
                        have hu2R : colorOf u2 = RED := by
                          rcases Bool.eq_false_or_eq_true (colorOf u2) with h2 | h2
                          · exact h2
                          · exact absurd ⟨h2, huB⟩ hboth
                        cases u2 with
                        | nil => simp [colorOf, RED, BLACK] at hu2R
                        | node u2c a ka va b =>
                            have hu2cR : u2c = RED := hu2R
                            subst hu2cR
                            have hab : blackH a = n := by
                              simpa [blackH, RED, BLACK] using hu2b
                            have hbb : blackH b = n := by
                              have h2 := hwok.2.1.2.1.2.2
                              omega
                            obtain ⟨haB, hbB⟩ : colorOf a = BLACK ∧ colorOf b = BLACK :=
                              hwn.2.2.2.2.1 rfl
                            have hcomp : fixDelete (.right BLACK k v
                                  (.node true wl kw vw (.node BLACK u ku vu (.node RED a ka va b))) up) x
                                = paint BLACK (Ctx.rebuild (.right BLACK kw vw wl up : Ctx K V)
                                    (.node RED (.node BLACK u ku vu a) ka va
                                      (.node BLACK b k v x))) := by
                              rw [fixDelete.eq_def]
                              simp only [RED, BLACK]
                              split
                              next h9 => exact absurd h9 hx
                              next h9 => simp [delCases234R, RED, BLACK, paint_node, paint_nil, colorOf_node, colorOf_nil, Ctx.rebuild, hboth, huB]
                            rw [hcomp]
                            exact finish_paint_rebuild hctx2
                              (by simp [blackH, hub, RED, BLACK])
                              ⟨⟨hwok.2.1.1, hwok.2.1.2.1.1, by omega⟩,
                                ⟨hwok.2.1.2.1.2.1, hok, by omega⟩,
                                by simp [blackH, hub, hbb, BLACK, RED]⟩
                              ⟨fun _ => ⟨rfl, rfl⟩,
                                Nrr_node_BLACK hwn.2.2.2.1 hwn.2.2.2.2.2.1,
                                Nrr_node_BLACK hwn.2.2.2.2.2.2 hnx⟩
                              (fun h2 => by simp [ctxColor, RED, BLACK] at h2)
                      · -- mirror Case 4 directly: u is RED
                        have huR : colorOf u = RED := RED_of_ne_BLACK huB
                        cases u with
                        | nil => simp [colorOf, RED, BLACK] at huR
                        | node uc e ke ve f =>
                            have hucR : uc = RED := huR
                            subst hucR
                            have heb : blackH e = n := by
                              simpa [blackH, RED, BLACK] using hub
                            have hfb : blackH f = n := by
                              have h2 := hwok.2.1.1.2.2
                              omega
                            obtain ⟨heB, hfB⟩ : colorOf e = BLACK ∧ colorOf f = BLACK :=
                              hwn.2.2.2.1.1 rfl
                            have hcomp : fixDelete (.right BLACK k v
                                  (.node true wl kw vw (.node BLACK (.node RED e ke ve f) ku vu u2)) up) x
                                = paint BLACK (Ctx.rebuild (.right BLACK kw vw wl up : Ctx K V)
                                    (.node RED (.node BLACK e ke ve f) ku vu
                                      (.node BLACK u2 k v x))) := by
                              rw [fixDelete.eq_def]
                              simp only [RED, BLACK]
                              split
                              next h9 => exact absurd h9 hx
                              next h9 => simp [delCases234R, RED, BLACK, paint_node, paint_nil, colorOf_node, colorOf_nil, Ctx.rebuild, hboth, huB]
                            rw [hcomp]
                            exact finish_paint_rebuild hctx2
                              (by simp [blackH, heb, RED, BLACK])
                              ⟨⟨hwok.2.1.1.1, hwok.2.1.1.2.1, by omega⟩,
                                ⟨hwok.2.1.2.1, hok, by omega⟩,
                                by simp [blackH, heb, hu2b, BLACK, RED]⟩
                              ⟨fun _ => ⟨rfl, rfl⟩,
                                Nrr_node_BLACK hwn.2.2.2.1.2.1 hwn.2.2.2.1.2.2,
                                Nrr_node_BLACK hwn.2.2.2.2 hnx⟩
                              (fun h2 => by simp [ctxColor, RED, BLACK] at h2)
            | false =>
                have hwlb : blackH wl = n := by
                  simpa [blackH, BLACK] using hwb
                have hwrb : blackH wr = n := by
                  have h2 := hwok.2.2
                  omega
                by_cases hboth : colorOf wr = BLACK ∧ colorOf wl = BLACK
                · -- mirror Case 2
                  have hcomp : fixDelete (.right c k v (.node false wl kw vw wr) up) x
                      = fixDelete up (.node c (.node RED wl kw vw wr) k v x) := by
                    rw [fixDelete.eq_def]
                    simp only [RED, BLACK]
                    split
                    next h9 => exact absurd h9 hx
                    next h9 => simp [delCases234R, RED, BLACK, paint_node, paint_nil, colorOf_node, colorOf_nil, Ctx.rebuild, hboth.1, hboth.2]
                  rw [hcomp]
                  exact fixDelete_RB up (.node c (.node RED wl kw vw wr) k v x)
                    (n + (if c = BLACK then 1 else 0))
                    (by rw [Nat.add_right_comm]; exact hup)
                    (by simp [blackH, hwlb, RED, BLACK])
                    ⟨⟨hwok.1, hwok.2.1, hwok.2.2⟩, hok,
                      by simp [blackH, hbh, RED, BLACK, hwlb]⟩
                    ⟨Nrr_node_RED hboth.2 hboth.1 hwn.2.1 hwn.2.2, hnx⟩
                · by_cases hwlB : colorOf wl = BLACK
                  · -- mirror Case 3 then Case 4: wr is RED
                    have hwrR : colorOf wr = RED := by
                      rcases Bool.eq_false_or_eq_true (colorOf wr) with h2 | h2
                      · exact h2
                      · exact absurd ⟨h2, hwlB⟩ hboth
                    cases wr with
                    | nil => simp [colorOf, RED, BLACK] at hwrR
                    | node wrc a ka va b =>
                        have hwrcR : wrc = RED := hwrR
                        subst hwrcR
                        have hab : blackH a = n := by
                          simpa [blackH, RED, BLACK] using hwrb
                        have hbb : blackH b = n := by
                          have h2 := hwok.2.1.2.2
                          omega
                        obtain ⟨haB, hbB⟩ : colorOf a = BLACK ∧ colorOf b = BLACK :=
                          hwn.2.2.1 rfl
                        have hcomp : fixDelete (.right c k v
                              (.node false wl kw vw (.node RED a ka va b)) up) x
                            = paint BLACK (Ctx.rebuild up (.node c
                                (.node BLACK wl kw vw a) ka va (.node BLACK b k v x))) := by
                          rw [fixDelete.eq_def]
                          simp only [RED, BLACK]
                          split
                          next h9 => exact absurd h9 hx
                          next h9 => simp [delCases234R, RED, BLACK, paint_node, paint_nil, colorOf_node, colorOf_nil, Ctx.rebuild, hboth, hwlB]
                        rw [hcomp]
                        exact finish_paint_rebuild hup
                          (by simp [blackH, hwlb, BLACK, RED])
                          ⟨⟨hwok.1, hwok.2.1.1, by omega⟩, ⟨hwok.2.1.2.1, hok, by omega⟩,
                            by simp [blackH, hwlb, hbb, BLACK]⟩
                          ⟨fun _ => ⟨rfl, rfl⟩,
                            Nrr_node_BLACK hwn.2.1 hwn.2.2.2.1,
                            Nrr_node_BLACK hwn.2.2.2.2 hnx⟩
                          (fun hu => hrc_flip (fun hcr => (hrc hcr).2) hu)
                  · -- mirror Case 4 directly: wl is RED
                    have hwlR : colorOf wl = RED := RED_of_ne_BLACK hwlB
                    cases wl with
                    | nil => simp [colorOf, RED, BLACK] at hwlR
                    | node wlc e ke ve f =>
                        have hwlcR : wlc = RED := hwlR
                        subst hwlcR
                        have heb : blackH e = n := by
                          simpa [blackH, RED, BLACK] using hwlb
                        have hfb : blackH f = n := by
                          have h2 := hwok.1.2.2
                          omega
                        obtain ⟨heB, hfB⟩ : colorOf e = BLACK ∧ colorOf f = BLACK :=
                          hwn.2.1.1 rfl
                        have hcomp : fixDelete (.right c k v
                              (.node false (.node RED e ke ve f) kw vw wr) up) x
                            = paint BLACK (Ctx.rebuild up (.node c
                                (.node BLACK e ke ve f) kw vw (.node BLACK wr k v x))) := by
                          rw [fixDelete.eq_def]
                          simp only [RED, BLACK]
                          split
                          next h9 => exact absurd h9 hx
                          next h9 => simp [delCases234R, RED, BLACK, paint_node, paint_nil, colorOf_node, colorOf_nil, Ctx.rebuild, hboth, hwlB, paint]
                        rw [hcomp]
                        exact finish_paint_rebuild hup
                          (by simp [blackH, heb, BLACK, RED])
                          ⟨⟨hwok.1.1, hwok.1.2.1, by omega⟩, ⟨hwok.2.1, hok, by omega⟩,
                            by simp [blackH, heb, hwrb, BLACK, RED]⟩
                          ⟨fun _ => ⟨rfl, rfl⟩,
                            Nrr_node_BLACK hwn.2.1.2.1 hwn.2.1.2.2,
                            Nrr_node_BLACK hwn.2.2 hnx⟩
                          (fun hu => hrc_flip (fun hcr => (hrc hcr).2) hu)

/-- Cases 2-4 (left orientation) only recolour and rotate: contents are
preserved in place. -/
theorem delCases234L_inorder (up : Ctx K V) (pc : Bool) (k : K) (v : V) (w x : Tree K V) :
    (∀ x2, delCases234L up pc k v w x = .inl x2 →
      inorder x2 = inorder x ++ (k, v) :: inorder w) ∧
    (∀ t, delCases234L up pc k v w x = .inr t →
      inorder t = up.before ++ (inorder x ++ (k, v) :: inorder w) ++ up.after) := by
  cases w with
  | nil =>
      constructor
      · intro x2 hz
        simp [delCases234L, colorOf_nil, colorOf_node, paint] at hz
        subst hz
        simp [inorder]
      · intro t hz
        simp [delCases234L] at hz
  | node wc wl kw vw wr =>
      by_cases h1 : colorOf wl = BLACK ∧ colorOf wr = BLACK
      · constructor
        · intro x2 hz
          simp [delCases234L, colorOf_nil, colorOf_node, h1] at hz
          subst hz
          simp [inorder]
        · intro t hz
          simp [delCases234L, colorOf_nil, colorOf_node, h1] at hz
      · by_cases h2 : colorOf wr = BLACK
        · cases wl with
          | nil => exact absurd ⟨colorOf_nil, h2⟩ h1
          | node wlc a ka va b =>
              have hwlc : ¬ wlc = BLACK := fun h => h1 ⟨by simp [colorOf_node, h], h2⟩
              constructor
              · intro x2 hz
                simp [delCases234L, colorOf_nil, colorOf_node, h1, h2, hwlc] at hz
              · intro t hz
                simp [delCases234L, colorOf_nil, colorOf_node, h1, h2, hwlc] at hz
                subst hz
                simp [rebuild_inorder, inorder]
        · constructor
          · intro x2 hz
            simp [delCases234L, colorOf_nil, colorOf_node, h1, h2] at hz
          · intro t hz
            simp [delCases234L, colorOf_nil, colorOf_node, h1, h2] at hz
            subst hz
            simp [rebuild_inorder, inorder, inorder_paint]

/-- Cases 2-4 (right orientation) only recolour and rotate. -/
theorem delCases234R_inorder (up : Ctx K V) (pc : Bool) (k : K) (v : V) (w x : Tree K V) :
    (∀ x2, delCases234R up pc k v w x = .inl x2 →
      inorder x2 = inorder w ++ (k, v) :: inorder x) ∧
    (∀ t, delCases234R up pc k v w x = .inr t →
      inorder t = up.before ++ (inorder w ++ (k, v) :: inorder x) ++ up.after) := by
  cases w with
  | nil =>
      constructor
      · intro x2 hz
        simp [delCases234R, colorOf_nil, colorOf_node, paint] at hz
        subst hz
        simp [inorder]
      · intro t hz
        simp [delCases234R] at hz
  | node wc wl kw vw wr =>
      by_cases h1 : colorOf wr = BLACK ∧ colorOf wl = BLACK
      · constructor
        · intro x2 hz
          simp [delCases234R, colorOf_nil, colorOf_node, h1] at hz
          subst hz
          simp [inorder]
        · intro t hz
          simp [delCases234R, colorOf_nil, colorOf_node, h1] at hz
      · by_cases h2 : colorOf wl = BLACK
        · cases wr with
          | nil => exact absurd ⟨colorOf_nil, h2⟩ h1
          | node wrc a ka va b =>
              have hwrc : ¬ wrc = BLACK := fun h => h1 ⟨by simp [colorOf_node, h], h2⟩
              constructor
              · intro x2 hz
                simp [delCases234R, colorOf_nil, colorOf_node, h1, h2, hwrc] at hz
              · intro t hz
                simp [delCases234R, colorOf_nil, colorOf_node, h1, h2, hwrc] at hz
                subst hz
                simp [rebuild_inorder, inorder]
        · constructor
          · intro x2 hz
            simp [delCases234R, colorOf_nil, colorOf_node, h1, h2] at hz
          · intro t hz
            simp [delCases234R, colorOf_nil, colorOf_node, h1, h2] at hz
            subst hz
            simp [rebuild_inorder, inorder, inorder_paint]

/-- `_fix_delete` only recolours and rotates: the in-order contents of the
whole tree are those of the context with the focus in its hole. -/
theorem fixDelete_inorder :
    ∀ (ctx : Ctx K V) (x : Tree K V),
      inorder (fixDelete ctx x) = ctx.before ++ inorder x ++ ctx.after
  | .root, x => by simp [fixDelete, inorder_paint, Ctx.before, Ctx.after]
  | .left c k v w up, x => by
      by_cases hx : colorOf x = RED
      · simp only [RED] at hx
        rw [fixDelete.eq_def]
        simp [hx, RED, rebuild_inorder, inorder, inorder_paint, Ctx.before, Ctx.after]
      · have hx2 : colorOf x = false := by
          simpa [BLACK] using (not_RED_eq_BLACK hx)
        cases w with
        | node wc wl kw vw wr =>
            cases wc with
            | true =>
                rcases hdel : delCases234L (.left false kw vw wr up : Ctx K V) true k v wl x
                  with x2 | t
                · rw [fixDelete.eq_def]
                  simp only [hx2, RED, BLACK, hdel, Bool.false_eq_true, if_false]
                  have hin := (delCases234L_inorder
                    (.left false kw vw wr up) true k v wl x).1 x2 hdel
                  simp [rebuild_inorder, inorder_paint, hin, inorder,
                    Ctx.before, Ctx.after]
                · rw [fixDelete.eq_def]
                  simp only [hx2, RED, BLACK, hdel, Bool.false_eq_true, if_false]
                  have hin := (delCases234L_inorder
                    (.left false kw vw wr up) true k v wl x).2 t hdel
                  simp [inorder_paint, hin, inorder, Ctx.before, Ctx.after]
            | false =>
                rcases hdel : delCases234L up c k v (.node false wl kw vw wr) x
                  with x2 | t
                · rw [fixDelete.eq_def]
                  simp only [hx2, RED, BLACK, hdel, Bool.false_eq_true, if_false]
                  have hin := (delCases234L_inorder
                    up c k v (.node false wl kw vw wr) x).1 x2 hdel
                  rw [fixDelete_inorder up x2, hin]
                  simp [inorder, Ctx.before, Ctx.after]
                · rw [fixDelete.eq_def]
                  simp only [hx2, RED, BLACK, hdel, Bool.false_eq_true, if_false]
                  have hin := (delCases234L_inorder
                    up c k v (.node false wl kw vw wr) x).2 t hdel
                  simp [inorder_paint, hin, inorder, Ctx.before, Ctx.after]
        | nil =>
            rcases hdel : delCases234L up c k v (.nil : Tree K V) x with x2 | t
            · rw [fixDelete.eq_def]
              simp only [hx2, RED, BLACK, hdel, Bool.false_eq_true, if_false]
              have hin := (delCases234L_inorder up c k v .nil x).1 x2 hdel
              rw [fixDelete_inorder up x2, hin]
              simp [inorder, Ctx.before, Ctx.after]
            · rw [fixDelete.eq_def]
              simp only [hx2, RED, BLACK, hdel, Bool.false_eq_true, if_false]
              have hin := (delCases234L_inorder up c k v .nil x).2 t hdel
              simp [inorder_paint, hin, inorder, Ctx.before, Ctx.after]
  | .right c k v w up, x => by
      by_cases hx : colorOf x = RED
      · simp only [RED] at hx
        rw [fixDelete.eq_def]
        simp [hx, RED, rebuild_inorder, inorder, inorder_paint, Ctx.before, Ctx.after]
      · have hx2 : colorOf x = false := by
          simpa [BLACK] using (not_RED_eq_BLACK hx)
        cases w with
        | node wc wl kw vw wr =>
            cases wc with
            | true =>
                rcases hdel : delCases234R (.right false kw vw wl up : Ctx K V) true k v wr x
                  with x2 | t
                · rw [fixDelete.eq_def]
                  simp only [hx2, RED, BLACK, hdel, Bool.false_eq_true, if_false]
                  have hin := (delCases234R_inorder
                    (.right false kw vw wl up) true k v wr x).1 x2 hdel
                  simp [rebuild_inorder, inorder_paint, hin, inorder,
                    Ctx.before, Ctx.after]
                · rw [fixDelete.eq_def]
                  simp only [hx2, RED, BLACK, hdel, Bool.false_eq_true, if_false]
                  have hin := (delCases234R_inorder
                    (.right false kw vw wl up) true k v wr x).2 t hdel
                  simp [inorder_paint, hin, inorder, Ctx.before, Ctx.after]
            | false =>
                rcases hdel : delCases234R up c k v (.node false wl kw vw wr) x
                  with x2 | t
                · rw [fixDelete.eq_def]
                  simp only [hx2, RED, BLACK, hdel, Bool.false_eq_true, if_false]
                  have hin := (delCases234R_inorder
                    up c k v (.node false wl kw vw wr) x).1 x2 hdel
                  rw [fixDelete_inorder up x2, hin]
                  simp [inorder, Ctx.before, Ctx.after]
                · rw [fixDelete.eq_def]
                  simp only [hx2, RED, BLACK, hdel, Bool.false_eq_true, if_false]
                  have hin := (delCases234R_inorder
                    up c k v (.node false wl kw vw wr) x).2 t hdel
                  simp [inorder_paint, hin, inorder, Ctx.before, Ctx.after]
        | nil =>
            rcases hdel : delCases234R up c k v (.nil : Tree K V) x with x2 | t
            · rw [fixDelete.eq_def]
              simp only [hx2, RED, BLACK, hdel, Bool.false_eq_true, if_false]
              have hin := (delCases234R_inorder up c k v .nil x).1 x2 hdel
              rw [fixDelete_inorder up x2, hin]
              simp [inorder, Ctx.before, Ctx.after]
            · rw [fixDelete.eq_def]
              simp only [hx2, RED, BLACK, hdel, Bool.false_eq_true, if_false]
              have hin := (delCases234R_inorder up c k v .nil x).2 t hdel
              simp [inorder_paint, hin, inorder, Ctx.before, Ctx.after]

/-! ### `ctxAppend` and `minSplit` -/

theorem ctxAppend_rebuild :
    ∀ (a b : Ctx K V) (t : Tree K V),
      (ctxAppend a b).rebuild t = b.rebuild (a.rebuild t)
  | .root, b, t => rfl
  | .left c k v s up, b, t => by
      simp [ctxAppend, Ctx.rebuild, ctxAppend_rebuild up]
  | .right c k v s up, b, t => by
      simp [ctxAppend, Ctx.rebuild, ctxAppend_rebuild up]

theorem ctxAppend_before :
    ∀ (a b : Ctx K V), (ctxAppend a b).before = b.before ++ a.before
  | .root, b => by simp [ctxAppend, Ctx.before]
  | .left c k v s up, b => by
      simp [ctxAppend, Ctx.before, ctxAppend_before up]
  | .right c k v s up, b => by
      simp [ctxAppend, Ctx.before, ctxAppend_before up]

theorem ctxAppend_after :
    ∀ (a b : Ctx K V), (ctxAppend a b).after = a.after ++ b.after
  | .root, b => by simp [ctxAppend, Ctx.after]
  | .left c k v s up, b => by
      simp [ctxAppend, Ctx.after, ctxAppend_after up]
  | .right c k v s up, b => by
      simp [ctxAppend, Ctx.after, ctxAppend_after up]

/-- Shifting the accumulator of `minSplit` under a deeper base context. -/
theorem minSplit_acc :
    ∀ (sub : Tree K V) (acc b : Ctx K V) (cy : Bool) (ky : K) (vy : V)
      (yr : Tree K V) (rel : Ctx K V),
      minSplit sub acc = some (cy, ky, vy, yr, rel) →
      minSplit sub (ctxAppend acc b) = some (cy, ky, vy, yr, ctxAppend rel b)
  | .nil, acc, b, cy, ky, vy, yr, rel, h => by simp [minSplit] at h
  | .node c l k v r, acc, b, cy, ky, vy, yr, rel, h => by
      cases l with
      | nil =>
          simp only [minSplit, Option.some.injEq, Prod.mk.injEq] at h
          obtain ⟨h1, h2, h3, h4, h5⟩ := h
          subst h1; subst h2; subst h3; subst h4; subst h5
          simp [minSplit]
      | node c2 l2 k2 v2 r2 =>
          rw [minSplit] at h
          rw [minSplit]
          exact minSplit_acc (.node c2 l2 k2 v2 r2) (.left c k v r acc) b cy ky vy yr rel h

theorem minSplit_isSome :
    ∀ (c : Bool) (l : Tree K V) (k : K) (v : V) (r : Tree K V) (acc : Ctx K V),
      (minSplit (.node c l k v r) acc).isSome = true := by
  intro c l k v r
  induction l generalizing c k v r with
  | nil => intro acc; simp [minSplit]
  | node c2 l2 k2 v2 r2 ihl ihr =>
      intro acc
      rw [minSplit]
      exact ihl c2 k2 v2 r2 (.left c k v r acc)

/-- Contents bookkeeping of the `_minimum_node` walk used by deletion. -/
theorem minSplit_inorder :
    ∀ (sub : Tree K V) (acc : Ctx K V) (cy : Bool) (ky : K) (vy : V)
      (yr : Tree K V) (rel : Ctx K V),
      minSplit sub acc = some (cy, ky, vy, yr, rel) →
      rel.before = acc.before ∧
      ∃ X, rel.after = X ++ acc.after ∧ inorder sub = ((ky, vy) :: inorder yr) ++ X
  | .nil, acc, cy, ky, vy, yr, rel, h => by simp [minSplit] at h
  | .node c l k v r, acc, cy, ky, vy, yr, rel, h => by
      cases l with
      | nil =>
          simp only [minSplit, Option.some.injEq, Prod.mk.injEq] at h
          obtain ⟨h1, h2, h3, h4, h5⟩ := h
          subst h1; subst h2; subst h3; subst h4; subst h5
          exact ⟨rfl, [], by simp [inorder]⟩
      | node c2 l2 k2 v2 r2 =>
          rw [minSplit] at h
          obtain ⟨hb, X, ha, hi⟩ :=
            minSplit_inorder (.node c2 l2 k2 v2 r2) (.left c k v r acc) cy ky vy yr rel h
          refine ⟨hb, X ++ (k, v) :: inorder r, ?_, ?_⟩
          · rw [ha]; simp [Ctx.after]
          · rw [inorder, hi]; simp

/-- Red-black facts about the `_minimum_node` walk: the reached node `y` has
black height `1 + (1 if BLACK)` at its hole, its right child has black
height 1, and the path is red-black consistent. -/
theorem minSplit_RB :
    ∀ (sub : Tree K V) (acc : Ctx K V) (m : Nat) (cy : Bool) (ky : K) (vy : V)
      (yr : Tree K V) (rel : Ctx K V),
      minSplit sub acc = some (cy, ky, vy, yr, rel) →
      CtxRB acc m → blackH sub = m → BhOk sub → Nrr sub →
      (ctxColor acc = RED → colorOf sub = BLACK) →
      (acc = .root → colorOf sub = BLACK) →
      CtxRB rel (1 + (if cy = BLACK then 1 else 0)) ∧
      blackH yr = 1 ∧ BhOk yr ∧ Nrr yr ∧ (cy = RED → colorOf yr = BLACK) ∧
      (ctxColor rel = RED → cy = BLACK) ∧ (rel = .root → cy = BLACK)
  | .nil, acc, m, cy, ky, vy, yr, rel, h => by simp [minSplit] at h
  | .node c l k v r, acc, m, cy, ky, vy, yr, rel, h => by
      intro hc hbh hok hn hred hroot
      have hcup : c = RED → ctxColor acc = BLACK := by
        intro hcr
        by_contra hne
        have h9 := hred (RED_of_ne_BLACK (by simpa using hne))
        simp [colorOf, hcr, RED, BLACK] at h9
      cases l with
      | nil =>
          simp only [minSplit, Option.some.injEq, Prod.mk.injEq] at h
          obtain ⟨h1, h2, h3, h4, h5⟩ := h
          subst h1; subst h2; subst h3; subst h4; subst h5
          have hm : m = 1 + (if c = BLACK then 1 else 0) := by
            rw [blackH, blackH] at hbh
            omega
          refine ⟨hm ▸ hc, ?_, hok.2.1, hn.2.2, fun hcr => (hn.1 hcr).2, ?_, ?_⟩
          · have h9 := hok.2.2
            rw [blackH] at h9
            omega
          · intro hcr
            by_contra hne
            have h9 := hred hcr
            simp [colorOf, RED_of_ne_BLACK hne, RED, BLACK] at h9
          · intro hr
            exact hroot hr
      | node c2 l2 k2 v2 r2 =>
          rw [minSplit] at h
          exact minSplit_RB (.node c2 l2 k2 v2 r2) (.left c k v r acc) (blackH (.node c2 l2 k2 v2 r2))
            cy ky vy yr rel h
            (by
              refine ⟨hok.2.2.symm, hok.2.1, hn.2.2, ?_, fun hr => hroot hr,
                fun hcr => ⟨(hn.1 hcr).2, hcup hcr⟩⟩
              have h9 : blackH (Tree.node c2 l2 k2 v2 r2) + (if c = BLACK then 1 else 0) = m := by
                simpa [blackH] using hbh
              rwa [h9])
            rfl hok.1 hn.2.1 (fun hcr => (hn.1 hcr).1) (fun hr => by simp at hr)

/-- `_delete_node` removes exactly the focused pair, in place. -/
theorem deleteNode_inorder (ctx : Ctx K V) (c : Bool) (l : Tree K V) (k : K)
    (v : V) (r : Tree K V) :
    inorder (deleteNode ctx c l k v r)
      = ctx.before ++ (inorder l ++ inorder r) ++ ctx.after := by
  cases l with
  | nil =>
      by_cases hc : c = BLACK <;>
        simp [deleteNode, hc, fixDelete_inorder, rebuild_inorder, inorder]
  | node cl ll kl vl rl =>
      cases r with
      | nil =>
          by_cases hc : c = BLACK <;>
            simp [deleteNode, hc, fixDelete_inorder, rebuild_inorder, inorder]
      | node cr rl2 kr vr rr =>
          cases hms : minSplit (.node cr rl2 kr vr rr) (.root : Ctx K V) with
          | none =>
              have h9 := minSplit_isSome cr rl2 kr vr rr .root
              rw [hms] at h9
              simp at h9
          | some res =>
              obtain ⟨cy, ky, vy, yr, rel⟩ := res
              obtain ⟨hb, X, ha, hi⟩ :=
                minSplit_inorder (.node cr rl2 kr vr rr) .root cy ky vy yr rel hms
              simp only [Ctx.before, Ctx.after] at hb ha
              rw [List.append_nil] at ha
              by_cases hcy : cy = BLACK
              · rw [deleteNode]
                simp only [hms]
                rw [if_pos hcy, fixDelete_inorder, ctxAppend_before,
                  ctxAppend_after, hb, ha, hi]
                simp [Ctx.before, Ctx.after, inorder]
              · rw [deleteNode]
                simp only [hms]
                rw [if_neg hcy, rebuild_inorder, ctxAppend_before,
                  ctxAppend_after, hb, ha, hi]
                simp [Ctx.before, Ctx.after, inorder]

/-- `_delete_node` preserves the red-black invariants. -/
theorem deleteNode_RB (ctx : Ctx K V) (c : Bool) (l : Tree K V) (k : K) (v : V)
    (r : Tree K V)
    (hc : CtxRB ctx (blackH l + (if c = BLACK then 1 else 0)))
    (hlr : blackH l = blackH r) (hokl : BhOk l) (hokr : BhOk r)
    (hnl : Nrr l) (hnr : Nrr r)
    (hcr2 : c = RED → colorOf l = BLACK ∧ colorOf r = BLACK)
    (hflip : ctxColor ctx = RED → c = BLACK)
    (hroot : ctx = .root → c = BLACK) :
    BhOk (deleteNode ctx c l k v r) ∧ Nrr (deleteNode ctx c l k v r) ∧
      colorOf (deleteNode ctx c l k v r) = BLACK := by
  cases l with
  | nil =>
      have hbr : blackH r = 1 := hlr ▸ rfl
      by_cases hcb : c = BLACK
      · rw [deleteNode]
        simp only [hcb, if_pos rfl]
        exact fixDelete_RB ctx r 1 (by simpa [blackH, hcb, BLACK] using hc) hbr hokr
          (NrrK_of_Nrr hnr)
      · have hcR : c = RED := RED_of_ne_BLACK hcb
        rw [deleteNode]
        simp only [hcb, if_false]
        exact finish_rebuild (by simpa [blackH, hcR, RED, BLACK] using hc) hbr hokr hnr
          (fun _ => (hcr2 hcR).2) (fun _ => (hcr2 hcR).2)
  | node cl ll kl vl rl =>
      cases r with
      | nil =>
          by_cases hcb : c = BLACK
          · rw [deleteNode]
            simp only [hcb, if_pos rfl]
            have h9 : blackH (Tree.node cl ll kl vl rl) = 1 := by
              rw [hlr]; rfl
            exact fixDelete_RB ctx (.node cl ll kl vl rl) 1
              (by simpa [h9, hcb, BLACK] using hc) h9 hokl (NrrK_of_Nrr hnl)
          · have hcR : c = RED := RED_of_ne_BLACK hcb
            rw [deleteNode]
            simp only [hcb, if_false]
            exact finish_rebuild (by simpa [hcR, RED, BLACK] using hc) rfl hokl hnl
              (fun _ => (hcr2 hcR).1) (fun _ => (hcr2 hcR).1)
      | node cr rl2 kr vr rr =>
          cases hms : minSplit (.node cr rl2 kr vr rr) (.root : Ctx K V) with
          | none =>
              have h9 := minSplit_isSome cr rl2 kr vr rr .root
              rw [hms] at h9
              simp at h9
          | some res =>
              obtain ⟨cy, ky, vy, yr, rel⟩ := res
              have hms2 : minSplit (.node cr rl2 kr vr rr)
                  (.right c ky vy (.node cl ll kl vl rl) ctx)
                  = some (cy, ky, vy, yr,
                      ctxAppend rel (.right c ky vy (.node cl ll kl vl rl) ctx)) := by
                have h9 := minSplit_acc (.node cr rl2 kr vr rr) .root
                  (.right c ky vy (.node cl ll kl vl rl) ctx) cy ky vy yr rel hms
                simpa [ctxAppend] using h9
              obtain ⟨hc2, hyrb, hyrok, hyrn, hyrc, hflip2, hroot2⟩ :=
                minSplit_RB (.node cr rl2 kr vr rr)
                  (.right c ky vy (.node cl ll kl vl rl) ctx)
                  (blackH (.node cr rl2 kr vr rr)) cy ky vy yr _ hms2
                  (by
                    refine ⟨hlr, hokl, hnl, ?_, fun h9 => hroot h9,
                      fun hcr => ⟨(hcr2 hcr).1, hrc_flip hflip hcr⟩⟩
                    rw [← hlr]
                    exact hc)
                  rfl hokr hnr (fun hcr => (hcr2 hcr).2) (fun h9 => by simp at h9)
              by_cases hcy : cy = BLACK
              · rw [deleteNode]
                simp only [hms]
                rw [if_pos hcy]
                exact fixDelete_RB _ yr 1
                  (by simpa [hcy, BLACK] using hc2) hyrb hyrok (NrrK_of_Nrr hyrn)
              · have hcyR : cy = RED := RED_of_ne_BLACK hcy
                rw [deleteNode]
                simp only [hms]
                rw [if_neg hcy]
                exact finish_rebuild (by simpa [hcyR, RED, BLACK] using hc2) hyrb hyrok
                  hyrn (fun _ => hyrc hcyR) (fun _ => hyrc hcyR)

/-- The full invariant of a `RedBlackTree` object: red-black colour
invariants, sorted contents, and an accurate `_size` field. -/
def Inv (t : RBTree K V) : Prop :=
  colorOf t.root = BLACK ∧ BhOk t.root ∧ Nrr t.root ∧
  SortedKV (inorder t.root) ∧ t.size = (inorder t.root).length

theorem Inv_empty : Inv (emptyTree : RBTree K V) := by
  refine ⟨rfl, trivial, trivial, ?_, rfl⟩
  simp [emptyTree, inorder, SortedKV]

/-- `__setitem__` preserves the invariant, never fails, and transforms the
contents exactly as the reference map `set`. -/
theorem setitem_Inv {t : RBTree K V} (k : K) (v : V) (hI : Inv t) :
    ∃ t2, setitem t k v = .ok t2 ∧ Inv t2 ∧
      inorder t2.root = refSet (inorder t.root) k v := by
  obtain ⟨h1, h2, h3, h4, h5⟩ := hI
  obtain ⟨t2, ht, hh1, hh2, hh3⟩ := setitem_RB k v h1 h2 h3
  obtain ⟨hio, hsz⟩ := setitem_inorder ht
  have href : inorder t2.root = refSet (inorder t.root) k v := by
    rw [hio, insInorder_eq_refSet _ _ _ h4]
  refine ⟨t2, ht, ⟨hh1, hh2, hh3, ?_, ?_⟩, href⟩
  · rw [href]
    exact SortedKV_refSet k v h4
  · rw [hsz, hio, insInorder_length, h5]

/-- Everything strictly left of a pivot in a sorted list has a smaller key. -/
theorem sorted_prefix_lt {P S : List (K × V)} {k : K} {v : V}
    (hs : SortedKV (P ++ (k, v) :: S)) : ∀ a ∈ P, a.1 < k := by
  rw [SortedKV, List.pairwise_append] at hs
  exact fun a ha => hs.2.2 a ha (k, v) (by simp)

theorem refDel_decomp {B A lp rp : List (K × V)} {k : K} {v2 : V}
    (hs : SortedKV (B ++ (lp ++ (k, v2) :: rp) ++ A)) :
    refDel (B ++ (lp ++ (k, v2) :: rp) ++ A) k = B ++ (lp ++ rp) ++ A := by
  have hre : B ++ (lp ++ (k, v2) :: rp) ++ A
      = (B ++ lp) ++ (k, v2) :: (rp ++ A) := by simp
  have hlt : ∀ a ∈ B ++ lp, a.1 < k := sorted_prefix_lt (by rwa [hre] at hs)
  rw [hre, refDel_append_low hlt, refDel, if_pos rfl]
  simp

/-- `__delitem__` on a present key preserves the invariant and transforms
the contents exactly as the reference map `delete`. -/
theorem delitem_Inv {t : RBTree K V} {k : K} {t2 : RBTree K V} (hI : Inv t)
    (h : delitem t k = .ok t2) :
    Inv t2 ∧ inorder t2.root = refDel (inorder t.root) k ∧
      (inorder t.root).length = (inorder t2.root).length + 1 := by
  obtain ⟨h1, h2, h3, h4, h5⟩ := hI
  rw [delitem] at h
  cases hsz : searchZ t.root (.root : Ctx K V) k with
  | none => rw [hsz] at h; simp at h
  | some res =>
      obtain ⟨ctx, c, l, k2, v2, r⟩ := res
      rw [hsz] at h
      simp only [Except.ok.injEq] at h
      subst h
      obtain ⟨hk2, hdec⟩ := searchZ_spec t.root .root k ctx c l k2 v2 r hsz
      subst hk2
      simp only [Ctx.before, Ctx.after, List.append_nil, List.nil_append] at hdec
      obtain ⟨hc2, hlr, hokl, hokr, hnl, hnr, hcc, hflip, hroot⟩ :=
        searchZ_RB t.root .root k2 (blackH t.root) ctx c l k2 v2 r hsz
          trivial rfl h2 h3 (fun h9 => by simp [ctxColor, RED, BLACK] at h9)
          (fun _ => h1)
      have hrb := deleteNode_RB ctx c l k2 v2 r hc2 hlr hokl hokr hnl hnr hcc
        hflip hroot
      have hio := deleteNode_inorder ctx c l k2 v2 r
      have h4b : SortedKV
          (ctx.before ++ (inorder l ++ (k2, v2) :: inorder r) ++ ctx.after) := by
        rw [hdec]; exact h4
      have href : inorder (deleteNode ctx c l k2 v2 r)
          = refDel (inorder t.root) k2 := by
        rw [hio, ← hdec, refDel_decomp h4b]
      have hlen : (inorder t.root).length
          = (inorder (deleteNode ctx c l k2 v2 r)).length + 1 := by
        rw [hio, ← hdec]
        simp [List.length_append]
        omega
      refine ⟨⟨hrb.2.2, hrb.1, hrb.2.1, ?_, ?_⟩, href, hlen⟩
      · show SortedKV (inorder (deleteNode ctx c l k2 v2 r))
        rw [href]
        exact SortedKV_refDel k2 h4
      · show t.size - 1 = (inorder (deleteNode ctx c l k2 v2 r)).length
        omega

/-! ### Reachable states and joint simulation with the reference map -/

/-- Tree objects reachable from `RedBlackTree()` by successful
`__setitem__` / `__delitem__` calls. -/
inductive Reachable : RBTree K V → Prop
  | empty : Reachable emptyTree
  | set {t t2 : RBTree K V} (k : K) (v : V) :
      Reachable t → setitem t k v = .ok t2 → Reachable t2
  | del {t t2 : RBTree K V} (k : K) :
      Reachable t → delitem t k = .ok t2 → Reachable t2

theorem Reachable_Inv {t : RBTree K V} (h : Reachable t) : Inv t := by
  induction h with
  | empty => exact Inv_empty
  | set k v _ hok ih =>
      obtain ⟨t3, hok2, hI, _⟩ := setitem_Inv k v ih
      rw [hok] at hok2
      cases hok2
      exact hI
  | del k _ hok ih => exact (delitem_Inv ih hok).1

/-- Joint execution of the tree and the reference map (a key-sorted
association list) on the same operation sequence; a failed delete leaves
both sides unchanged. -/
inductive SimReach : RBTree K V → List (K × V) → Prop
  | empty : SimReach emptyTree []
  | set {t : RBTree K V} {m t2} (k : K) (v : V) :
      SimReach t m → setitem t k v = .ok t2 → SimReach t2 (refSet m k v)
  | delOk {t : RBTree K V} {m t2} (k : K) :
      SimReach t m → delitem t k = .ok t2 → SimReach t2 (refDel m k)
  | delMiss {t : RBTree K V} {m} (k : K) (e : RBErr K) :
      SimReach t m → delitem t k = .error e → SimReach t m

theorem SimReach_spec {t : RBTree K V} {m : List (K × V)}
    (h : SimReach t m) : Inv t ∧ inorder t.root = m := by
  induction h with
  | empty => exact ⟨Inv_empty, rfl⟩
  | set k v _ hok ih =>
      obtain ⟨t3, hok2, hI, hio⟩ := setitem_Inv k v ih.1
      rw [hok] at hok2
      cases hok2
      exact ⟨hI, by rw [hio, ih.2]⟩
  | delOk k _ hok ih =>
      obtain ⟨hI, hio, _⟩ := delitem_Inv ih.1 hok
      exact ⟨hI, by rw [hio, ih.2]⟩
  | delMiss k e _ _ ih => exact ih

theorem SimReach_Reachable {t : RBTree K V} {m : List (K × V)}
    (h : SimReach t m) : Reachable t := by
  induction h with
  | empty => exact .empty
  | set k v _ hok ih => exact .set k v ih hok
  | delOk k _ hok ih => exact .del k ih hok
  | delMiss k e _ _ ih => exact ih

/-! ### `validate` succeeds on invariant-satisfying trees -/

theorem sorted_suffix_gt {P S : List (K × V)} {k : K} {v : V}
    (hs : SortedKV (P ++ (k, v) :: S)) : ∀ a ∈ S, k < a.1 := by
  rw [SortedKV, List.pairwise_append] at hs
  exact fun a ha => (List.pairwise_cons.mp hs.2.1).1 a ha

theorem SortedKV_sub {A B : List (K × V)} {p : K × V}
    (h : SortedKV (A ++ p :: B)) : SortedKV A ∧ SortedKV B := by
  rw [SortedKV, List.pairwise_append] at h
  exact ⟨h.1, h.2.1.of_cons⟩

theorem validateDfs_ok :
    ∀ (t : Tree K V) (isRoot : Bool), BhOk t → Nrr t → SortedKV (inorder t) →
      (isRoot = true → colorOf t = BLACK) →
      validateDfs isRoot t = .ok (blackH t)
  | .nil, isRoot, _, _, _, _ => by simp [validateDfs, blackH]
  | .node c l k v r, isRoot, hok, hn, hs, hroot => by
      obtain ⟨hokl, hokr, hbh⟩ := hok
      obtain ⟨hcc, hnl, hnr⟩ := hn
      have hs2 : SortedKV (inorder l ++ (k, v) :: inorder r) := by
        simpa [inorder] using hs
      obtain ⟨hsl, hsr⟩ := SortedKV_sub hs2
      have h1 : ¬ (isRoot = true ∧ c = RED) := by
        rintro ⟨ha, hbb⟩
        have h9 := hroot ha
        rw [colorOf_node, hbb] at h9
        simp [RED, BLACK] at h9
      have h2 : ¬ (c = RED ∧ colorOf l = RED) := by
        rintro ⟨ha, hbb⟩
        rw [(hcc ha).1] at hbb
        simp [RED, BLACK] at hbb
      have h3 : ¬ (c = RED ∧ colorOf r = RED) := by
        rintro ⟨ha, hbb⟩
        rw [(hcc ha).2] at hbb
        simp [RED, BLACK] at hbb
      have h4 : bstLeftBad k l = false := by
        cases l with
        | nil => rfl
        | node c2 l2 k2 v2 r2 =>
            have h9 := sorted_prefix_lt hs2 (k2, v2) (by simp [inorder])
            simp [bstLeftBad, h9]
      have h5 : bstRightBad k r = false := by
        cases r with
        | nil => rfl
        | node c2 l2 k2 v2 r2 =>
            have h9 := sorted_suffix_gt hs2 (k2, v2) (by simp [inorder])
            simp [bstRightBad, h9]
      have ihl := validateDfs_ok l false hokl hnl hsl (fun h => absurd h (by simp))
      have ihr := validateDfs_ok r false hokr hnr hsr (fun h => absurd h (by simp))
      rw [validateDfs.eq_def]
      simp only [ihl, ihr, h4, h5]
      rw [if_neg h1, if_neg h2, if_neg h3]
      simp [hbh, blackH]

theorem validate_ok {t : RBTree K V} (hI : Inv t) : validate t = .ok () := by
  obtain ⟨h1, h2, h3, h4, _⟩ := hI
  rw [validate]
  cases ht : t.root with
  | nil => rfl
  | node c l k v r =>
      show Except.map (fun _ => ()) (validateDfs true (Tree.node c l k v r))
        = Except.ok ()
      rw [validateDfs_ok (.node c l k v r) true (ht ▸ h2) (ht ▸ h3)
        (ht ▸ h4) (fun _ => ht ▸ h1)]
      rfl

/-! ### `__iter__` returns the sorted key sequence -/

theorem iterLoop_spec (stack : List (Bool × Tree K V × K × V × Tree K V))
    (t : Tree K V) :
    iterLoop stack t
      = ((inorder t).map Prod.fst)
        ++ (stack.map
            (fun e => e.2.2.1 :: (inorder e.2.2.2.2).map Prod.fst)).flatten := by
  induction stack, t using iterLoop.induct with
  | case1 stack c l k v r ih =>
      rw [iterLoop, ih]
      simp [inorder]
  | case2 => simp [iterLoop, inorder]
  | case3 c l k v r stack ih =>
      rw [iterLoop, ih]
      simp [inorder]

theorem iterT_keys (t : RBTree K V) :
    iterT t = (inorder t.root).map Prod.fst := by
  rw [iterT, iterLoop_spec]
  simp

/-! ### Minimum / maximum walks -/

theorem minimumNodeKey_head :
    ∀ (c : Bool) (l : Tree K V) (k : K) (v : V) (r : Tree K V),
      ∃ p : K × V, (inorder (Tree.node c l k v r)).head? = some p ∧
        minimumNodeKey (.node c l k v r) = .ok p.1
  | c, .nil, k, v, r => ⟨(k, v), by simp [inorder], by simp [minimumNodeKey]⟩
  | c, .node c2 l2 k2 v2 r2, k, v, r => by
      obtain ⟨p, h1, h2⟩ := minimumNodeKey_head c2 l2 k2 v2 r2
      refine ⟨p, ?_, by rw [minimumNodeKey]; exact h2⟩
      cases hi : inorder (Tree.node c2 l2 k2 v2 r2) with
      | nil => rw [hi] at h1; simp at h1
      | cons a as =>
          rw [hi] at h1
          simp only [List.head?_cons, Option.some.injEq] at h1
          subst h1
          show (inorder (Tree.node c2 l2 k2 v2 r2)
            ++ (k, v) :: inorder r).head? = some a
          rw [hi]
          simp

theorem maximumNodeKey_last :
    ∀ (c : Bool) (l : Tree K V) (k : K) (v : V) (r : Tree K V),
      ∃ p : K × V, (inorder (Tree.node c l k v r)).getLast? = some p ∧
        maximumNodeKey (.node c l k v r) = .ok p.1
  | c, l, k, v, .nil =>
      ⟨(k, v), by simp [inorder, List.getLast?_append_cons],
        by simp [maximumNodeKey]⟩
  | c, l, k, v, .node c2 l2 k2 v2 r2 => by
      obtain ⟨p, h1, h2⟩ := maximumNodeKey_last c2 l2 k2 v2 r2
      refine ⟨p, ?_, by rw [maximumNodeKey]; exact h2⟩
      simp only [inorder] at h1 ⊢
      rw [List.getLast?_append_cons] at h1
      rw [List.getLast?_append_cons, ← List.cons_append,
        List.getLast?_append_cons]
      exact h1

theorem sorted_head_min {p : K × V} {rest : List (K × V)}
    (hs : SortedKV (p :: rest)) : ∀ a ∈ p :: rest, p.1 ≤ a.1 := by
  intro a ha
  rcases List.mem_cons.mp ha with h | h
  · exact le_of_eq (by rw [h])
  · exact le_of_lt ((List.pairwise_cons.mp hs).1 a h)

theorem sorted_last_max :
    ∀ {m : List (K × V)} {p : K × V}, SortedKV m → m.getLast? = some p →
      ∀ a ∈ m, a.1 ≤ p.1
  | [], p, _, hl => by simp at hl
  | b :: rest, p, hs, hl => by
      intro a ha
      cases hr : rest with
      | nil =>
          subst hr
          simp at hl ha
          subst hl
          rw [ha]
      | cons b2 rest2 =>
          subst hr
          rw [List.getLast?_cons, List.getLast?_cons] at hl
          have h9 : (b2 :: rest2).getLast? = some p := by
            rw [List.getLast?_cons]
            cases h8 : rest2.getLast? with
            | none =>
                rw [h8] at hl
                simpa using hl
            | some q =>
                rw [h8] at hl
                simpa using hl
          have hrec := sorted_last_max (hs.of_cons) h9
          rcases List.mem_cons.mp ha with h | h
          · subst h
            obtain ⟨hne, hpe⟩ := List.mem_getLast?_eq_getLast
              (show p ∈ (b2 :: rest2).getLast? by rw [h9]; rfl)
            have hbp : p ∈ b2 :: rest2 := by
              rw [hpe]
              exact List.getLast_mem hne
            exact le_of_lt ((List.pairwise_cons.mp hs).1 p hbp)
          · exact hrec a h

/-! ### Successor / predecessor -/

theorem searchZ_isSome :
    ∀ (t : Tree K V) (ctx0 : Ctx K V) (k : K),
      (searchZ t ctx0 k).isSome = (searchT t k).isSome
  | .nil, ctx0, k => rfl
  | .node c l k2 v2 r, ctx0, k => by
      by_cases he : k = k2
      · simp [searchZ, searchT, he]
      · by_cases hlt : k < k2
        · rw [searchZ, if_neg he, if_pos hlt, searchT, if_neg he, if_pos hlt]
          exact searchZ_isSome l _ k
        · rw [searchZ, if_neg he, if_neg hlt, searchT, if_neg he, if_neg hlt]
          exact searchZ_isSome r _ k

/-- The climb loop of `successor` finds the first pair to the right of the
hole. -/
theorem climbSucc_after :
    ∀ (ctx : Ctx K V), climbSucc ctx = (ctx.after.head?).map Prod.fst
  | .root => rfl
  | .left c k v sib up => by simp [climbSucc, Ctx.after]
  | .right c k v sib up => by
      rw [climbSucc, Ctx.after]
      exact climbSucc_after up

/-- The climb loop of `predecessor` finds the last pair to the left of the
hole. -/
theorem climbPred_before :
    ∀ (ctx : Ctx K V), climbPred ctx = (ctx.before.getLast?).map Prod.fst
  | .root => rfl
  | .right c k v sib up => by
      simp [climbPred, Ctx.before, List.getLast?_concat]
  | .left c k v sib up => by
      rw [climbPred, Ctx.before]
      exact climbPred_before up

/-- In a sorted list a key splits off a unique prefix and suffix. -/
theorem sorted_split_unique :
    ∀ (A : List (K × V)) {x : V} {B : List (K × V)} (C : List (K × V)) {y : V}
      {D : List (K × V)} {k : K},
      SortedKV (A ++ (k, x) :: B) → A ++ (k, x) :: B = C ++ (k, y) :: D →
      A = C ∧ x = y ∧ B = D
  | [], x, B, [], y, D, k, hs, he => by
      simp only [List.nil_append, List.cons.injEq, Prod.mk.injEq] at he
      exact ⟨rfl, he.1.2, he.2⟩
  | [], x, B, c0 :: C, y, D, k, hs, he => by
      simp only [List.nil_append, List.cons_append, List.cons.injEq] at he
      obtain ⟨he1, he2⟩ := he
      have h9 : (k, y) ∈ B := by rw [he2]; simp
      have h8 := sorted_suffix_gt (P := []) (by simpa using hs) (k, y) h9
      simp at h8
  | a0 :: A, x, B, [], y, D, k, hs, he => by
      simp only [List.cons_append, List.nil_append, List.cons.injEq] at he
      obtain ⟨he1, he2⟩ := he
      have h9 := sorted_prefix_lt (P := a0 :: A) hs a0 (by simp)
      rw [he1] at h9
      simp at h9
  | a0 :: A, x, B, c0 :: C, y, D, k, hs, he => by
      simp only [List.cons_append, List.cons.injEq] at he
      obtain ⟨he1, he2⟩ := he
      have hs2 : SortedKV (A ++ (k, x) :: B) := (List.pairwise_cons.mp hs).2
      obtain ⟨ih1, ih2, ih3⟩ := sorted_split_unique A C hs2 he2
      exact ⟨by rw [he1, ih1], ih2, ih3⟩

/-- `successor` on a present key returns the head of the sorted suffix
after that key, or the `No successor` error at the maximum. -/
theorem successor_spec {t : RBTree K V} (hs : SortedKV (inorder t.root))
    {P S : List (K × V)} {k : K} {v : V}
    (hm : inorder t.root = P ++ (k, v) :: S) :
    successor t k = match S.head? with
      | some a => .ok a.1
      | none => .error (.keyError (.noSuccessor k)) := by
  have hget : searchT t.root k = some v := by
    rw [searchT_eq_refGet t.root k hs, hm,
      refGet_append_low (sorted_prefix_lt (hm ▸ hs)), refGet, if_pos rfl]
  have hsome : (searchZ t.root (.root : Ctx K V) k).isSome = true := by
    rw [searchZ_isSome, hget]
    rfl
  cases hsz : searchZ t.root (.root : Ctx K V) k with
  | none => rw [hsz] at hsome; simp at hsome
  | some res =>
      obtain ⟨ctx, c, l, k2, v2, r⟩ := res
      obtain ⟨hk2, hdec⟩ := searchZ_spec t.root .root k ctx c l k2 v2 r hsz
      subst hk2
      simp only [Ctx.before, Ctx.after, List.append_nil, List.nil_append] at hdec
      have hdec2 : (ctx.before ++ inorder l) ++ (k2, v2)
          :: (inorder r ++ ctx.after) = P ++ (k2, v) :: S := by
        rw [← hm, ← hdec]
        simp
      have hsd : SortedKV ((ctx.before ++ inorder l) ++ (k2, v2)
          :: (inorder r ++ ctx.after)) := by
        rw [hdec2, ← hm]
        exact hs
      obtain ⟨hPe, hve, hSe⟩ :=
        sorted_split_unique (ctx.before ++ inorder l) P hsd hdec2
      cases r with
      | node c2 l2 k2r v2r r2 =>
          obtain ⟨p, hp1, hp2⟩ := minimumNodeKey_head c2 l2 k2r v2r r2
          simp only [successor, hsz]
          rw [hp2]
          have hS : S.head? = some p := by
            rw [← hSe]
            cases hi : inorder (Tree.node c2 l2 k2r v2r r2) with
            | nil => rw [hi] at hp1; simp at hp1
            | cons a as =>
                rw [hi] at hp1
                simp only [List.head?_cons, Option.some.injEq] at hp1
                subst hp1
                simp
          rw [hS]
      | nil =>
          simp only [successor, hsz]
          rw [climbSucc_after]
          have hS : S = ctx.after := by rw [← hSe]; simp [inorder]
          rw [← hS]
          cases hh : S.head? with
          | none => rfl
          | some a => rfl

/-- `predecessor` on a present key returns the last pair of the sorted
prefix before that key, or the `No predecessor` error at the minimum. -/
theorem predecessor_spec {t : RBTree K V} (hs : SortedKV (inorder t.root))
    {P S : List (K × V)} {k : K} {v : V}
    (hm : inorder t.root = P ++ (k, v) :: S) :
    predecessor t k = match P.getLast? with
      | some a => .ok a.1
      | none => .error (.keyError (.noPredecessor k)) := by
  have hget : searchT t.root k = some v := by
    rw [searchT_eq_refGet t.root k hs, hm,
      refGet_append_low (sorted_prefix_lt (hm ▸ hs)), refGet, if_pos rfl]
  have hsome : (searchZ t.root (.root : Ctx K V) k).isSome = true := by
    rw [searchZ_isSome, hget]
    rfl
  cases hsz : searchZ t.root (.root : Ctx K V) k with
  | none => rw [hsz] at hsome; simp at hsome
  | some res =>
      obtain ⟨ctx, c, l, k2, v2, r⟩ := res
      obtain ⟨hk2, hdec⟩ := searchZ_spec t.root .root k ctx c l k2 v2 r hsz
      subst hk2
      simp only [Ctx.before, Ctx.after, List.append_nil, List.nil_append] at hdec
      have hdec2 : (ctx.before ++ inorder l) ++ (k2, v2)
          :: (inorder r ++ ctx.after) = P ++ (k2, v) :: S := by
        rw [← hm, ← hdec]
        simp
      have hsd : SortedKV ((ctx.before ++ inorder l) ++ (k2, v2)
          :: (inorder r ++ ctx.after)) := by
        rw [hdec2, ← hm]
        exact hs
      obtain ⟨hPe, hve, hSe⟩ :=
        sorted_split_unique (ctx.before ++ inorder l) P hsd hdec2
      cases l with
      | node c2 l2 k2l v2l r2 =>
          obtain ⟨p, hp1, hp2⟩ := maximumNodeKey_last c2 l2 k2l v2l r2
          simp only [predecessor, hsz]
          rw [hp2]
          have hP : P.getLast? = some p := by
            rw [← hPe]
            rw [List.getLast?_append_of_ne_nil]
            · exact hp1
            · cases hi : inorder (Tree.node c2 l2 k2l v2l r2) with
              | nil => rw [hi] at hp1; simp at hp1
              | cons a as => simp
          rw [hP]
      | nil =>
          simp only [predecessor, hsz]
          rw [climbPred_before]
          have hP : P = ctx.before := by rw [← hPe]; simp [inorder]
          rw [← hP]
          cases hh : P.getLast? with
          | none => rfl
          | some a => rfl

/-! ### Overwrite-in-place frame facts -/

/-- The tree produced by the found-key branch of `_bst_insert`: the value
at the found node is replaced, nothing else is touched. -/
def replaceVal : Tree K V → K → V → Tree K V
  | .nil, _, _ => .nil
  | .node c l k2 v2 r, k, v =>
      if k = k2 then .node c l k2 v r
      else if k < k2 then .node c (replaceVal l k v) k2 v2 r
      else .node c l k2 v2 (replaceVal r k v)

/-- Shape, colours and keys of a tree, with the values erased. -/
def skeleton : Tree K V → Tree K Unit
  | .nil => .nil
  | .node c l k _ r => .node c (skeleton l) k () (skeleton r)

theorem skeleton_replaceVal :
    ∀ (t : Tree K V) (k : K) (v : V), skeleton (replaceVal t k v) = skeleton t
  | .nil, k, v => rfl
  | .node c l k2 v2 r, k, v => by
      by_cases he : k = k2
      · simp [replaceVal, he, skeleton]
      · by_cases hlt : k < k2
        · rw [replaceVal, if_neg he, if_pos hlt]
          simp [skeleton, skeleton_replaceVal l k v]
        · rw [replaceVal, if_neg he, if_neg hlt]
          simp [skeleton, skeleton_replaceVal r k v]

theorem searchT_replaceVal_same :
    ∀ (t : Tree K V) (k : K) (v : V) (w : V), searchT t k = some w →
      searchT (replaceVal t k v) k = some v
  | .nil, k, v, w, h => by simp [searchT] at h
  | .node c l k2 v2 r, k, v, w, h => by
      by_cases he : k = k2
      · rw [replaceVal, if_pos he, searchT, if_pos he]
      · by_cases hlt : k < k2
        · rw [searchT, if_neg he, if_pos hlt] at h
          rw [replaceVal, if_neg he, if_pos hlt, searchT, if_neg he, if_pos hlt]
          exact searchT_replaceVal_same l k v w h
        · rw [searchT, if_neg he, if_neg hlt] at h
          rw [replaceVal, if_neg he, if_neg hlt, searchT, if_neg he, if_neg hlt]
          exact searchT_replaceVal_same r k v w h

theorem searchT_replaceVal_other :
    ∀ (t : Tree K V) (k : K) (v : V) (k3 : K), k3 ≠ k →
      searchT (replaceVal t k v) k3 = searchT t k3
  | .nil, k, v, k3, hne => rfl
  | .node c l k2 v2 r, k, v, k3, hne => by
      by_cases he : k = k2
      · subst he
        rw [replaceVal, if_pos rfl, searchT, searchT, if_neg hne, if_neg hne]
      · by_cases hlt : k < k2
        · rw [replaceVal, if_neg he, if_pos hlt, searchT, searchT]
          by_cases he3 : k3 = k2
          · rw [if_pos he3, if_pos he3]
          · rw [if_neg he3, if_neg he3]
            by_cases hlt3 : k3 < k2
            · rw [if_pos hlt3, if_pos hlt3]
              exact searchT_replaceVal_other l k v k3 hne
            · rw [if_neg hlt3, if_neg hlt3]
        · rw [replaceVal, if_neg he, if_neg hlt, searchT, searchT]
          by_cases he3 : k3 = k2
          · rw [if_pos he3, if_pos he3]
          · rw [if_neg he3, if_neg he3]
            by_cases hlt3 : k3 < k2
            · rw [if_pos hlt3, if_pos hlt3]
            · rw [if_neg hlt3, if_neg hlt3]
              exact searchT_replaceVal_other r k v k3 hne

/-- The found-key branch of `_bst_insert` rebuilds the path unchanged
around the value-replaced node and reports no new node. -/
theorem bstInsertLoop_found :
    ∀ (t : Tree K V) (ctx : Ctx K V) (k : K) (v : V) (w : V),
      searchT t k = some w →
      bstInsertLoop t ctx k v = .ok (ctx.rebuild (replaceVal t k v), false)
  | .nil, ctx, k, v, w, h => by simp [searchT] at h
  | .node c l k2 v2 r, ctx, k, v, w, h => by
      by_cases he : k = k2
      · rw [bstInsertLoop, if_pos he, replaceVal, if_pos he]
      · by_cases hlt : k < k2
        · rw [searchT, if_neg he, if_pos hlt] at h
          rw [bstInsertLoop, if_neg he, if_pos hlt, replaceVal, if_neg he,
            if_pos hlt, bstInsertLoop_found l _ k v w h]
          rfl
        · rw [searchT, if_neg he, if_neg hlt] at h
          rw [bstInsertLoop, if_neg he, if_neg hlt, replaceVal, if_neg he,
            if_neg hlt, bstInsertLoop_found r _ k v w h]
          rfl

theorem setitem_found {t : RBTree K V} {k : K} {w : V} (v : V)
    (h : searchT t.root k = some w) :
    setitem t k v = .ok ⟨replaceVal t.root k v, t.size⟩ := by
  rw [setitem, bstInsertLoop_found t.root .root k v w h]
  simp [Ctx.rebuild, Except.map]

/-! ### Sorted filters around a present key -/

theorem filter_gt_split {P S : List (K × V)} {k : K} {v : V}
    (hs : SortedKV (P ++ (k, v) :: S)) :
    (P ++ (k, v) :: S).filter (fun a => decide (k < a.1)) = S := by
  rw [List.filter_append]
  have h1 : P.filter (fun a => decide (k < a.1)) = [] := by
    rw [List.filter_eq_nil_iff]
    intro a ha
    simp only [decide_eq_true_eq, not_lt]
    exact le_of_lt (sorted_prefix_lt hs a ha)
  have h2 : ((k, v) :: S).filter (fun a => decide (k < a.1)) = S := by
    rw [List.filter_cons]
    simp only [decide_eq_true_eq, lt_irrefl, if_false]
    rw [List.filter_eq_self.mpr]
    intro a ha
    simp only [decide_eq_true_eq]
    exact sorted_suffix_gt hs a ha
  rw [h1, h2, List.nil_append]

theorem filter_lt_split {P S : List (K × V)} {k : K} {v : V}
    (hs : SortedKV (P ++ (k, v) :: S)) :
    (P ++ (k, v) :: S).filter (fun a => decide (a.1 < k)) = P := by
  rw [List.filter_append]
  have h1 : P.filter (fun a => decide (a.1 < k)) = P := by
    rw [List.filter_eq_self.mpr]
    intro a ha
    simp only [decide_eq_true_eq]
    exact sorted_prefix_lt hs a ha
  have h2 : ((k, v) :: S).filter (fun a => decide (a.1 < k)) = [] := by
    rw [List.filter_eq_nil_iff]
    intro a ha
    simp only [decide_eq_true_eq, not_lt]
    rcases List.mem_cons.mp ha with h | h
    · rw [h]
    · exact le_of_lt (sorted_suffix_gt hs a h)
  rw [h1, h2, List.append_nil]

/-- `successor` only ever fails with a `KeyError`. -/
theorem successor_error_kind {t : RBTree K V} {k : K} {e : RBErr K}
    (h : successor t k = .error e) : ∃ arg, e = .keyError arg := by
  rw [successor] at h
  cases hsz : searchZ t.root (.root : Ctx K V) k with
  | none =>
      rw [hsz] at h
      simp only [Except.error.injEq] at h
      exact ⟨_, h.symm⟩
  | some res =>
      obtain ⟨ctx, c, l, k2, v2, r⟩ := res
      rw [hsz] at h
      cases r with
      | node c2 l2 k2r v2r r2 =>
          obtain ⟨p, _, hp2⟩ := minimumNodeKey_head c2 l2 k2r v2r r2
          simp only [hp2] at h
          cases h
      | nil =>
          cases hcl : climbSucc ctx with
          | some ky => simp [hcl] at h
          | none =>
              simp only [hcl, Except.error.injEq] at h
              exact ⟨_, h.symm⟩

/-- `predecessor` only ever fails with a `KeyError`. -/
theorem predecessor_error_kind {t : RBTree K V} {k : K} {e : RBErr K}
    (h : predecessor t k = .error e) : ∃ arg, e = .keyError arg := by
  rw [predecessor] at h
  cases hsz : searchZ t.root (.root : Ctx K V) k with
  | none =>
      rw [hsz] at h
      simp only [Except.error.injEq] at h
      exact ⟨_, h.symm⟩
  | some res =>
      obtain ⟨ctx, c, l, k2, v2, r⟩ := res
      rw [hsz] at h
      cases l with
      | node c2 l2 k2l v2l r2 =>
          obtain ⟨p, _, hp2⟩ := maximumNodeKey_last c2 l2 k2l v2l r2
          simp only [hp2] at h
          cases h
      | nil =>
          cases hcl : climbPred ctx with
          | some ky => simp [hcl] at h
          | none =>
              simp only [hcl, Except.error.injEq] at h
              exact ⟨_, h.symm⟩

/-! ### Example reachable states used by the witnesses -/

theorem exReach2 :
    Reachable (⟨.node false .nil 2 (20 : Nat) .nil, 1⟩ : RBTree Nat Nat) := by
  have h1 : Reachable (⟨.node false .nil 1 (10 : Nat) .nil, 1⟩ : RBTree Nat Nat) :=
    Reachable.set 1 10 Reachable.empty (by rfl)
  have h2 : Reachable (⟨.node false .nil 1 10
      (.node true .nil 2 (20 : Nat) .nil), 2⟩ : RBTree Nat Nat) :=
    Reachable.set 2 20 h1 (by rfl)
  exact Reachable.del 1 h2 (by rfl)

theorem exReach3 :
    Reachable (⟨.node false (.node true .nil 1 (10 : Nat) .nil) 2 20
      (.node true .nil 3 30 .nil), 3⟩ : RBTree Nat Nat) := by
  have h1 : Reachable (⟨.node false .nil 2 (20 : Nat) .nil, 1⟩ : RBTree Nat Nat) :=
    Reachable.set 2 20 Reachable.empty (by rfl)
  have h2 : Reachable (⟨.node false (.node true .nil 1 (10 : Nat) .nil) 2 20
      .nil, 2⟩ : RBTree Nat Nat) :=
    Reachable.set 1 10 h1 (by rfl)
  exact Reachable.set 3 30 h2 (by rfl)

theorem exSim2 :
    SimReach (⟨.node false .nil 2 (20 : Nat) .nil, 1⟩ : RBTree Nat Nat)
      [(2, 20)] := by
  have h1 : SimReach (⟨.node false .nil 1 (10 : Nat) .nil, 1⟩ : RBTree Nat Nat)
      [(1, 10)] :=
    SimReach.set 1 10 SimReach.empty (by rfl)
  have h2 : SimReach (⟨.node false .nil 1 10
      (.node true .nil 2 (20 : Nat) .nil), 2⟩ : RBTree Nat Nat)
      [(1, 10), (2, 20)] :=
    SimReach.set 2 20 h1 (by rfl)
  exact SimReach.delOk 1 h2 (by rfl)

/-! ### The claims -/

/-- C1: every tree reachable from the empty `RedBlackTree` by a finite
sequence of successful set (`__setitem__`) and remove (`__delitem__`)
operations satisfies all red-black invariants — BLACK root, no RED node
with a RED child, equal black count on every root-to-sentinel path, BST
ordering — and `validate()` passes without raising. -/
theorem C1_invariants_validate {t : RBTree K V} (h : Reachable t) :
    colorOf t.root = BLACK ∧ BhOk t.root ∧ Nrr t.root ∧
      SortedKV (inorder t.root) ∧ validate t = .ok () := by
  have hI := Reachable_Inv h
  exact ⟨hI.1, hI.2.1, hI.2.2.1, hI.2.2.2.1, validate_ok hI⟩

theorem C1_invariants_validate_witness :
    colorOf (⟨.node false .nil 2 (20 : Nat) .nil, 1⟩
        : RBTree Nat Nat).root = BLACK ∧
    BhOk (⟨.node false .nil 2 (20 : Nat) .nil, 1⟩ : RBTree Nat Nat).root ∧
    Nrr (⟨.node false .nil 2 (20 : Nat) .nil, 1⟩ : RBTree Nat Nat).root ∧
    SortedKV (inorder (⟨.node false .nil 2 (20 : Nat) .nil, 1⟩
        : RBTree Nat Nat).root) ∧
    validate (⟨.node false .nil 2 (20 : Nat) .nil, 1⟩ : RBTree Nat Nat)
      = .ok () :=
  C1_invariants_validate exReach2

/-- C2: along any operation sequence run jointly with the reference
associative map, `__contains__` and `__getitem__` agree with reference
lookup for every key, and `_size` (the value of `len`) equals the size of
the reference map. -/
theorem C2_reference_map {t : RBTree K V} {m : List (K × V)}
    (h : SimReach t m) :
    (∀ k, containsT t k = (refGet m k).isSome) ∧
    (∀ k, getitem t k = match refGet m k with
        | some v => .ok v
        | none => .error (.keyError (.key k))) ∧
    t.size = m.length := by
  obtain ⟨hI, hio⟩ := SimReach_spec h
  have hst : ∀ k, searchT t.root k = refGet m k := fun k => by
    rw [searchT_eq_refGet t.root k hI.2.2.2.1, hio]
  refine ⟨fun k => ?_, fun k => ?_, by rw [hI.2.2.2.2, hio]⟩
  · show (searchT t.root k).isSome = (refGet m k).isSome
    rw [hst k]
  · simp only [getitem, hst k]
    cases refGet m k <;> rfl

theorem C2_reference_map_witness :
    containsT (⟨.node false .nil 2 (20 : Nat) .nil, 1⟩ : RBTree Nat Nat) 2
        = (refGet [(2, 20)] 2).isSome ∧
    containsT (⟨.node false .nil 2 (20 : Nat) .nil, 1⟩ : RBTree Nat Nat) 1
        = (refGet [(2, 20)] 1).isSome ∧
    getitem (⟨.node false .nil 2 (20 : Nat) .nil, 1⟩ : RBTree Nat Nat) 2
        = .ok 20 ∧
    (⟨.node false .nil 2 (20 : Nat) .nil, 1⟩ : RBTree Nat Nat).size
      = [((2 : Nat), (20 : Nat))].length := by
  have h := C2_reference_map exSim2
  refine ⟨h.1 2, h.1 1, ?_, h.2.2⟩
  have h2 := h.2.1 2
  simpa using h2

/-- C3: iterating a reachable tree (`__iter__`) yields exactly the stored
keys, in strictly ascending order — the sorted key list of the reference
map. -/
theorem C3_iteration_sorted {t : RBTree K V} {m : List (K × V)}
    (h : SimReach t m) :
    iterT t = m.map Prod.fst ∧ List.Pairwise (fun a b => a < b) (iterT t) := by
  obtain ⟨hI, hio⟩ := SimReach_spec h
  have h1 : iterT t = m.map Prod.fst := by rw [iterT_keys, hio]
  refine ⟨h1, ?_⟩
  rw [h1]
  exact List.Pairwise.map _ (fun a b hab => hab) (hio ▸ hI.2.2.2.1)

theorem C3_iteration_sorted_witness :
    iterT (⟨.node false .nil 2 (20 : Nat) .nil, 1⟩ : RBTree Nat Nat)
      = [((2 : Nat), (20 : Nat))].map Prod.fst ∧
    List.Pairwise (fun a b => a < b)
      (iterT (⟨.node false .nil 2 (20 : Nat) .nil, 1⟩ : RBTree Nat Nat)) :=
  C3_iteration_sorted exSim2

/-- C4 (corrected): when `successor`/`predecessor` fail — whether because
the key is absent or because it is the extreme key with no neighbour —
the raised exception is always of kind `KeyError`; the boundary condition
is not signalled with a distinct error kind, only with a different
message payload. -/
theorem C4_error_kinds {t : RBTree K V} {k : K} {e : RBErr K}
    (h : successor t k = .error e ∨ predecessor t k = .error e) :
    e.kind = "KeyError" := by
  rcases h with h | h
  · obtain ⟨arg, he⟩ := successor_error_kind h
    rw [he]
    rfl
  · obtain ⟨arg, he⟩ := predecessor_error_kind h
    rw [he]
    rfl

theorem C4_error_kinds_witness :
    (successor (⟨.node false .nil 2 (20 : Nat) .nil, 1⟩ : RBTree Nat Nat) 2
        = .error (.keyError (.noSuccessor 2)) ∨
      predecessor (⟨.node false .nil 2 (20 : Nat) .nil, 1⟩ : RBTree Nat Nat) 2
        = .error (.keyError (.noSuccessor 2))) ∧
    (RBErr.keyError (.noSuccessor 2) : RBErr Nat).kind = "KeyError" :=
  ⟨Or.inl (by rfl), C4_error_kinds (Or.inl (by rfl :
    successor (⟨.node false .nil 2 (20 : Nat) .nil, 1⟩ : RBTree Nat Nat) 2
      = .error (.keyError (.noSuccessor 2))))⟩

/-- C4 counterexample: in the reachable single-node tree storing key 2,
the boundary failure of successor(2) and the absent-key failure of
getitem(1) both carry exception kind KeyError, so the two situations are
not distinguished by error kind as the specification requires. -/
theorem C4_counterexample :
    successor (⟨.node false .nil 2 (20 : Nat) .nil, 1⟩ : RBTree Nat Nat) 2
      = .error (.keyError (.noSuccessor 2)) ∧
    getitem (⟨.node false .nil 2 (20 : Nat) .nil, 1⟩ : RBTree Nat Nat) 1
      = .error (.keyError (.key 1)) ∧
    successor (⟨.node false .nil 2 (20 : Nat) .nil, 1⟩ : RBTree Nat Nat) 1
      = .error (.keyError (.key 1)) ∧
    (RBErr.keyError (.noSuccessor 2) : RBErr Nat).kind
      = (RBErr.keyError (.key 1) : RBErr Nat).kind :=
  ⟨rfl, rfl, rfl, rfl⟩

/-- C5: on a reachable tree, for every present key, `successor` returns
the smallest stored key strictly greater than it — the next key in sorted
order — and fails with the boundary KeyError exactly at the maximum;
`predecessor` mirrors this with the greatest smaller key and the minimum. -/
theorem C5_successor_predecessor {t : RBTree K V} (hR : Reachable t)
    {k : K} {v : V} (hkv : (k, v) ∈ inorder t.root) :
    (successor t k = match ((inorder t.root).filter
          (fun a => decide (k < a.1))).head? with
        | some a => .ok a.1
        | none => .error (.keyError (.noSuccessor k))) ∧
    (predecessor t k = match ((inorder t.root).filter
          (fun a => decide (a.1 < k))).getLast? with
        | some a => .ok a.1
        | none => .error (.keyError (.noPredecessor k))) := by
  have hs := (Reachable_Inv hR).2.2.2.1
  obtain ⟨P, S, hm⟩ := List.append_of_mem hkv
  constructor
  · rw [successor_spec hs hm, hm, filter_gt_split (hm ▸ hs)]
  · rw [predecessor_spec hs hm, hm, filter_lt_split (hm ▸ hs)]

theorem C5_successor_predecessor_witness :
    (successor (⟨.node false (.node true .nil 1 (10 : Nat) .nil) 2 20
          (.node true .nil 3 30 .nil), 3⟩ : RBTree Nat Nat) 2
        = match ((inorder (⟨.node false (.node true .nil 1 (10 : Nat) .nil) 2 20
              (.node true .nil 3 30 .nil), 3⟩ : RBTree Nat Nat).root).filter
            (fun a => decide (2 < a.1))).head? with
          | some a => .ok a.1
          | none => .error (.keyError (.noSuccessor 2))) ∧
    (predecessor (⟨.node false (.node true .nil 1 (10 : Nat) .nil) 2 20
          (.node true .nil 3 30 .nil), 3⟩ : RBTree Nat Nat) 2
        = match ((inorder (⟨.node false (.node true .nil 1 (10 : Nat) .nil) 2 20
              (.node true .nil 3 30 .nil), 3⟩ : RBTree Nat Nat).root).filter
            (fun a => decide (a.1 < 2))).getLast? with
          | some a => .ok a.1
          | none => .error (.keyError (.noPredecessor 2))) :=
  C5_successor_predecessor exReach3 (v := 20) (by decide)

/-- C6: setting an already-present key overwrites only the stored value:
the result has the same skeleton (shape, colours, keys), the same size,
the new value at that key and every other binding unchanged. -/
theorem C6_overwrite_frame {t : RBTree K V} {k : K} {w : V} (v : V)
    (hfound : searchT t.root k = some w) :
    ∃ t2, setitem t k v = .ok t2 ∧
      t2.root = replaceVal t.root k v ∧
      skeleton t2.root = skeleton t.root ∧
      t2.size = t.size ∧
      getitem t2 k = .ok v ∧
      (∀ k3, k3 ≠ k → searchT t2.root k3 = searchT t.root k3) := by
  have h9 := searchT_replaceVal_same t.root k v w hfound
  refine ⟨⟨replaceVal t.root k v, t.size⟩, setitem_found v hfound, rfl,
    skeleton_replaceVal t.root k v, rfl, ?_,
    fun k3 h => searchT_replaceVal_other t.root k v k3 h⟩
  show getitem (⟨replaceVal t.root k v, t.size⟩ : RBTree K V) k = .ok v
  simp only [getitem, h9]

theorem C6_overwrite_frame_witness :
    ∃ t2, setitem (⟨.node false .nil 2 (20 : Nat) .nil, 1⟩
        : RBTree Nat Nat) 2 99 = .ok t2 ∧
      t2.root = replaceVal (⟨.node false .nil 2 (20 : Nat) .nil, 1⟩
        : RBTree Nat Nat).root 2 99 ∧
      skeleton t2.root = skeleton (⟨.node false .nil 2 (20 : Nat) .nil, 1⟩
        : RBTree Nat Nat).root ∧
      t2.size = (⟨.node false .nil 2 (20 : Nat) .nil, 1⟩
        : RBTree Nat Nat).size ∧
      getitem t2 2 = .ok 99 ∧
      (∀ k3, k3 ≠ 2 → searchT t2.root k3
        = searchT (⟨.node false .nil 2 (20 : Nat) .nil, 1⟩
            : RBTree Nat Nat).root k3) :=
  C6_overwrite_frame 99 (w := 20) (by rfl)

/-- C7: removing an absent key fails with `KeyError(key)`, and a delete
succeeds exactly on present keys.  In the source the failing call raises
before touching any node, and lookups never write; the embedding models
each mutating operation as a function from the pre-state, so a failing
delete leaves the tree exactly as it was. -/
theorem C7_delete_absent (t : RBTree K V) (k : K) :
    (containsT t k = false → delitem t k = .error (.keyError (.key k))) ∧
    (containsT t k = true → ∃ t2, delitem t k = .ok t2) := by
  constructor
  · intro h
    have h2 : (searchZ t.root (.root : Ctx K V) k).isSome = false := by
      rw [searchZ_isSome]
      exact h
    cases hsz : searchZ t.root (.root : Ctx K V) k with
    | none => simp [delitem, hsz]
    | some res =>
        rw [hsz] at h2
        simp at h2
  · intro h
    have h2 : (searchZ t.root (.root : Ctx K V) k).isSome = true := by
      rw [searchZ_isSome]
      exact h
    cases hsz : searchZ t.root (.root : Ctx K V) k with
    | none =>
        rw [hsz] at h2
        simp at h2
    | some res =>
        obtain ⟨ctx, c, l, k2, v2, r⟩ := res
        exact ⟨⟨deleteNode ctx c l k2 v2 r, t.size - 1⟩, by simp [delitem, hsz]⟩

/-- C8: min_key/max_key fail with the empty-tree ValueError exactly when
the tree is empty; on a non-empty reachable tree they return a stored
key that is the smallest (resp. largest) of all stored keys. -/
theorem C8_min_max {t : RBTree K V} (hR : Reachable t) :
    (t.root = Tree.nil →
      minKey t = .error (.valueError "Tree is empty") ∧
      maxKey t = .error (.valueError "Tree is empty")) ∧
    (t.root ≠ Tree.nil →
      ∃ pmin pmax : K × V, minKey t = .ok pmin.1 ∧ maxKey t = .ok pmax.1 ∧
        pmin ∈ inorder t.root ∧ pmax ∈ inorder t.root ∧
        ∀ a ∈ inorder t.root, pmin.1 ≤ a.1 ∧ a.1 ≤ pmax.1) := by
  constructor
  · intro h
    exact ⟨by rw [minKey, h]; rfl, by rw [maxKey, h]; rfl⟩
  · intro h
    have hs := (Reachable_Inv hR).2.2.2.1
    cases ht : t.root with
    | nil => exact absurd ht h
    | node c l k v r =>
        obtain ⟨pmin, h1, h2⟩ := minimumNodeKey_head c l k v r
        obtain ⟨pmax, h3, h4⟩ := maximumNodeKey_last c l k v r
        rw [ht] at hs
        obtain ⟨rest, hp⟩ : ∃ rest,
            inorder (Tree.node c l k v r) = pmin :: rest := by
          cases hi : inorder (Tree.node c l k v r) with
          | nil =>
              rw [hi] at h1
              simp at h1
          | cons a as =>
              rw [hi] at h1
              simp only [List.head?_cons, Option.some.injEq] at h1
              exact ⟨as, by rw [h1]⟩
        obtain ⟨hne, hpe⟩ := List.mem_getLast?_eq_getLast
          (show pmax ∈ (inorder (Tree.node c l k v r)).getLast? by rw [h3]; rfl)
        refine ⟨pmin, pmax, by rw [minKey, ht]; exact h2,
          by rw [maxKey, ht]; exact h4, ?_, ?_, ?_⟩
        · rw [hp]
          simp
        · rw [hpe]
          exact List.getLast_mem hne
        · intro a ha
          refine ⟨?_, sorted_last_max hs h3 a ha⟩
          exact sorted_head_min (hp ▸ hs) a (hp ▸ ha)

theorem C8_min_max_witness :
    ((⟨.node false (.node true .nil 1 (10 : Nat) .nil) 2 20
        (.node true .nil 3 30 .nil), 3⟩ : RBTree Nat Nat).root = Tree.nil →
      minKey (⟨.node false (.node true .nil 1 (10 : Nat) .nil) 2 20
          (.node true .nil 3 30 .nil), 3⟩ : RBTree Nat Nat)
        = .error (.valueError "Tree is empty") ∧
      maxKey (⟨.node false (.node true .nil 1 (10 : Nat) .nil) 2 20
          (.node true .nil 3 30 .nil), 3⟩ : RBTree Nat Nat)
        = .error (.valueError "Tree is empty")) ∧
    ((⟨.node false (.node true .nil 1 (10 : Nat) .nil) 2 20
        (.node true .nil 3 30 .nil), 3⟩ : RBTree Nat Nat).root ≠ Tree.nil →
      ∃ pmin pmax : Nat × Nat,
        minKey (⟨.node false (.node true .nil 1 (10 : Nat) .nil) 2 20
            (.node true .nil 3 30 .nil), 3⟩ : RBTree Nat Nat) = .ok pmin.1 ∧
        maxKey (⟨.node false (.node true .nil 1 (10 : Nat) .nil) 2 20
            (.node true .nil 3 30 .nil), 3⟩ : RBTree Nat Nat) = .ok pmax.1 ∧
        pmin ∈ inorder (⟨.node false (.node true .nil 1 (10 : Nat) .nil) 2 20
            (.node true .nil 3 30 .nil), 3⟩ : RBTree Nat Nat).root ∧
        pmax ∈ inorder (⟨.node false (.node true .nil 1 (10 : Nat) .nil) 2 20
            (.node true .nil 3 30 .nil), 3⟩ : RBTree Nat Nat).root ∧
        ∀ a ∈ inorder (⟨.node false (.node true .nil 1 (10 : Nat) .nil) 2 20
            (.node true .nil 3 30 .nil), 3⟩ : RBTree Nat Nat).root,
          pmin.1 ≤ a.1 ∧ a.1 ≤ pmax.1) :=
  C8_min_max exReach3

end RB

/-! ## priority_queue.py -/

namespace PQ

/-- A heap entry as built by `_entry` (priority_queue.py:113-119):
`(signed_priority, insertion_counter, item)`.  Priorities are the integers
supplied by the caller (the optional `key` extractor is not modelled; the
caller always passes the priority, as in the repository's tests). -/
abbrev Entry (T : Type) := Int × Nat × T

variable {T : Type} [DecidableEq T]

/-- Python tuple comparison between heap entries, as used by `_sift_up`,
`_sift_down` and `_is_valid`.  Python would compare the item components
only when both the signed priority and the counter tie, which never
happens because counters are unique (clause 4 of `PQInv`); so the
comparison is on the `(signed_priority, counter)` prefix. -/
def entryLt (a b : Entry T) : Bool :=
  decide (a.1 < b.1 ∨ (a.1 = b.1 ∧ a.2.1 < b.2.1))

/-- Tuple comparison after an indexing that may be out of range (all the
indexings the source performs are in range; `none` never wins). -/
def entryLtO : Option (Entry T) → Option (Entry T) → Bool
  | some a, some b => entryLt a b
  | _, _ => false

/-- The `PriorityQueue` object: `__slots__ = ("_heap", "_position",
"_counter", "_key", "_sign", "_REMOVED")`.  The dict `_position` is kept
as the partial lookup function it implements; `_key` (unused when the
priority is always passed explicitly) and `_REMOVED` (explicitly unused
in this implementation) are dropped. -/
structure Queue (T : Type) where
  heap : List (Entry T)
  position : T → Option Nat
  counter : Nat
  sign : Int

/-- `PriorityQueue(max_heap=...)` (priority_queue.py:84-107). -/
def init (maxHeap : Bool) : Queue T :=
  ⟨[], fun _ => none, 0, if maxHeap then -1 else 1⟩

/-- dict assignment `self._position[item] = i`. -/
def posSet (f : T → Option Nat) (item : T) (i : Nat) : T → Option Nat :=
  fun x => if x = item then some i else f x

/-- dict deletion `del self._position[item]`. -/
def posDel (f : T → Option Nat) (item : T) : T → Option Nat :=
  fun x => if x = item then none else f x

/-- `_parent` (line 232). -/
def parentI (idx : Nat) : Nat := (idx - 1) / 2

/-- `_left` (line 235). -/
def leftI (idx : Nat) : Nat := 2 * idx + 1

/-- `_right` (line 238). -/
def rightI (idx : Nat) : Nat := 2 * idx + 2

/-- `_swap` (priority_queue.py:241-248): exchange the entries at `i` and
`j` and redirect `_position` for the two items.  (The source indexes the
list directly; both indices are in range at every call site.) -/
def swapH (q : Queue T) (i j : Nat) : Queue T :=
  match q.heap[i]?, q.heap[j]? with
  | some ei, some ej =>
      { q with heap := (q.heap.set i ej).set j ei,
               position := posSet (posSet q.position ej.2.2 i) ei.2.2 j }
  | _, _ => q

theorem swapH_length (q : Queue T) (i j : Nat) :
    (swapH q i j).heap.length = q.heap.length := by
  rw [swapH]
  cases q.heap[i]? <;> cases q.heap[j]? <;> simp

/-- `_sift_up` (priority_queue.py:250-260): the while loop becomes
recursion on the strictly decreasing index. -/
def siftUp (q : Queue T) (idx : Nat) : Queue T :=
  if 0 < idx then
    match q.heap[idx]?, q.heap[parentI idx]? with
    | some ei, some ep =>
        if entryLt ei ep then siftUp (swapH q idx (parentI idx)) (parentI idx)
        else q
    | _, _ => q
  else q
termination_by idx
decreasing_by simp [parentI]; omega

/-- `_sift_down` (priority_queue.py:262-276): the two possible values of
the local `smallest` are inlined as a case split; the while loop becomes
recursion on the index, bounded by the (unchanging) heap length. -/
def siftDown (q : Queue T) (idx : Nat) : Queue T :=
  if leftI idx < q.heap.length then
    if rightI idx < q.heap.length ∧
        entryLtO (q.heap[rightI idx]?) (q.heap[leftI idx]?) = true then
      -- smallest = right
      if entryLtO (q.heap[rightI idx]?) (q.heap[idx]?) then
        siftDown (swapH q idx (rightI idx)) (rightI idx)
      else q
    else
      -- smallest = left
      if entryLtO (q.heap[leftI idx]?) (q.heap[idx]?) then
        siftDown (swapH q idx (leftI idx)) (leftI idx)
      else q
  else q
termination_by q.heap.length - idx
decreasing_by
  all_goals simp [swapH_length, leftI, rightI] at *
  all_goals omega

/-- The Python exception classes raised by `priority_queue.py`. -/
inductive PQErr where
  | valueError
  | indexError
  | keyError
deriving DecidableEq, Repr

/-- `push` (priority_queue.py:124-141), with the priority passed
explicitly (`priority is None` never holds).  `_entry` is inlined:
it reads `next(self._counter)` — the current counter value, incrementing
the stored counter. -/
def push (q : Queue T) (item : T) (priority : Int) : Except PQErr (Queue T) :=
  if (q.position item).isSome then .error .valueError
  else
    let e : Entry T := (q.sign * priority, q.counter, item)
    let heap2 := q.heap ++ [e]
    let idx := heap2.length - 1
    .ok (siftUp ⟨heap2, posSet q.position item idx, q.counter + 1, q.sign⟩ idx)

/-- `pop` (priority_queue.py:142-157): swap the root with the last entry,
drop it, delete its item from `_position`, then restore the heap. -/
def pop (q : Queue T) : Except PQErr (T × Queue T) :=
  match q.heap with
  | [] => .error .indexError
  | _ :: _ =>
      let q1 := swapH q 0 (q.heap.length - 1)
      match q1.heap.getLast? with
      | none => .error .indexError   -- unreachable: the heap is non-empty
      | some e =>
          let q2 : Queue T := { q1 with
            heap := q1.heap.dropLast,
            position := posDel q1.position e.2.2 }
          if q2.heap.isEmpty then .ok (e.2.2, q2)
          else .ok (e.2.2, siftDown q2 0)

/-- `peek` (priority_queue.py:159-166). -/
def peek (q : Queue T) : Except PQErr T :=
  match q.heap with
  | [] => .error .indexError
  | e :: _ => .ok e.2.2

/-- `update` (priority_queue.py:168-186): overwrite the priority field
(same counter, same item) and sift in the needed direction. -/
def update (q : Queue T) (item : T) (newPriority : Int) :
    Except PQErr (Queue T) :=
  match q.position item with
  | none => .error .keyError
  | some idx =>
      match q.heap[idx]? with
      | none => .error .keyError   -- unreachable under `PQInv`
      | some e =>
          let signedNew := q.sign * newPriority
          let q2 : Queue T :=
            { q with heap := q.heap.set idx (signedNew, e.2.1, item) }
          if signedNew < e.1 then .ok (siftUp q2 idx) else .ok (siftDown q2 idx)

/-- `remove` (priority_queue.py:188-212). -/
def remove (q : Queue T) (item : T) : Except PQErr (Queue T) :=
  match q.position item with
  | none => .error .keyError
  | some idx =>
      if idx = q.heap.length - 1 then
        .ok { q with
          heap := q.heap.dropLast,
          position := posDel q.position item }
      else
        let q1 := swapH q idx (q.heap.length - 1)
        let q2 : Queue T := { q1 with
          heap := q1.heap.dropLast,
          position := posDel q1.position item }
        if idx < q2.heap.length then .ok (siftDown (siftUp q2 idx) idx)
        else .ok q2

/-- `__len__` (line 217). -/
def lenQ (q : Queue T) : Nat := q.heap.length

/-- `__contains__` (line 221). -/
def containsQ (q : Queue T) (item : T) : Bool := (q.position item).isSome

/-- `_is_valid` (priority_queue.py:301-314). -/
def isValid (q : Queue T) : Bool :=
  (List.range q.heap.length).all fun i =>
    match q.heap[i]? with
    | none => true
    | some e =>
        decide (q.position e.2.2 = some i) &&
        ! entryLtO (q.heap[leftI i]?) (some e) &&
        ! entryLtO (q.heap[rightI i]?) (some e)

/-- The internal consistency invariant: `_position` is exactly the index
map of `_heap` (clauses 1-2), counters are below `_counter` and pairwise
distinct (clauses 3-4), every entry is no smaller than its parent
(clause 5), and the sign is ±1 (clause 6). -/
def PQInv (q : Queue T) : Prop :=
  (∀ (i : Nat) (e : Entry T), q.heap[i]? = some e →
    q.position e.2.2 = some i) ∧
  (∀ (item : T) (i : Nat), q.position item = some i →
    ∃ e : Entry T, q.heap[i]? = some e ∧ e.2.2 = item) ∧
  (∀ (i : Nat) (e : Entry T), q.heap[i]? = some e → e.2.1 < q.counter) ∧
  (∀ (i j : Nat) (ei ej : Entry T), q.heap[i]? = some ei →
    q.heap[j]? = some ej → i ≠ j → ei.2.1 ≠ ej.2.1) ∧
  (∀ (j : Nat) (ej ep : Entry T), 0 < j → q.heap[j]? = some ej →
    q.heap[parentI j]? = some ep → entryLt ej ep = false) ∧
  (q.sign = 1 ∨ q.sign = -1)

/-! ### Basic facts about entries, the position map and `_swap` -/

theorem lt_len_of_get {l : List (Entry T)} {i : Nat} {a : Entry T}
    (h : l[i]? = some a) : i < l.length := by
  by_contra hc
  rw [List.getElem?_eq_none (by omega)] at h
  cases h

theorem entryLt_irrefl (a : Entry T) : entryLt a a = false := by
  simp [entryLt]

theorem entryLt_asymm {a b : Entry T} (h : entryLt a b = true) :
    entryLt b a = false := by
  simp only [entryLt, decide_eq_true_eq, decide_eq_false_iff_not] at *
  omega

theorem entryLe_trans {a b c : Entry T} (h1 : entryLt b a = false)
    (h2 : entryLt c b = false) : entryLt c a = false := by
  simp only [entryLt, decide_eq_false_iff_not] at *
  omega

theorem entryLe_of_le_lt {a b c : Entry T} (h1 : entryLt a b = false)
    (h2 : entryLt c b = true) : entryLt a c = false := by
  simp only [entryLt, decide_eq_true_eq, decide_eq_false_iff_not] at *
  omega

theorem posSet_self (f : T → Option Nat) (item : T) (i : Nat) :
    posSet f item i item = some i := by
  simp [posSet]

theorem posSet_other (f : T → Option Nat) {item x : T} (i : Nat)
    (h : x ≠ item) : posSet f item i x = f x := by
  simp [posSet, h]

theorem posDel_self (f : T → Option Nat) (item : T) :
    posDel f item item = none := by
  simp [posDel]

theorem posDel_other (f : T → Option Nat) {item x : T} (h : x ≠ item) :
    posDel f item x = f x := by
  simp [posDel, h]

theorem swapH_getElem {q : Queue T} {i j : Nat} {ei ej : Entry T}
    (hi : q.heap[i]? = some ei) (hj : q.heap[j]? = some ej) (k : Nat) :
    (swapH q i j).heap[k]? =
      if k = j then some ei else if k = i then some ej else q.heap[k]? := by
  have hjl : j < q.heap.length := lt_len_of_get hj
  have hil : i < q.heap.length := lt_len_of_get hi
  rw [swapH, hi, hj]
  by_cases hkj : k = j
  · subst hkj
    rw [if_pos rfl]
    exact List.getElem?_set_eq_of_lt ei (by simpa using hjl)
  · rw [if_neg hkj, List.getElem?_set_ne (fun h => hkj h.symm)]
    by_cases hki : k = i
    · subst hki
      rw [if_pos rfl]
      exact List.getElem?_set_eq_of_lt ej hil
    · rw [if_neg hki, List.getElem?_set_ne (fun h => hki h.symm)]

theorem swapH_position {q : Queue T} {i j : Nat} {ei ej : Entry T}
    (hi : q.heap[i]? = some ei) (hj : q.heap[j]? = some ej) (x : T) :
    (swapH q i j).position x =
      if x = ei.2.2 then some j else if x = ej.2.2 then some i
      else q.position x := by
  rw [swapH, hi, hj]
  simp [posSet]

theorem swapH_counter {q : Queue T} (i j : Nat) :
    (swapH q i j).counter = q.counter := by
  rw [swapH]
  cases q.heap[i]? <;> cases q.heap[j]? <;> rfl

theorem swapH_sign {q : Queue T} (i j : Nat) :
    (swapH q i j).sign = q.sign := by
  rw [swapH]
  cases q.heap[i]? <;> cases q.heap[j]? <;> rfl

/-- Clauses 1-4 and 6 of `PQInv` (everything except the heap-order
clause); the parts that every `_swap` preserves. -/
def Coherent (q : Queue T) : Prop :=
  (∀ (i : Nat) (e : Entry T), q.heap[i]? = some e →
    q.position e.2.2 = some i) ∧
  (∀ (item : T) (i : Nat), q.position item = some i →
    ∃ e : Entry T, q.heap[i]? = some e ∧ e.2.2 = item) ∧
  (∀ (i : Nat) (e : Entry T), q.heap[i]? = some e → e.2.1 < q.counter) ∧
  (∀ (i j : Nat) (ei ej : Entry T), q.heap[i]? = some ei →
    q.heap[j]? = some ej → i ≠ j → ei.2.1 ≠ ej.2.1) ∧
  (q.sign = 1 ∨ q.sign = -1)

/-- The heap-order clause of `PQInv` alone. -/
def HeapProp (q : Queue T) : Prop :=
  ∀ (j : Nat) (ej ep : Entry T), 0 < j → q.heap[j]? = some ej →
    q.heap[parentI j]? = some ep → entryLt ej ep = false

theorem PQInv_iff (q : Queue T) : PQInv q ↔ Coherent q ∧ HeapProp q := by
  rw [PQInv, Coherent, HeapProp]
  tauto

/-- Items are stored at most once: two indices holding entries with the
same item are equal. -/
theorem coherent_item_inj {q : Queue T} (hC : Coherent q) {i j : Nat}
    {ei ej : Entry T} (hi : q.heap[i]? = some ei) (hj : q.heap[j]? = some ej)
    (he : ei.2.2 = ej.2.2) : i = j := by
  have h1 := hC.1 i ei hi
  have h2 := hC.1 j ej hj
  rw [he, h2] at h1
  exact (Option.some_inj.mp h1).symm

theorem transpose_ne {i j k l : Nat} (h : k ≠ l) :
    (if k = j then i else if k = i then j else k)
      ≠ (if l = j then i else if l = i then j else l) := by
  by_cases hkj : k = j <;> by_cases hki : k = i <;>
    by_cases hlj : l = j <;> by_cases hli : l = i <;>
    simp_all <;> omega

theorem swapH_coherent {q : Queue T} (hC : Coherent q) {i j : Nat}
    {ei ej : Entry T} (hi : q.heap[i]? = some ei)
    (hj : q.heap[j]? = some ej) : Coherent (swapH q i j) := by
  obtain ⟨c1, c2, c3, c4, c6⟩ := hC
  have key : ∀ (m : Nat) (em : Entry T),
      (if m = j then some ei else if m = i then some ej else q.heap[m]?)
        = some em →
      q.heap[if m = j then i else if m = i then j else m]? = some em := by
    intro m em hm
    by_cases hmj : m = j
    · rw [if_pos hmj] at hm ⊢
      cases hm
      exact hi
    · rw [if_neg hmj] at hm ⊢
      by_cases hmi : m = i
      · rw [if_pos hmi] at hm ⊢
        cases hm
        exact hj
      · rw [if_neg hmi] at hm ⊢
        exact hm
  refine ⟨?_, ?_, ?_, ?_, ?_⟩
  · intro k e hk
    rw [swapH_getElem hi hj k] at hk
    rw [swapH_position hi hj]
    by_cases hkj : k = j
    · subst hkj
      rw [if_pos rfl] at hk
      cases hk
      rw [if_pos rfl]
    · rw [if_neg hkj] at hk
      by_cases hki : k = i
      · subst hki
        rw [if_pos rfl] at hk
        cases hk
        by_cases hsame : ej.2.2 = ei.2.2
        · rw [if_pos hsame]
          have h9 := coherent_item_inj ⟨c1, c2, c3, c4, c6⟩ hj hi hsame
          rw [h9]
        · rw [if_neg hsame, if_pos rfl]
      · rw [if_neg hki] at hk
        by_cases h1e : e.2.2 = ei.2.2
        · exact absurd (coherent_item_inj ⟨c1, c2, c3, c4, c6⟩ hk hi h1e) hki
        · by_cases h2e : e.2.2 = ej.2.2
          · exact absurd (coherent_item_inj ⟨c1, c2, c3, c4, c6⟩ hk hj h2e) hkj
          · rw [if_neg h1e, if_neg h2e]
            exact c1 k e hk
  · intro x k hx
    rw [swapH_position hi hj] at hx
    by_cases h1e : x = ei.2.2
    · rw [if_pos h1e] at hx
      cases hx
      exact ⟨ei, by rw [swapH_getElem hi hj, if_pos rfl], h1e.symm⟩
    · rw [if_neg h1e] at hx
      by_cases h2e : x = ej.2.2
      · rw [if_pos h2e] at hx
        cases hx
        refine ⟨ej, ?_, h2e.symm⟩
        rw [swapH_getElem hi hj]
        by_cases hij : i = j
        · subst hij
          rw [hi] at hj
          cases hj
          simp
        · rw [if_neg hij, if_pos rfl]
      · rw [if_neg h2e] at hx
        obtain ⟨e, he, hee⟩ := c2 x k hx
        refine ⟨e, ?_, hee⟩
        rw [swapH_getElem hi hj]
        have hkj : ¬ k = j := fun h => by
          subst h
          rw [he] at hj
          cases hj
          exact h2e hee.symm
        have hki : ¬ k = i := fun h => by
          subst h
          rw [he] at hi
          cases hi
          exact h1e hee.symm
        rw [if_neg hkj, if_neg hki]
        exact he
  · intro k e hk
    rw [swapH_getElem hi hj k] at hk
    rw [swapH_counter]
    by_cases hkj : k = j
    · rw [if_pos hkj] at hk
      cases hk
      exact c3 i ei hi
    · rw [if_neg hkj] at hk
      by_cases hki : k = i
      · rw [if_pos hki] at hk
        cases hk
        exact c3 j ej hj
      · rw [if_neg hki] at hk
        exact c3 k e hk
  · intro k l ek el hk hl hkl
    rw [swapH_getElem hi hj] at hk hl
    exact c4 _ _ ek el (key k ek hk) (key l el hl) (transpose_ne hkl)
  · rw [swapH_sign]
    exact c6

/-! ### Index arithmetic of the implicit binary heap -/

theorem parentI_lt {i : Nat} (h : 0 < i) : parentI i < i := by
  simp only [parentI]
  omega

theorem parentI_leftI (i : Nat) : parentI (leftI i) = i := by
  simp only [parentI, leftI]
  omega

theorem parentI_rightI (i : Nat) : parentI (rightI i) = i := by
  simp only [parentI, rightI]
  omega

theorem children_of {j i : Nat} (h : parentI j = i) (h0 : 0 < j) :
    j = leftI i ∨ j = rightI i := by
  simp only [parentI, leftI, rightI] at *
  omega

theorem lt_of_parent {j i : Nat} (h : parentI j = i) (h0 : 0 < j) : i < j := by
  simp only [parentI] at h
  omega

theorem entryLe_of_lt_of_le {a b c : Entry T} (h1 : entryLt a b = true)
    (h2 : entryLt a c = false) : entryLt b c = false := by
  simp only [entryLt, decide_eq_true_eq, decide_eq_false_iff_not] at *
  omega

/-- Precondition of `_sift_up` at focus `idx`: every parent edge holds
except possibly the one above `idx`, and the entries below `idx` are
already no smaller than the entry above it. -/
def UpOk (q : Queue T) (idx : Nat) : Prop :=
  (∀ (j : Nat) (ej ep : Entry T), 0 < j → j ≠ idx → q.heap[j]? = some ej →
    q.heap[parentI j]? = some ep → entryLt ej ep = false) ∧
  (∀ (j : Nat) (ej gp : Entry T), 0 < idx → parentI j = idx → 0 < j →
    q.heap[j]? = some ej → q.heap[parentI idx]? = some gp →
    entryLt ej gp = false)

/-- Precondition of `_sift_down` at focus `idx`: every parent edge holds
except possibly the ones below `idx`, and the entries below `idx` are
already no smaller than the entry above it. -/
def DownOk (q : Queue T) (idx : Nat) : Prop :=
  (∀ (j : Nat) (ej ep : Entry T), 0 < j → parentI j ≠ idx →
    q.heap[j]? = some ej → q.heap[parentI j]? = some ep →
    entryLt ej ep = false) ∧
  (∀ (j : Nat) (ej gp : Entry T), 0 < idx → parentI j = idx → 0 < j →
    q.heap[j]? = some ej → q.heap[parentI idx]? = some gp →
    entryLt ej gp = false)

/-- `_sift_up` restores the heap property and keeps the bookkeeping
consistent. -/
theorem siftUp_spec :
    ∀ (idx : Nat) (q : Queue T), Coherent q → UpOk q idx →
      Coherent (siftUp q idx) ∧ HeapProp (siftUp q idx) := by
  intro idx
  induction idx using Nat.strong_induction_on with
  | _ idx ih =>
    intro q hC hU
    obtain ⟨u1, u2⟩ := hU
    rw [siftUp.eq_def]
    by_cases h0 : 0 < idx
    · rw [if_pos h0]
      cases hqi : q.heap[idx]? with
      | none =>
          cases hqp : q.heap[parentI idx]? with
          | none =>
              refine ⟨hC, ?_⟩
              intro j ej ep hj hje hpe
              by_cases hji : j = idx
              · rw [hji, hqi] at hje
                cases hje
              · exact u1 j ej ep hj hji hje hpe
          | some ep =>
              refine ⟨hC, ?_⟩
              intro j ej ep2 hj hje hpe
              by_cases hji : j = idx
              · rw [hji, hqi] at hje
                cases hje
              · exact u1 j ej ep2 hj hji hje hpe
      | some ei =>
          cases hqp : q.heap[parentI idx]? with
          | none =>
              refine ⟨hC, ?_⟩
              intro j ej ep2 hj hje hpe
              by_cases hji : j = idx
              · rw [hji] at hpe
                rw [hqp] at hpe
                cases hpe
              · exact u1 j ej ep2 hj hji hje hpe
          | some ep =>
              show Coherent (if entryLt ei ep = true then
                  siftUp (swapH q idx (parentI idx)) (parentI idx) else q) ∧
                HeapProp (if entryLt ei ep = true then
                  siftUp (swapH q idx (parentI idx)) (parentI idx) else q)
              by_cases hlt : entryLt ei ep = true
              · rw [hlt, if_pos rfl]
                have hpi : parentI idx < idx := parentI_lt h0
                have hne : idx ≠ parentI idx := by omega
                -- the swapped state, focused at the parent
                have hget := swapH_getElem hqi hqp
                have hC2 := swapH_coherent hC hqi hqp
                refine ih (parentI idx) hpi _ hC2 ⟨?_, ?_⟩
                · -- all parent edges except the one above the new focus
                  intro j ej ep2 hj hjp hje hpe
                  rw [hget] at hje hpe
                  by_cases hji : j = idx
                  · subst hji
                    rw [if_neg (fun h => hne h), if_pos rfl] at hje
                    cases hje
                    rw [if_pos rfl] at hpe
                    cases hpe
                    exact entryLt_asymm hlt
                  · rw [if_neg hjp, if_neg hji] at hje
                    by_cases hpj2 : parentI j = idx
                    · rw [hpj2, if_neg (fun h => hne h), if_pos rfl] at hpe
                      cases hpe
                      exact u2 j ej ep h0 hpj2 hj hje hqp
                    · by_cases hpj3 : parentI j = parentI idx
                      · rw [hpj3, if_pos rfl] at hpe
                        cases hpe
                        have h9 := u1 j ej ep hj hji hje (by rw [hpj3]; exact hqp)
                        exact entryLe_of_le_lt h9 hlt
                      · rw [if_neg hpj3, if_neg hpj2] at hpe
                        exact u1 j ej ep2 hj hji hje hpe
                · -- entries below the new focus against its parent
                  intro j ej gp hpp hpj hj hje hgp
                  rw [hget] at hje hgp
                  have hgpn : parentI (parentI idx) ≠ parentI idx := by
                    have := parentI_lt hpp
                    omega
                  have hgpn2 : parentI (parentI idx) ≠ idx := by
                    have := parentI_lt hpp
                    omega
                  rw [if_neg hgpn, if_neg hgpn2] at hgp
                  by_cases hji : j = idx
                  · rw [hji, if_neg (fun h => hne h), if_pos rfl] at hje
                    cases hje
                    exact u1 (parentI idx) ep gp hpp (by omega) hqp hgp
                  · rw [if_neg (fun h => hji (by rw [h] at hpj; omega)),
                      if_neg hji] at hje
                    have h9 := u1 j ej ep hj hji hje (by rw [hpj]; exact hqp)
                    have h8 := u1 (parentI idx) ep gp hpp (by omega) hqp hgp
                    exact entryLe_trans h8 h9
              · have hlt2 : entryLt ei ep = false := by
                  cases h9 : entryLt ei ep
                  · rfl
                  · exact absurd h9 hlt
                rw [hlt2]
                simp only [Bool.false_eq_true, if_false]
                refine ⟨hC, ?_⟩
                intro j ej ep2 hj hje hpe
                by_cases hji : j = idx
                · subst hji
                  rw [hqi] at hje
                  cases hje
                  rw [hqp] at hpe
                  cases hpe
                  exact hlt2
                · exact u1 j ej ep2 hj hji hje hpe
    · rw [if_neg h0]
      refine ⟨hC, ?_⟩
      intro j ej ep hj hje hpe
      exact u1 j ej ep hj (by omega) hje hpe

theorem downok_swap_left {q : Queue T} {idx : Nat} {ei el : Entry T}
    (hD : DownOk q idx)
    (hqi : q.heap[idx]? = some ei) (hql : q.heap[leftI idx]? = some el)
    (hlt : entryLt el ei = true)
    (hrf : ∀ er, q.heap[rightI idx]? = some er → entryLt er el = false) :
    DownOk (swapH q idx (leftI idx)) (leftI idx) := by
  obtain ⟨d1, d2⟩ := hD
  have hget := swapH_getElem hqi hql
  have hne : idx ≠ leftI idx := by
    simp only [leftI]
    omega
  constructor
  · intro j ej ep hj hpj hje hpe
    rw [hget] at hje hpe
    by_cases hji : j = idx
    · rw [hji, if_neg hne, if_pos rfl] at hje
      cases hje
      have h0i : 0 < idx := by omega
      have hpi1 : ¬ parentI idx = leftI idx := by
        have := parentI_lt h0i
        simp only [leftI] at *
        omega
      have hpi2 : ¬ parentI idx = idx := by
        have := parentI_lt h0i
        omega
      rw [hji, if_neg hpi1, if_neg hpi2] at hpe
      exact d2 (leftI idx) el ep h0i (parentI_leftI idx) (by simp [leftI]) hql hpe
    · by_cases hjl : j = leftI idx
      · rw [hjl, if_pos rfl] at hje
        cases hje
        rw [hjl, parentI_leftI, if_neg hne, if_pos rfl] at hpe
        cases hpe
        exact entryLt_asymm hlt
      · rw [if_neg hjl, if_neg hji] at hje
        by_cases hpi : parentI j = idx
        · rcases children_of hpi hj with h9 | h9
          · exact absurd h9 hjl
          · rw [hpi, if_neg hne, if_pos rfl] at hpe
            cases hpe
            exact hrf ej (h9 ▸ hje)
        · rw [if_neg hpj, if_neg hpi] at hpe
          exact d1 j ej ep hj hpi hje hpe
  · intro j ej gp h0l hpj hj hje hgp
    rw [hget] at hje hgp
    rw [parentI_leftI, if_neg hne, if_pos rfl] at hgp
    cases hgp
    have hjgt := lt_of_parent hpj hj
    have hjne1 : ¬ j = leftI idx := by omega
    have hjne2 : ¬ j = idx := by
      have : idx < leftI idx := by
        simp only [leftI]
        omega
      omega
    rw [if_neg hjne1, if_neg hjne2] at hje
    refine d1 j ej el hj ?_ hje (by rw [hpj]; exact hql)
    rw [hpj]
    omega

theorem downok_swap_right {q : Queue T} {idx : Nat} {ei el er : Entry T}
    (hD : DownOk q idx)
    (hqi : q.heap[idx]? = some ei) (hql : q.heap[leftI idx]? = some el)
    (hqr : q.heap[rightI idx]? = some er)
    (hlt : entryLt er ei = true) (hrl : entryLt er el = true) :
    DownOk (swapH q idx (rightI idx)) (rightI idx) := by
  obtain ⟨d1, d2⟩ := hD
  have hget := swapH_getElem hqi hqr
  have hne : idx ≠ rightI idx := by
    simp only [rightI]
    omega
  have hlr : leftI idx ≠ rightI idx := by
    simp only [leftI, rightI]
    omega
  constructor
  · intro j ej ep hj hpj hje hpe
    rw [hget] at hje hpe
    by_cases hji : j = idx
    · rw [hji, if_neg hne, if_pos rfl] at hje
      cases hje
      have h0i : 0 < idx := by omega
      have hpi1 : ¬ parentI idx = rightI idx := by
        have := parentI_lt h0i
        simp only [rightI] at *
        omega
      have hpi2 : ¬ parentI idx = idx := by
        have := parentI_lt h0i
        omega
      rw [hji, if_neg hpi1, if_neg hpi2] at hpe
      exact d2 (rightI idx) er ep h0i (parentI_rightI idx)
        (by simp [rightI]) hqr hpe
    · by_cases hjr : j = rightI idx
      · rw [hjr, if_pos rfl] at hje
        cases hje
        rw [hjr, parentI_rightI, if_neg hne, if_pos rfl] at hpe
        cases hpe
        exact entryLt_asymm hlt
      · rw [if_neg hjr, if_neg hji] at hje
        by_cases hpi : parentI j = idx
        · rcases children_of hpi hj with h9 | h9
          · rw [hpi, if_neg hne, if_pos rfl] at hpe
            cases hpe
            rw [h9] at hje
            rw [hje] at hql
            cases hql
            exact entryLt_asymm hrl
          · exact absurd h9 hjr
        · rw [if_neg hpj, if_neg hpi] at hpe
          exact d1 j ej ep hj hpi hje hpe
  · intro j ej gp h0r hpj hj hje hgp
    rw [hget] at hje hgp
    rw [parentI_rightI, if_neg hne, if_pos rfl] at hgp
    cases hgp
    have hjgt := lt_of_parent hpj hj
    have hjne1 : ¬ j = rightI idx := by omega
    have hjne2 : ¬ j = idx := by
      have : idx < rightI idx := by
        simp only [rightI]
        omega
      omega
    rw [if_neg hjne1, if_neg hjne2] at hje
    refine d1 j ej er hj ?_ hje (by rw [hpj]; exact hqr)
    rw [hpj]
    omega

/-- `_sift_down` restores the heap property and keeps the bookkeeping
consistent. -/
theorem siftDown_spec :
    ∀ (fuel : Nat) (q : Queue T) (idx : Nat), q.heap.length ≤ idx + fuel →
      Coherent q → DownOk q idx →
      Coherent (siftDown q idx) ∧ HeapProp (siftDown q idx) := by
  intro fuel
  induction fuel with
  | zero =>
      intro q idx hfu hC hD
      obtain ⟨d1, d2⟩ := hD
      rw [siftDown.eq_def]
      rw [if_neg (by simp only [leftI]; omega)]
      refine ⟨hC, ?_⟩
      intro j ej ep hj hje hpe
      by_cases hpj : parentI j = idx
      · have h9 := lt_len_of_get hje
        have h8 := lt_of_parent hpj hj
        omega
      · exact d1 j ej ep hj hpj hje hpe
  | succ fuel ih =>
      intro q idx hfu hC hD
      have hD0 := hD
      obtain ⟨d1, d2⟩ := hD
      rw [siftDown.eq_def]
      by_cases hl : leftI idx < q.heap.length
      · rw [if_pos hl]
        have hidx : idx < q.heap.length := by
          simp only [leftI] at hl
          omega
        obtain ⟨ei, hqi⟩ : ∃ e, q.heap[idx]? = some e :=
          ⟨_, List.getElem?_eq_getElem hidx⟩
        obtain ⟨el, hql⟩ : ∃ e, q.heap[leftI idx]? = some e :=
          ⟨_, List.getElem?_eq_getElem hl⟩
        rw [hqi, hql]
        by_cases hrn : rightI idx < q.heap.length
        · obtain ⟨er, hqr⟩ : ∃ e, q.heap[rightI idx]? = some e :=
            ⟨_, List.getElem?_eq_getElem hrn⟩
          rw [hqr]
          simp only [entryLtO]
          by_cases hrl : entryLt er el = true
          · rw [if_pos ⟨hrn, hrl⟩]
            by_cases hlt : entryLt er ei = true
            · rw [if_pos hlt]
              have hC2 := swapH_coherent hC hqi hqr
              have hD2 := downok_swap_right hD0 hqi hql hqr hlt hrl
              refine ih _ (rightI idx) ?_ hC2 hD2
              rw [swapH_length]
              simp only [rightI]
              omega
            · rw [if_neg hlt]
              have hlt2 : entryLt er ei = false := by
                cases h9 : entryLt er ei
                · rfl
                · exact absurd h9 hlt
              refine ⟨hC, ?_⟩
              intro j ej ep hj hje hpe
              by_cases hpj : parentI j = idx
              · rw [hpj, hqi] at hpe
                cases hpe
                rcases children_of hpj hj with h9 | h9
                · rw [h9, hql] at hje
                  cases hje
                  exact entryLe_of_lt_of_le hrl hlt2
                · rw [h9, hqr] at hje
                  cases hje
                  exact hlt2
              · exact d1 j ej ep hj hpj hje hpe
          · rw [if_neg (fun h => hrl h.2)]
            have hrl2 : entryLt er el = false := by
              cases h9 : entryLt er el
              · rfl
              · exact absurd h9 hrl
            by_cases hllt : entryLt el ei = true
            · rw [if_pos hllt]
              have hC2 := swapH_coherent hC hqi hql
              have hD2 := downok_swap_left hD0 hqi hql hllt
                (fun er2 h9 => by
                  rw [h9] at hqr
                  cases hqr
                  exact hrl2)
              refine ih _ (leftI idx) ?_ hC2 hD2
              rw [swapH_length]
              simp only [leftI]
              omega
            · rw [if_neg hllt]
              have hllt2 : entryLt el ei = false := by
                cases h9 : entryLt el ei
                · rfl
                · exact absurd h9 hllt
              refine ⟨hC, ?_⟩
              intro j ej ep hj hje hpe
              by_cases hpj : parentI j = idx
              · rw [hpj, hqi] at hpe
                cases hpe
                rcases children_of hpj hj with h9 | h9
                · rw [h9, hql] at hje
                  cases hje
                  exact hllt2
                · rw [h9, hqr] at hje
                  cases hje
                  exact entryLe_trans hllt2 hrl2
              · exact d1 j ej ep hj hpj hje hpe
        · have hqr : q.heap[rightI idx]? = none :=
            List.getElem?_eq_none (by omega)
          rw [hqr]
          simp only [entryLtO]
          rw [if_neg (fun h => by simp at h)]
          by_cases hllt : entryLt el ei = true
          · rw [if_pos hllt]
            have hC2 := swapH_coherent hC hqi hql
            have hD2 := downok_swap_left hD0 hqi hql hllt
              (fun er2 h9 => by
                rw [hqr] at h9
                cases h9)
            refine ih _ (leftI idx) ?_ hC2 hD2
            rw [swapH_length]
            simp only [leftI]
            omega
          · rw [if_neg hllt]
            have hllt2 : entryLt el ei = false := by
              cases h9 : entryLt el ei
              · rfl
              · exact absurd h9 hllt
            refine ⟨hC, ?_⟩
            intro j ej ep hj hje hpe
            by_cases hpj : parentI j = idx
            · rw [hpj, hqi] at hpe
              cases hpe
              rcases children_of hpj hj with h9 | h9
              · rw [h9, hql] at hje
                cases hje
                exact hllt2
              · rw [h9, hqr] at hje
                cases hje
            · exact d1 j ej ep hj hpj hje hpe
      · rw [if_neg hl]
        refine ⟨hC, ?_⟩
        intro j ej ep hj hje hpe
        by_cases hpj : parentI j = idx
        · have h9 := lt_len_of_get hje
          have h8 := lt_of_parent hpj hj
          have h7 : leftI idx ≤ j := by
            rcases children_of hpj hj with h6 | h6 <;>
              simp only [h6, leftI, rightI] <;> omega
          omega
        · exact d1 j ej ep hj hpj hje hpe

theorem siftUp_noop {q : Queue T} {idx : Nat}
    (h : ∀ ei ep, q.heap[idx]? = some ei → q.heap[parentI idx]? = some ep →
      entryLt ei ep = false) : siftUp q idx = q := by
  rw [siftUp.eq_def]
  by_cases h0 : 0 < idx
  · rw [if_pos h0]
    cases hqi : q.heap[idx]? with
    | none => cases hqp : q.heap[parentI idx]? <;> rfl
    | some ei =>
        cases hqp : q.heap[parentI idx]? with
        | none => rfl
        | some ep =>
            show (if entryLt ei ep = true then
              siftUp (swapH q idx (parentI idx)) (parentI idx) else q) = q
            rw [h ei ep hqi hqp]
            simp
  · rw [if_neg h0]

/-- In a valid heap the root entry is a minimum. -/
theorem root_min {q : Queue T} (hH : HeapProp q) :
    ∀ (i : Nat) (e r : Entry T), q.heap[i]? = some e → q.heap[0]? = some r →
      entryLt e r = false := by
  intro i
  induction i using Nat.strong_induction_on with
  | _ i ih =>
    intro e r he hr
    rcases Nat.eq_zero_or_pos i with h0 | h0
    · rw [h0, hr] at he
      cases he
      exact entryLt_irrefl e
    · have hlen := lt_len_of_get he
      have hpl : parentI i < q.heap.length := by
        have := parentI_lt h0
        omega
      obtain ⟨ep, hp⟩ : ∃ e2, q.heap[parentI i]? = some e2 :=
        ⟨_, List.getElem?_eq_getElem hpl⟩
      exact entryLe_trans (ih (parentI i) (parentI_lt h0) ep r hp hr)
        (hH i e ep h0 he hp)

theorem get_append_single {l : List (Entry T)} {e : Entry T} (k : Nat) :
    (l ++ [e])[k]? =
      if k < l.length then l[k]? else if k = l.length then some e
      else none := by
  rw [List.getElem?_append]
  by_cases h : k < l.length
  · rw [if_pos h, if_pos h]
  · rw [if_neg h, if_neg h]
    by_cases h2 : k = l.length
    · rw [if_pos h2, h2]
      simp
    · rw [if_neg h2]
      cases h9 : k - l.length with
      | zero => omega
      | succ m => simp [h9]

/-- `push` on a fresh item preserves the invariant; on a present item it
raises `ValueError` (priority_queue.py:130-131). -/
theorem push_inv {q : Queue T} (hI : PQInv q) (item : T) (priority : Int) :
    (containsQ q item = true → push q item priority = .error .valueError) ∧
    (containsQ q item = false →
      ∃ q2, push q item priority = .ok q2 ∧ PQInv q2) := by
  obtain ⟨hC, hH⟩ := (PQInv_iff q).mp hI
  obtain ⟨c1, c2, c3, c4, c6⟩ := hC
  constructor
  · intro hcon
    rw [push, if_pos (by rwa [containsQ] at hcon)]
  · intro hcon
    have hnone : q.position item = none := by
      rw [containsQ] at hcon
      cases h9 : q.position item
      · rfl
      · rw [h9] at hcon
        cases hcon
    have hpush : push q item priority
        = .ok (siftUp ⟨q.heap ++ [(q.sign * priority, q.counter, item)],
            posSet q.position item q.heap.length, q.counter + 1, q.sign⟩
            q.heap.length) := by
      rw [push, if_neg (by rw [hnone]; simp)]
      simp
    set e0 : Entry T := (q.sign * priority, q.counter, item) with he0
    set qm : Queue T := ⟨q.heap ++ [e0],
      posSet q.position item q.heap.length, q.counter + 1, q.sign⟩ with hqm
    have hget : ∀ k, qm.heap[k]? =
        if k < q.heap.length then q.heap[k]? else
        if k = q.heap.length then some e0 else none := fun k =>
      get_append_single k
    have hCm : Coherent qm := by
      refine ⟨?_, ?_, ?_, ?_, ?_⟩
      · intro k e hk
        rw [hget] at hk
        by_cases hkl : k < q.heap.length
        · rw [if_pos hkl] at hk
          have h9 := c1 k e hk
          show posSet q.position item q.heap.length e.2.2 = some k
          have hne : e.2.2 ≠ item := fun h => by
            rw [h, hnone] at h9
            cases h9
          rw [posSet_other _ _ hne]
          exact h9
        · rw [if_neg hkl] at hk
          by_cases hke : k = q.heap.length
          · rw [if_pos hke] at hk
            cases hk
            show posSet q.position item q.heap.length item = some k
            rw [posSet_self, hke]
          · rw [if_neg hke] at hk
            cases hk
      · intro x i hx
        show ∃ e, qm.heap[i]? = some e ∧ e.2.2 = x
        by_cases hxi : x = item
        · rw [hxi] at hx ⊢
          rw [show qm.position item = some q.heap.length from posSet_self _ _ _]
            at hx
          cases hx
          refine ⟨e0, ?_, rfl⟩
          rw [hget, if_neg (by omega), if_pos rfl]
        · rw [show qm.position x = q.position x from posSet_other _ _ hxi] at hx
          obtain ⟨e, he, hee⟩ := c2 x i hx
          refine ⟨e, ?_, hee⟩
          rw [hget, if_pos (lt_len_of_get he)]
          exact he
      · intro k e hk
        rw [hget] at hk
        by_cases hkl : k < q.heap.length
        · rw [if_pos hkl] at hk
          have := c3 k e hk
          show e.2.1 < q.counter + 1
          omega
        · rw [if_neg hkl] at hk
          by_cases hke : k = q.heap.length
          · rw [if_pos hke] at hk
            cases hk
            show q.counter < q.counter + 1
            omega
          · rw [if_neg hke] at hk
            cases hk
      · intro k l ek el hk hl hkl
        rw [hget] at hk hl
        by_cases hkl2 : k < q.heap.length
        · rw [if_pos hkl2] at hk
          by_cases hll : l < q.heap.length
          · rw [if_pos hll] at hl
            exact c4 k l ek el hk hl hkl
          · rw [if_neg hll] at hl
            by_cases hle : l = q.heap.length
            · rw [if_pos hle] at hl
              cases hl
              have := c3 k ek hk
              show ek.2.1 ≠ q.counter
              omega
            · rw [if_neg hle] at hl
              cases hl
        · rw [if_neg hkl2] at hk
          by_cases hke : k = q.heap.length
          · rw [if_pos hke] at hk
            cases hk
            by_cases hll : l < q.heap.length
            · rw [if_pos hll] at hl
              have := c3 l el hl
              show q.counter ≠ el.2.1
              omega
            · rw [if_neg hll] at hl
              by_cases hle : l = q.heap.length
              · omega
              · rw [if_neg hle] at hl
                cases hl
          · rw [if_neg hke] at hk
            cases hk
      · exact c6
    have hUm : UpOk qm q.heap.length := by
      constructor
      · intro j ej ep hj hjn hje hpe
        rw [hget] at hje hpe
        by_cases hjl : j < q.heap.length
        · rw [if_pos hjl] at hje
          have hpj : parentI j < q.heap.length := by
            have := parentI_lt hj
            omega
          rw [if_pos hpj] at hpe
          exact hH j ej ep hj hje hpe
        · rw [if_neg hjl, if_neg (fun h => hjn h)] at hje
          cases hje
      · intro j ej gp hn hpj hj hje hgp
        rw [hget] at hje
        have hjg := lt_of_parent hpj hj
        rw [if_neg (by omega), if_neg (by omega)] at hje
        cases hje
    rw [hpush]
    obtain ⟨hC2, hH2⟩ := siftUp_spec q.heap.length qm hCm hUm
    exact ⟨_, rfl, (PQInv_iff _).mpr ⟨hC2, hH2⟩⟩

/-- The common tail of `pop` and `remove`: swap the doomed entry (at
`idx`) with the last one, drop the last slot and delete the item from
`_position`.  The resulting state is coherent and holds the old entries,
with the old last entry now at `idx`. -/
theorem cutLast_spec {q : Queue T} (hC : Coherent q) {idx : Nat}
    {ei elast : Entry T} (hqi : q.heap[idx]? = some ei)
    (hlast : q.heap[q.heap.length - 1]? = some elast)
    (hne : idx ≠ q.heap.length - 1) :
    Coherent { swapH q idx (q.heap.length - 1) with
      heap := (swapH q idx (q.heap.length - 1)).heap.dropLast,
      position := posDel (swapH q idx (q.heap.length - 1)).position ei.2.2 } ∧
    (∀ k, ((swapH q idx (q.heap.length - 1)).heap.dropLast)[k]? =
      if k < q.heap.length - 1 then
        (if k = idx then some elast else q.heap[k]?) else none) := by
  have hC1 := swapH_coherent hC hqi hlast
  have hget1 := swapH_getElem hqi hlast
  have hl1 : (swapH q idx (q.heap.length - 1)).heap.length = q.heap.length :=
    swapH_length q idx (q.heap.length - 1)
  have hgetd : ∀ k, ((swapH q idx (q.heap.length - 1)).heap.dropLast)[k]? =
      if k < q.heap.length - 1 then
        (if k = idx then some elast else q.heap[k]?) else none := by
    intro k
    rw [List.getElem?_dropLast, hl1]
    by_cases hk : k < q.heap.length - 1
    · rw [if_pos hk, if_pos hk, hget1, if_neg (by omega)]
    · rw [if_neg hk, if_neg hk]
  refine ⟨⟨?_, ?_, ?_, ?_, ?_⟩, hgetd⟩
  · intro k e hk
    show posDel (swapH q idx (q.heap.length - 1)).position ei.2.2 e.2.2
      = some k
    rw [hgetd] at hk
    by_cases hkl : k < q.heap.length - 1
    · rw [if_pos hkl] at hk
      have hq1k : (swapH q idx (q.heap.length - 1)).heap[k]? = some e := by
        rw [hget1, if_neg (by omega)]
        exact hk
      have h9 := hC1.1 k e hq1k
      have hq1last : (swapH q idx (q.heap.length - 1)).heap[q.heap.length
          - 1]? = some ei := by
        rw [hget1, if_pos rfl]
      have hnei : e.2.2 ≠ ei.2.2 := fun h => by
        have := coherent_item_inj hC1 hq1k hq1last h
        omega
      rw [posDel_other _ hnei]
      exact h9
    · rw [if_neg hkl] at hk
      cases hk
  · intro x i hx
    replace hx : posDel (swapH q idx (q.heap.length - 1)).position ei.2.2 x
        = some i := hx
    have hx2 : x ≠ ei.2.2 ∧ (swapH q idx (q.heap.length - 1)).position x
        = some i := by
      by_cases h9 : x = ei.2.2
      · rw [h9, posDel_self] at hx
        cases hx
      · rw [posDel_other _ h9] at hx
        exact ⟨h9, hx⟩
    obtain ⟨e, he, hee⟩ := hC1.2.1 x i hx2.2
    have hilen : i < q.heap.length := by
      have h9 := lt_len_of_get he
      omega
    have hine : i ≠ q.heap.length - 1 := fun h => by
      rw [h, hget1, if_pos rfl] at he
      cases he
      exact hx2.1 hee.symm
    refine ⟨e, ?_, hee⟩
    show ((swapH q idx (q.heap.length - 1)).heap.dropLast)[i]? = some e
    rw [hgetd, if_pos (by omega)]
    rw [hget1, if_neg (by omega)] at he
    exact he
  · intro k e hk
    replace hk : ((swapH q idx (q.heap.length - 1)).heap.dropLast)[k]?
        = some e := hk
    rw [hgetd] at hk
    show e.2.1 < (swapH q idx (q.heap.length - 1)).counter
    rw [swapH_counter]
    by_cases hkl : k < q.heap.length - 1
    · rw [if_pos hkl] at hk
      by_cases hki : k = idx
      · rw [if_pos hki] at hk
        cases hk
        exact hC.2.2.1 _ elast hlast
      · rw [if_neg hki] at hk
        exact hC.2.2.1 _ e hk
    · rw [if_neg hkl] at hk
      cases hk
  · intro k l ek el hk hl hkl
    replace hk : ((swapH q idx (q.heap.length - 1)).heap.dropLast)[k]?
        = some ek := hk
    replace hl : ((swapH q idx (q.heap.length - 1)).heap.dropLast)[l]?
        = some el := hl
    rw [hgetd] at hk hl
    by_cases hkl2 : k < q.heap.length - 1
    · by_cases hll : l < q.heap.length - 1
      · rw [if_pos hkl2] at hk
        rw [if_pos hll] at hl
        by_cases hki : k = idx
        · rw [if_pos hki] at hk
          cases hk
          rw [if_neg (by omega)] at hl
          exact hC.2.2.2.1 (q.heap.length - 1) l elast el hlast hl (by omega)
        · rw [if_neg hki] at hk
          by_cases hli : l = idx
          · rw [if_pos hli] at hl
            cases hl
            exact hC.2.2.2.1 k (q.heap.length - 1) ek elast hk hlast (by omega)
          · rw [if_neg hli] at hl
            exact hC.2.2.2.1 k l ek el hk hl hkl
      · rw [if_neg hll] at hl
        cases hl
    · rw [if_neg hkl2] at hk
      cases hk
  · show (swapH q idx (q.heap.length - 1)).sign = 1 ∨
      (swapH q idx (q.heap.length - 1)).sign = -1
    rw [swapH_sign]
    exact hC.2.2.2.2

/-- `pop` preserves the invariant. -/
theorem pop_inv {q : Queue T} (hI : PQInv q) {x : T} {q2 : Queue T}
    (h : pop q = .ok (x, q2)) : PQInv q2 := by
  obtain ⟨hC, hH⟩ := (PQInv_iff q).mp hI
  rw [pop] at h
  split at h
  · cases h
  · rename_i a t hq
    have h0 : q.heap[0]? = some a := by rw [hq]; simp
    have hn1 : q.heap.length - 1 < q.heap.length := by
      rw [hq]
      simp
    obtain ⟨elast, hlast⟩ : ∃ e, q.heap[q.heap.length - 1]? = some e :=
      ⟨_, List.getElem?_eq_getElem hn1⟩
    have hl1 := swapH_length q 0 (q.heap.length - 1)
    have hgl : (swapH q 0 (q.heap.length - 1)).heap.getLast? = some a := by
      rw [List.getLast?_eq_getElem?, hl1, swapH_getElem h0 hlast, if_pos rfl]
    simp only [hgl] at h
    split at h
    · rename_i hemp
      simp only [Except.ok.injEq, Prod.mk.injEq] at h
      obtain ⟨hx, hq2⟩ := h
      subst hq2
      rw [List.isEmpty_iff] at hemp
      have hn : q.heap.length = 1 := by
        have h9 : (swapH q 0 (q.heap.length - 1)).heap.dropLast.length
            = 0 := by
          rw [hemp]
          rfl
        rw [List.length_dropLast, hl1] at h9
        have h8 := lt_len_of_get h0
        omega
      refine (PQInv_iff _).mpr ⟨⟨?_, ?_, ?_, ?_, ?_⟩, ?_⟩
      · intro k e hk
        rw [hemp] at hk
        cases k <;> cases hk
      · intro x2 i hx2
        replace hx2 : posDel (swapH q 0 (q.heap.length - 1)).position a.2.2 x2
            = some i := hx2
        by_cases h9 : x2 = a.2.2
        · rw [h9, posDel_self] at hx2
          cases hx2
        · rw [posDel_other _ h9] at hx2
          obtain ⟨e, he, hee⟩ := (swapH_coherent hC h0 hlast).2.1 x2 i hx2
          have hi2 : i < q.heap.length := by
            have := lt_len_of_get he
            omega
          rw [swapH_getElem h0 hlast, hn] at he
          have hi0 : i = 0 := by omega
          rw [hi0] at he
          simp at he
          subst he
          exact absurd hee.symm h9
      · intro k e hk
        rw [hemp] at hk
        cases k <;> cases hk
      · intro k l ek el hk hl hkl
        rw [hemp] at hk
        cases k <;> cases hk
      · show (swapH q 0 (q.heap.length - 1)).sign = 1 ∨
          (swapH q 0 (q.heap.length - 1)).sign = -1
        rw [swapH_sign]
        exact hC.2.2.2.2
      · intro j ej ep hj hje hpe
        rw [hemp] at hje
        cases j <;> cases hje
    · rename_i hemp
      simp only [Except.ok.injEq, Prod.mk.injEq] at h
      obtain ⟨hx, hq2⟩ := h
      subst hq2
      have hne : (0 : Nat) ≠ q.heap.length - 1 := by
        intro h9
        have h8 : (swapH q 0 (q.heap.length - 1)).heap.dropLast.length
            = q.heap.length - 1 := by
          rw [List.length_dropLast, hl1]
        rw [List.isEmpty_iff] at hemp
        have : ¬ (swapH q 0 (q.heap.length - 1)).heap.dropLast = [] := hemp
        rcases h7 : (swapH q 0 (q.heap.length - 1)).heap.dropLast with _ | _
        · exact this h7
        · rw [h7] at h8
          have h0l := lt_len_of_get h0
          simp at h8
          omega
      obtain ⟨hC2, hget2⟩ := cutLast_spec hC h0 hlast hne
      have hD2 : DownOk { swapH q 0 (q.heap.length - 1) with
          heap := (swapH q 0 (q.heap.length - 1)).heap.dropLast,
          position := posDel (swapH q 0 (q.heap.length - 1)).position
            a.2.2 } 0 := by
        constructor
        · intro j ej ep hj hpj hje hpe
          rw [hget2] at hje hpe
          by_cases hjl : j < q.heap.length - 1
          · rw [if_pos hjl, if_neg (by omega)] at hje
            have hpl : parentI j < q.heap.length - 1 := by
              have := parentI_lt hj
              omega
            rw [if_pos hpl, if_neg hpj] at hpe
            exact hH j ej ep hj hje hpe
          · rw [if_neg hjl] at hje
            cases hje
        · intro j ej gp hj0 hpj hj hje hgp
          omega
      obtain ⟨hC3, hH3⟩ := siftDown_spec
        ((swapH q 0 (q.heap.length - 1)).heap.dropLast.length) _ 0
        (by
          show (swapH q 0 (q.heap.length - 1)).heap.dropLast.length
            ≤ 0 + (swapH q 0 (q.heap.length - 1)).heap.dropLast.length
          omega) hC2 hD2
      exact (PQInv_iff _).mpr ⟨hC3, hH3⟩

/-- `DownOk` holds at any focus of a full heap. -/
theorem downok_of_heap {q : Queue T} (hH : HeapProp q) (idx : Nat) :
    DownOk q idx := by
  constructor
  · intro j ej ep hj _ hje hpe
    exact hH j ej ep hj hje hpe
  · intro j ej gp h0 hpj hj hje hgp
    have hjlen := lt_len_of_get hje
    have hil : idx < q.heap.length := by
      have := lt_of_parent hpj hj
      omega
    obtain ⟨ei, hqi⟩ : ∃ e, q.heap[idx]? = some e :=
      ⟨_, List.getElem?_eq_getElem hil⟩
    exact entryLe_trans (hH idx ei gp h0 hqi hgp)
      (hH j ej ei hj hje (by rw [hpj]; exact hqi))

/-- `update` preserves the invariant; on an absent item it raises
`KeyError` (priority_queue.py:173-174). -/
theorem update_inv {q : Queue T} (hI : PQInv q) (item : T)
    (newPriority : Int) :
    (q.position item = none → update q item newPriority = .error .keyError) ∧
    (∀ q2, update q item newPriority = .ok q2 → PQInv q2) := by
  obtain ⟨hC, hH⟩ := (PQInv_iff q).mp hI
  constructor
  · intro h
    rw [update, h]
  · intro q2 h
    rw [update] at h
    split at h
    · cases h
    · rename_i idx hpos
      split at h
      · cases h
      · rename_i e hqi
        have he2 : e.2.2 = item := by
          obtain ⟨e3, he3, hee3⟩ := hC.2.1 item idx hpos
          rw [hqi] at he3
          cases he3
          exact hee3
        dsimp only at h
        set enew : Entry T := (q.sign * newPriority, e.2.1, item) with hen
        set qm : Queue T := { q with heap := q.heap.set idx enew } with hqm
        have hil : idx < q.heap.length := lt_len_of_get hqi
        have hgetm : ∀ k, qm.heap[k]? =
            if k = idx then some enew else q.heap[k]? := by
          intro k
          by_cases hk : k = idx
          · rw [if_pos hk, hk]
            exact List.getElem?_set_eq_of_lt enew hil
          · rw [if_neg hk]
            exact List.getElem?_set_ne (fun h9 => hk h9.symm)
        have hCm : Coherent qm := by
          refine ⟨?_, ?_, ?_, ?_, hC.2.2.2.2⟩
          · intro k e3 hk
            rw [hgetm] at hk
            show q.position e3.2.2 = some k
            by_cases hki : k = idx
            · rw [if_pos hki] at hk
              cases hk
              rw [hki]
              exact hpos
            · rw [if_neg hki] at hk
              exact hC.1 k e3 hk
          · intro x i hx
            replace hx : q.position x = some i := hx
            obtain ⟨e3, he3, hee3⟩ := hC.2.1 x i hx
            by_cases hii : i = idx
            · refine ⟨enew, ?_, ?_⟩
              · rw [hgetm, if_pos hii]
              · show item = x
                rw [hii] at he3
                rw [hqi] at he3
                cases he3
                rw [← hee3, he2]
            · refine ⟨e3, ?_, hee3⟩
              rw [hgetm, if_neg hii]
              exact he3
          · intro k e3 hk
            rw [hgetm] at hk
            show e3.2.1 < q.counter
            by_cases hki : k = idx
            · rw [if_pos hki] at hk
              cases hk
              exact hC.2.2.1 idx e hqi
            · rw [if_neg hki] at hk
              exact hC.2.2.1 k e3 hk
          · intro k l ek el hk hl hkl
            rw [hgetm] at hk hl
            by_cases hki : k = idx
            · rw [if_pos hki] at hk
              cases hk
              rw [if_neg (by omega)] at hl
              have h9 := hC.2.2.2.1 idx l e el hqi hl (by omega)
              show e.2.1 ≠ el.2.1
              exact h9
            · rw [if_neg hki] at hk
              by_cases hli : l = idx
              · rw [if_pos hli] at hl
                cases hl
                have h9 := hC.2.2.2.1 k idx ek e hk hqi (by omega)
                show ek.2.1 ≠ e.2.1
                exact h9
              · rw [if_neg hli] at hl
                exact hC.2.2.2.1 k l ek el hk hl hkl
        split at h
        · rename_i hlt
          simp only [Except.ok.injEq] at h
          subst h
          have hltE : entryLt enew e = true := by
            simp only [entryLt, decide_eq_true_eq]
            left
            exact hlt
          have hUm : UpOk qm idx := by
            constructor
            · intro j ej ep hj hji hje hpe
              rw [hgetm] at hje hpe
              rw [if_neg hji] at hje
              by_cases hpj : parentI j = idx
              · rw [if_pos hpj] at hpe
                cases hpe
                have h9 := hH j ej e hj hje (by rw [hpj]; exact hqi)
                exact entryLe_of_le_lt h9 hltE
              · rw [if_neg hpj] at hpe
                exact hH j ej ep hj hje hpe
            · intro j ej gp h0 hpj hj hje hgp
              rw [hgetm] at hje hgp
              have hpi : ¬ parentI idx = idx := by
                have := parentI_lt h0
                omega
              rw [if_neg hpi] at hgp
              rw [if_neg (by have := lt_of_parent hpj hj; omega)] at hje
              exact entryLe_trans (hH idx e gp h0 hqi hgp)
                (hH j ej e hj hje (by rw [hpj]; exact hqi))
          obtain ⟨hC2, hH2⟩ := siftUp_spec idx qm hCm hUm
          exact (PQInv_iff _).mpr ⟨hC2, hH2⟩
        · rename_i hlt
          simp only [Except.ok.injEq] at h
          subst h
          have hleE : entryLt enew e = false := by
            simp only [entryLt, decide_eq_false_iff_not]
            intro h9
            rcases h9 with h9 | h9
            · exact hlt h9
            · show False
              omega
          have hDm : DownOk qm idx := by
            constructor
            · intro j ej ep hj hpj hje hpe
              rw [hgetm] at hje hpe
              rw [if_neg hpj] at hpe
              by_cases hji : j = idx
              · rw [if_pos hji] at hje
                cases hje
                rw [hji] at hpe
                have h0 : 0 < idx := by omega
                exact entryLe_trans (hH idx e ep h0 hqi hpe) hleE
              · rw [if_neg hji] at hje
                exact hH j ej ep hj hje hpe
            · intro j ej gp h0 hpj hj hje hgp
              rw [hgetm] at hje hgp
              have hpi : ¬ parentI idx = idx := by
                have := parentI_lt h0
                omega
              rw [if_neg hpi] at hgp
              rw [if_neg (by have := lt_of_parent hpj hj; omega)] at hje
              exact entryLe_trans (hH idx e gp h0 hqi hgp)
                (hH j ej e hj hje (by rw [hpj]; exact hqi))
          obtain ⟨hC2, hH2⟩ := siftDown_spec qm.heap.length qm idx
            (by omega) hCm hDm
          exact (PQInv_iff _).mpr ⟨hC2, hH2⟩

/-- `remove` preserves the invariant; on an absent item it raises
`KeyError` (priority_queue.py:193-194). -/
theorem remove_inv {q : Queue T} (hI : PQInv q) (item : T) :
    (q.position item = none → remove q item = .error .keyError) ∧
    (∀ q2, remove q item = .ok q2 → PQInv q2) := by
  obtain ⟨hC, hH⟩ := (PQInv_iff q).mp hI
  constructor
  · intro h
    rw [remove, h]
  · intro q2 h
    rw [remove] at h
    split at h
    · cases h
    · rename_i idx hpos
      obtain ⟨e, hqi, he2⟩ := hC.2.1 item idx hpos
      have hil : idx < q.heap.length := lt_len_of_get hqi
      have hgetd : ∀ k, q.heap.dropLast[k]? =
          if k < q.heap.length - 1 then q.heap[k]? else none :=
        List.getElem?_dropLast q.heap
      split at h
      · rename_i hlast2
        simp only [Except.ok.injEq] at h
        subst h
        refine (PQInv_iff _).mpr ⟨⟨?_, ?_, ?_, ?_, ?_⟩, ?_⟩
        · intro k e3 hk
          replace hk : q.heap.dropLast[k]? = some e3 := hk
          rw [hgetd] at hk
          by_cases hkl : k < q.heap.length - 1
          · rw [if_pos hkl] at hk
            show posDel q.position item e3.2.2 = some k
            have hne3 : e3.2.2 ≠ item := fun h9 => by
              have := coherent_item_inj hC hk hqi (by rw [h9, he2])
              omega
            rw [posDel_other _ hne3]
            exact hC.1 k e3 hk
          · rw [if_neg hkl] at hk
            cases hk
        · intro x i hx
          replace hx : posDel q.position item x = some i := hx
          by_cases h9 : x = item
          · rw [h9, posDel_self] at hx
            cases hx
          · rw [posDel_other _ h9] at hx
            obtain ⟨e3, he3, hee3⟩ := hC.2.1 x i hx
            have hine : i ≠ idx := fun h8 => by
              rw [h8, hqi] at he3
              cases he3
              exact h9 (by rw [← hee3, he2])
            have hilen := lt_len_of_get he3
            refine ⟨e3, ?_, hee3⟩
            show q.heap.dropLast[i]? = some e3
            rw [hgetd, if_pos (by omega)]
            exact he3
        · intro k e3 hk
          replace hk : q.heap.dropLast[k]? = some e3 := hk
          rw [hgetd] at hk
          show e3.2.1 < q.counter
          by_cases hkl : k < q.heap.length - 1
          · rw [if_pos hkl] at hk
            exact hC.2.2.1 k e3 hk
          · rw [if_neg hkl] at hk
            cases hk
        · intro k l ek el hk hl hkl
          replace hk : q.heap.dropLast[k]? = some ek := hk
          replace hl : q.heap.dropLast[l]? = some el := hl
          rw [hgetd] at hk hl
          by_cases hkl2 : k < q.heap.length - 1
          · by_cases hll : l < q.heap.length - 1
            · rw [if_pos hkl2] at hk
              rw [if_pos hll] at hl
              exact hC.2.2.2.1 k l ek el hk hl hkl
            · rw [if_neg hll] at hl
              cases hl
          · rw [if_neg hkl2] at hk
            cases hk
        · show q.sign = 1 ∨ q.sign = -1
          exact hC.2.2.2.2
        · intro j ej ep hj hje hpe
          replace hje : q.heap.dropLast[j]? = some ej := hje
          replace hpe : q.heap.dropLast[parentI j]? = some ep := hpe
          rw [hgetd] at hje hpe
          by_cases hjl : j < q.heap.length - 1
          · rw [if_pos hjl] at hje
            have hpl : parentI j < q.heap.length - 1 := by
              have := parentI_lt hj
              omega
            rw [if_pos hpl] at hpe
            exact hH j ej ep hj hje hpe
          · rw [if_neg hjl] at hje
            cases hje
      · rename_i hne2
        dsimp only at h
        rw [← he2] at h
        have hn1 : q.heap.length - 1 < q.heap.length := by omega
        obtain ⟨elast, hlast⟩ : ∃ e3, q.heap[q.heap.length - 1]? = some e3 :=
          ⟨_, List.getElem?_eq_getElem hn1⟩
        obtain ⟨hC2, hget2⟩ := cutLast_spec hC hqi hlast hne2
        have hidxlt : idx < q.heap.length - 1 := by omega
        have hcond : idx
            < ((swapH q idx (q.heap.length - 1)).heap.dropLast).length := by
          rw [List.length_dropLast, swapH_length]
          omega
        split at h
        · rename_i hlt3
          simp only [Except.ok.injEq] at h
          subst h
          have hq2i : ((swapH q idx (q.heap.length - 1)).heap.dropLast)[idx]?
              = some elast := by
            rw [hget2, if_pos hidxlt, if_pos rfl]
          rcases Nat.eq_zero_or_pos idx with h0 | h0
          · -- removing at the root: _sift_up is a no-op
            have hno : siftUp { swapH q idx (q.heap.length - 1) with
                heap := (swapH q idx (q.heap.length - 1)).heap.dropLast,
                position := posDel
                  (swapH q idx (q.heap.length - 1)).position e.2.2 } idx
                = { swapH q idx (q.heap.length - 1) with
                heap := (swapH q idx (q.heap.length - 1)).heap.dropLast,
                position := posDel
                  (swapH q idx (q.heap.length - 1)).position e.2.2 } := by
              apply siftUp_noop
              intro ei2 ep2 h1 h2
              replace h1 : ((swapH q idx (q.heap.length
                - 1)).heap.dropLast)[idx]? = some ei2 := h1
              replace h2 : ((swapH q idx (q.heap.length
                - 1)).heap.dropLast)[parentI idx]? = some ep2 := h2
              rw [h0] at h1 h2
              rw [show parentI 0 = 0 from rfl] at h2
              rw [h1] at h2
              cases h2
              exact entryLt_irrefl ei2
            rw [hno]
            have hD2 : DownOk { swapH q idx (q.heap.length - 1) with
                heap := (swapH q idx (q.heap.length - 1)).heap.dropLast,
                position := posDel
                  (swapH q idx (q.heap.length - 1)).position e.2.2 } idx := by
              constructor
              · intro j ej ep hj hpj hje hpe
                replace hje : ((swapH q idx (q.heap.length
                  - 1)).heap.dropLast)[j]? = some ej := hje
                replace hpe : ((swapH q idx (q.heap.length
                  - 1)).heap.dropLast)[parentI j]? = some ep := hpe
                rw [hget2] at hje hpe
                by_cases hjl : j < q.heap.length - 1
                · rw [if_pos hjl, if_neg (by omega)] at hje
                  have hpl : parentI j < q.heap.length - 1 := by
                    have := parentI_lt hj
                    omega
                  rw [if_pos hpl, if_neg (by omega)] at hpe
                  exact hH j ej ep hj hje hpe
                · rw [if_neg hjl] at hje
                  cases hje
              · intro j ej gp hj0 hpj hj hje hgp
                omega
            obtain ⟨hC3, hH3⟩ := siftDown_spec
              ((swapH q idx (q.heap.length - 1)).heap.dropLast.length) _ idx
              (by
                show (swapH q idx (q.heap.length - 1)).heap.dropLast.length
                  ≤ idx + (swapH q idx (q.heap.length - 1)).heap.dropLast.length
                omega) hC2 hD2
            exact (PQInv_iff _).mpr ⟨hC3, hH3⟩
          · -- interior removal
            have hpidx : parentI idx < q.heap.length - 1 := by
              have := parentI_lt h0
              omega
            obtain ⟨ep, hep0⟩ : ∃ e3, q.heap[parentI idx]? = some e3 :=
              ⟨_, List.getElem?_eq_getElem (by omega)⟩
            have hep : ((swapH q idx (q.heap.length
                - 1)).heap.dropLast)[parentI idx]? = some ep := by
              rw [hget2, if_pos hpidx, if_neg (by have := parentI_lt h0; omega)]
              exact hep0
            by_cases hlt4 : entryLt elast ep = true
            · -- the moved-in entry must travel up
              have hU2 : UpOk { swapH q idx (q.heap.length - 1) with
                  heap := (swapH q idx (q.heap.length - 1)).heap.dropLast,
                  position := posDel
                    (swapH q idx (q.heap.length - 1)).position e.2.2 } idx := by
                constructor
                · intro j ej ep2 hj hji hje hpe
                  replace hje : ((swapH q idx (q.heap.length
                    - 1)).heap.dropLast)[j]? = some ej := hje
                  replace hpe : ((swapH q idx (q.heap.length
                    - 1)).heap.dropLast)[parentI j]? = some ep2 := hpe
                  rw [hget2] at hje hpe
                  by_cases hjl : j < q.heap.length - 1
                  · rw [if_pos hjl, if_neg hji] at hje
                    have hpl : parentI j < q.heap.length - 1 := by
                      have := parentI_lt hj
                      omega
                    rw [if_pos hpl] at hpe
                    by_cases hpj : parentI j = idx
                    · rw [if_pos hpj] at hpe
                      cases hpe
                      have h7 := hH j ej e hj hje (by rw [hpj]; exact hqi)
                      have h6 := hH idx e ep h0 hqi hep0
                      exact entryLe_trans (entryLe_of_le_lt h6 hlt4) h7
                    · rw [if_neg hpj] at hpe
                      exact hH j ej ep2 hj hje hpe
                  · rw [if_neg hjl] at hje
                    cases hje
                · intro j ej gp hj0 hpj hj hje hgp
                  replace hje : ((swapH q idx (q.heap.length
                    - 1)).heap.dropLast)[j]? = some ej := hje
                  replace hgp : ((swapH q idx (q.heap.length
                    - 1)).heap.dropLast)[parentI idx]? = some gp := hgp
                  rw [hep] at hgp
                  cases hgp
                  rw [hget2] at hje
                  by_cases hjl : j < q.heap.length - 1
                  · have h5 : ¬ j = idx := by
                      have h4 := lt_of_parent hpj hj
                      omega
                    rw [if_pos hjl, if_neg h5] at hje
                    have h7 := hH j ej e hj hje (by rw [hpj]; exact hqi)
                    have h6 := hH idx e ep h0 hqi hep0
                    exact entryLe_trans h6 h7
                  · rw [if_neg hjl] at hje
                    cases hje
              obtain ⟨hC3, hH3⟩ := siftUp_spec idx _ hC2 hU2
              obtain ⟨hC4, hH4⟩ := siftDown_spec
                ((siftUp { swapH q idx (q.heap.length - 1) with
                  heap := (swapH q idx (q.heap.length - 1)).heap.dropLast,
                  position := posDel (swapH q idx (q.heap.length
                    - 1)).position e.2.2 } idx).heap.length) _ idx
                (by omega) hC3 (downok_of_heap hH3 idx)
              exact (PQInv_iff _).mpr ⟨hC4, hH4⟩
            · -- the moved-in entry stays or travels down
              have hlt5 : entryLt elast ep = false := by
                cases h9 : entryLt elast ep
                · rfl
                · exact absurd h9 hlt4
              have hno : siftUp { swapH q idx (q.heap.length - 1) with
                  heap := (swapH q idx (q.heap.length - 1)).heap.dropLast,
                  position := posDel
                    (swapH q idx (q.heap.length - 1)).position e.2.2 } idx
                  = { swapH q idx (q.heap.length - 1) with
                  heap := (swapH q idx (q.heap.length - 1)).heap.dropLast,
                  position := posDel
                    (swapH q idx (q.heap.length - 1)).position e.2.2 } := by
                apply siftUp_noop
                intro ei2 ep2 h1 h2
                replace h1 : ((swapH q idx (q.heap.length
                  - 1)).heap.dropLast)[idx]? = some ei2 := h1
                replace h2 : ((swapH q idx (q.heap.length
                  - 1)).heap.dropLast)[parentI idx]? = some ep2 := h2
                rw [hq2i] at h1
                cases h1
                rw [hep] at h2
                cases h2
                exact hlt5
              rw [hno]
              have hD2 : DownOk { swapH q idx (q.heap.length - 1) with
                  heap := (swapH q idx (q.heap.length - 1)).heap.dropLast,
                  position := posDel
                    (swapH q idx (q.heap.length - 1)).position e.2.2 } idx := by
                constructor
                · intro j ej ep2 hj hpj hje hpe
                  replace hje : ((swapH q idx (q.heap.length
                    - 1)).heap.dropLast)[j]? = some ej := hje
                  replace hpe : ((swapH q idx (q.heap.length
                    - 1)).heap.dropLast)[parentI j]? = some ep2 := hpe
                  rw [hget2] at hje hpe
                  by_cases hjl : j < q.heap.length - 1
                  · have hpl : parentI j < q.heap.length - 1 := by
                      have := parentI_lt hj
                      omega
                    rw [if_pos hjl] at hje
                    rw [if_pos hpl, if_neg hpj] at hpe
                    by_cases hji : j = idx
                    · rw [if_pos hji] at hje
                      cases hje
                      rw [hji] at hpe
                      rw [hep0] at hpe
                      cases hpe
                      exact hlt5
                    · rw [if_neg hji] at hje
                      exact hH j ej ep2 hj hje hpe
                  · rw [if_neg hjl] at hje
                    cases hje
                · intro j ej gp hj0 hpj hj hje hgp
                  replace hje : ((swapH q idx (q.heap.length
                    - 1)).heap.dropLast)[j]? = some ej := hje
                  replace hgp : ((swapH q idx (q.heap.length
                    - 1)).heap.dropLast)[parentI idx]? = some gp := hgp
                  rw [hep] at hgp
                  cases hgp
                  rw [hget2] at hje
                  by_cases hjl : j < q.heap.length - 1
                  · have h5 : ¬ j = idx := by
                      have h4 := lt_of_parent hpj hj
                      omega
                    rw [if_pos hjl, if_neg h5] at hje
                    have h7 := hH j ej e hj hje (by rw [hpj]; exact hqi)
                    have h6 := hH idx e ep hj0 hqi hep0
                    exact entryLe_trans h6 h7
                  · rw [if_neg hjl] at hje
                    cases hje
              obtain ⟨hC3, hH3⟩ := siftDown_spec
                ((swapH q idx (q.heap.length - 1)).heap.dropLast.length) _ idx
                (by
                  show (swapH q idx (q.heap.length - 1)).heap.dropLast.length
                    ≤ idx
                      + (swapH q idx (q.heap.length - 1)).heap.dropLast.length
                  omega) hC2 hD2
              exact (PQInv_iff _).mpr ⟨hC3, hH3⟩
        · rename_i hlt3
          exact absurd hcond hlt3

/-- Queue states reachable from `PriorityQueue()` (either mode) by
successful push/pop/update/remove calls. -/
inductive PQReach : Queue T → Prop
  | init (maxHeap : Bool) : PQReach (init maxHeap)
  | push {q q2 : Queue T} (item : T) (priority : Int) :
      PQReach q → push q item priority = .ok q2 → PQReach q2
  | pop {q : Queue T} {x : T} {q2 : Queue T} :
      PQReach q → pop q = .ok (x, q2) → PQReach q2
  | update {q q2 : Queue T} (item : T) (priority : Int) :
      PQReach q → update q item priority = .ok q2 → PQReach q2
  | remove {q q2 : Queue T} (item : T) :
      PQReach q → remove q item = .ok q2 → PQReach q2

theorem PQInv_init (maxHeap : Bool) : PQInv (init maxHeap : Queue T) := by
  refine ⟨?_, ?_, ?_, ?_, ?_, ?_⟩
  · intro i e he
    cases i <;> cases he
  · intro item i hx
    cases hx
  · intro i e he
    cases i <;> cases he
  · intro i j ei ej hi hj hij
    cases i <;> cases hi
  · intro j ej ep hj hje hpe
    cases j <;> cases hje
  · show (if maxHeap then -1 else 1 : Int) = 1 ∨
      (if maxHeap then -1 else 1 : Int) = -1
    cases maxHeap <;> simp

/-- Every reachable queue satisfies the internal invariant. -/
theorem PQReach_Inv {q : Queue T} (hR : PQReach q) : PQInv q := by
  induction hR with
  | init maxHeap => exact PQInv_init maxHeap
  | push item priority _ hok ih =>
      cases h9 : containsQ _ item with
      | true =>
          rw [(push_inv ih item _).1 h9] at hok
          cases hok
      | false =>
          obtain ⟨q3, hok2, hI⟩ := (push_inv ih item _).2 h9
          rw [hok] at hok2
          cases hok2
          exact hI
  | pop _ hok ih => exact pop_inv ih hok
  | update item priority _ hok ih => exact (update_inv ih item _).2 _ hok
  | remove item _ hok ih => exact (remove_inv ih item).2 _ hok

/-- The debugging check `_is_valid` accepts every state satisfying the
invariant. -/
theorem isValid_of_PQInv {q : Queue T} (hI : PQInv q) : isValid q = true := by
  obtain ⟨hC, hH⟩ := (PQInv_iff q).mp hI
  rw [isValid, List.all_eq_true]
  intro i hi
  rw [List.mem_range] at hi
  obtain ⟨e, he⟩ : ∃ e, q.heap[i]? = some e :=
    ⟨_, List.getElem?_eq_getElem hi⟩
  rw [he]
  show (decide (q.position e.2.2 = some i) &&
    ! entryLtO (q.heap[leftI i]?) (some e) &&
    ! entryLtO (q.heap[rightI i]?) (some e)) = true
  simp only [Bool.and_eq_true, Bool.not_eq_eq_eq_not, Bool.not_true]
  refine ⟨⟨?_, ?_⟩, ?_⟩
  · simp only [decide_eq_true_eq]
    exact hC.1 i e he
  · cases hl : q.heap[leftI i]? with
    | none => rfl
    | some el =>
        show entryLt el e = false
        exact hH (leftI i) el e (by simp [leftI]) hl
          (by rw [parentI_leftI]; exact he)
  · cases hr : q.heap[rightI i]? with
    | none => rfl
    | some er =>
        show entryLt er e = false
        exact hH (rightI i) er e (by simp [rightI]) hr
          (by rw [parentI_rightI]; exact he)

/-- `pop` on a non-empty queue returns the item of the root entry. -/
theorem pop_root {q : Queue T} {r : Entry T} (h0 : q.heap[0]? = some r) :
    ∃ q2, pop q = .ok (r.2.2, q2) := by
  have hlen : 0 < q.heap.length := lt_len_of_get h0
  have hn1 : q.heap.length - 1 < q.heap.length := by omega
  obtain ⟨elast, hlast⟩ : ∃ e, q.heap[q.heap.length - 1]? = some e :=
    ⟨_, List.getElem?_eq_getElem hn1⟩
  have hgl : (swapH q 0 (q.heap.length - 1)).heap.getLast? = some r := by
    rw [List.getLast?_eq_getElem?, swapH_length, swapH_getElem h0 hlast,
      if_pos rfl]
  rw [pop]
  split
  · rename_i heq
    rw [heq] at h0
    cases h0
  · rename_i a t heq
    simp only [hgl]
    rw [← apply_ite (fun z => (Except.ok (r.2.2, z) : Except PQErr (T × Queue T)))]
    exact ⟨_, rfl⟩

/-- `siftUp` does nothing at the root index. -/
theorem siftUp_zero (q : Queue T) : siftUp q 0 = q := by
  rw [siftUp.eq_def]
  simp

/-! ### Example reachable queue states used by the witnesses -/

def exQ0 : Queue Nat := init false

def exQ1 : Queue Nat := ⟨[(5, 0, 1)], posSet exQ0.position 1 0, 1, 1⟩

def exQ2 : Queue Nat := ⟨[(5, 0, 1), (5, 1, 2)], posSet exQ1.position 2 1, 2, 1⟩

theorem exPush1 : push exQ0 1 5 = .ok exQ1 := by
  rw [push, if_neg (by decide)]
  show Except.ok (siftUp (⟨[((5 : Int), 0, 1)], posSet exQ0.position 1 0,
    1, 1⟩ : Queue Nat) 0) = Except.ok exQ1
  rw [siftUp_zero]
  rfl

theorem exPush2 : push exQ1 2 5 = .ok exQ2 := by
  rw [push, if_neg (by decide)]
  show Except.ok (siftUp (⟨[((5 : Int), 0, 1), (5, 1, 2)],
    posSet exQ1.position 2 1, 2, 1⟩ : Queue Nat) 1) = Except.ok exQ2
  rw [siftUp_noop]
  · rfl
  · intro ei ep h1 h2
    have h1b : ei = ((5 : Int), 1, 2) := by
      rw [show ((⟨[((5 : Int), 0, 1), (5, 1, 2)], posSet exQ1.position 2 1,
        2, 1⟩ : Queue Nat)).heap[1]? = some (5, 1, 2) from rfl] at h1
      cases h1
      rfl
    have h2b : ep = ((5 : Int), 0, 1) := by
      rw [show parentI 1 = 0 from rfl] at h2
      rw [show ((⟨[((5 : Int), 0, 1), (5, 1, 2)], posSet exQ1.position 2 1,
        2, 1⟩ : Queue Nat)).heap[0]? = some (5, 0, 1) from rfl] at h2
      cases h2
      rfl
    rw [h1b, h2b]
    decide

theorem exReachPQ : PQReach exQ2 :=
  PQReach.push 2 5 (PQReach.push 1 5 (PQReach.init false) exPush1) exPush2

/-! ### The priority-queue claims -/

/-- C9: on every reachable queue, `push` of an already-present item fails
with `ValueError`; and tie-breaking is stable: if two stored entries carry
the same signed priority, `pop` never returns the later-inserted one (the
entry with the larger insertion counter) — so equal-priority items leave
the queue in insertion order.  The signed priority is `_sign * priority`
with `_sign` being 1 in min mode and -1 in max mode, so the statement
covers both modes: equal caller priorities give equal signed priorities
either way. -/
theorem C9_stability {q : Queue T} (hR : PQReach q) (item : T)
    (priority : Int) {i j : Nat} {ei ej : Entry T}
    (hdup : containsQ q item = true)
    (hi : q.heap[i]? = some ei) (hj : q.heap[j]? = some ej)
    (hp : ei.1 = ej.1) (hc : ei.2.1 < ej.2.1) :
    push q item priority = .error .valueError ∧
    (q.sign = 1 ∨ q.sign = -1) ∧
    ∃ r q2, q.heap[0]? = some r ∧ pop q = .ok (r.2.2, q2) ∧
      r.2.2 ≠ ej.2.2 := by
  have hI := PQReach_Inv hR
  obtain ⟨hC, hH⟩ := (PQInv_iff q).mp hI
  refine ⟨(push_inv hI item priority).1 hdup, hC.2.2.2.2, ?_⟩
  have h0len : 0 < q.heap.length := by
    have h9 := lt_len_of_get hi
    omega
  obtain ⟨r, h0⟩ : ∃ e, q.heap[0]? = some e :=
    ⟨_, List.getElem?_eq_getElem h0len⟩
  obtain ⟨q2, hpop⟩ := pop_root h0
  refine ⟨r, q2, h0, hpop, ?_⟩
  intro hitem
  have h9 := coherent_item_inj hC h0 hj hitem
  rw [← h9, h0] at hj
  have hre : r = ej := Option.some_inj.mp hj
  subst hre
  have hmin := root_min hH i ei r hi h0
  simp only [entryLt, decide_eq_false_iff_not] at hmin
  exact hmin (Or.inr ⟨hp, hc⟩)

theorem C9_stability_witness :
    push exQ2 1 7 = .error .valueError ∧
    (exQ2.sign = 1 ∨ exQ2.sign = -1) ∧
    ∃ r q2, exQ2.heap[0]? = some r ∧ pop exQ2 = .ok (r.2.2, q2) ∧
      r.2.2 ≠ (((5 : Int), 1, 2) : Entry Nat).2.2 :=
  C9_stability exReachPQ 1 7 (i := 0) (j := 1) rfl rfl rfl rfl (by decide)

/-- C10 (implicit): after every sequence of push/pop/update/remove
operations the internal consistency invariant holds — `_position` indexes
exactly the stored heap entries, counters are fresh and pairwise distinct,
no entry compares below its parent, and `_is_valid()` returns True. -/
theorem C10_internal_invariant {q : Queue T} (hR : PQReach q) :
    PQInv q ∧ isValid q = true :=
  ⟨PQReach_Inv hR, isValid_of_PQInv (PQReach_Inv hR)⟩

theorem C10_internal_invariant_witness :
    PQInv exQ2 ∧ isValid exQ2 = true :=
  C10_internal_invariant exReachPQ

end PQ

end DsaUtils